import Mathlib

/-!
# blt: day-partitioned bullet journal

A shallow embedding of `internal/model`, `internal/store` (the `FSStore`
implementation) and `internal/app` of the Go program, followed by theorems about
the entry lifecycle operations.

Modelling conventions.

* A `time.Time` is a wall-clock reading, counted in nanoseconds from
  `0001-01-01 00:00:00` (Go's zero time).  In the first part of the development the
  zone has no offset change, so that moving a time by 24 hours moves its reading by
  24 hours; the refinement section drops this for `Refresh` and `MigrateIndex`, which
  step by `24 * time.Hour`.  Local midnights are taken to exist: `time.Date` at
  00:00:00 returns them.
* A day file is represented by the sequence of entries `LoadDay` decodes from it;
  `none` stands for a file that does not exist.  Encoding an entry and decoding it
  again gives the same entry.  In the first part every day file ends in a newline and
  every time can be encoded; the refinement section (`Raw.FSStore`) drops both.
* The operating system is an oracle carried by the store state: every call of
  `time.Now` and `rand.Read` consumes the next reading, and every day has two
  flags telling whether reading, respectively writing, its file fails.
* `strings.ToLower` and `strings.EqualFold` (Unicode tables of the Go library)
  are parameters, collected in `Strings`.
* A Go method with a pointer receiver that returns `error` becomes a function
  returning the error (if any) together with the state it leaves behind.
-/

namespace Blt

/-! ## `time.Time` -/

/-- Nanoseconds in 24 hours (`24 * time.Hour`). -/
def nanosPerDay : Int := 86400000000000

/-- A `time.Time`: nanoseconds elapsed since `0001-01-01 00:00:00`. -/
structure Time where
  ns : Int
  deriving DecidableEq, Repr

/-- The zero value `time.Time{}`. -/
def Time.zero : Time := ⟨0⟩

/-- Model of `t.IsZero()`. -/
def Time.IsZero (t : Time) : Bool := t.ns == 0

/-- Number of the calendar day of `t` (day 0 is 0001-01-01); this is what
`t.Date()` determines. -/
def Time.dayNo (t : Time) : Int := t.ns / nanosPerDay

/-- Midnight at the start of day number `k`. -/
def Time.ofDay (k : Int) : Time := ⟨k * nanosPerDay⟩

/-- Model of `t.Add(d)` with `d` in nanoseconds, in a zone without offset change;
`Zone.Add` is the general case. -/
def Time.Add (t : Time) (d : Int) : Time := ⟨t.ns + d⟩

/-- Model of `t.AddDate(0, 0, days)`: the same time of day, `days` days later. -/
def Time.AddDays (t : Time) (days : Int) : Time := ⟨t.ns + days * nanosPerDay⟩

/-- Model of `t.After(u)`. -/
def Time.After (t u : Time) : Bool := decide (u.ns < t.ns)

/-- Model of `t.Weekday()`, Sunday = 0; day 0 is a Monday. -/
def Time.Weekday (t : Time) : Int := (t.dayNo + 1) % 7

/-- Day number of the civil date `y-m-d` in the proleptic Gregorian calendar; months
and days out of range are normalised the way `time.Date` does. -/
def daysFromCivil (y m d : Int) : Int :=
  let y0 := y + (m - 1) / 12
  let m0 := (m - 1) % 12 + 1
  let y1 := if m0 ≤ 2 then y0 - 1 else y0
  let era := y1 / 400
  let yoe := y1 - era * 400
  let mp := if m0 > 2 then m0 - 3 else m0 + 9
  let doy := (153 * mp + 2) / 5 + d - 1
  let doe := yoe * 365 + yoe / 4 - yoe / 100 + doy
  era * 146097 + doe - 306

/-- Civil date `(year, month, day)` of a day number: what `t.Date()` returns. -/
def civilFromDays (k : Int) : Int × Int × Int :=
  let z := k + 306
  let era := z / 146097
  let doe := z - era * 146097
  let yoe := (doe - doe / 1460 + doe / 36524 - doe / 146096) / 365
  let doy := doe - (365 * yoe + yoe / 4 - yoe / 100)
  let mp := (5 * doy + 2) / 153
  let d := doy - (153 * mp + 2) / 5 + 1
  let m := if mp < 10 then mp + 3 else mp - 9
  (if m ≤ 2 then yoe + era * 400 + 1 else yoe + era * 400, m, d)

/-- Model of `t.AddDate(years, months, days)`: the civil date is moved and
normalised by `time.Date`, the time of day is kept. -/
def Time.AddDate (t : Time) (years months days : Int) : Time :=
  let (y, m, d) := civilFromDays t.dayNo
  ⟨daysFromCivil (y + years) (m + months) (d + days) * nanosPerDay + t.ns % nanosPerDay⟩

/-- Model of `time.Date(y, m, d, 0, 0, 0, 0, loc)`. -/
def Time.Date (y m d : Int) : Time := Time.ofDay (daysFromCivil y m d)

/-- Model of `t.UnixNano()`: nanoseconds since 1970-01-01, wrapped to `int64`. -/
def Time.UnixNano (t : Time) : Int :=
  (t.ns - 719162 * nanosPerDay + 2 ^ 63) % 2 ^ 64 - 2 ^ 63

/-- Translation of `dateOnly` (app.go): `t.Date()` followed by `time.Date` at
00:00:00 is midnight of the calendar day of `t`. -/
def dateOnly (t : Time) : Time := Time.ofDay t.dayNo

/-! ## `internal/model` -/

/-- The Go type `BulletType`, a string. -/
abbrev BulletType := String

def Task : BulletType := "task"
def Done : BulletType := "done"
def Migrated : BulletType := "migrated"
def Scheduled : BulletType := "scheduled"
def Event : BulletType := "event"
def Note : BulletType := "note"
def HighlightImportant : BulletType := "highlight_important"
def HighlightInspiration : BulletType := "highlight_inspiration"

/-- The Go struct `model.Bullet`.  The field `Type` is called `Typ` here; pointer
fields are options; a nil and an empty `Tags` slice are both `[]`. -/
structure Bullet where
  ID : String
  Typ : BulletType
  Text : String
  Tags : List String
  CreatedAt : Time
  ScheduledFor : Option Time
  CompletedAt : Option Time
  Highlight : String
  deriving DecidableEq, Repr

/-- The Go type `model.Period`, a string. -/
abbrev Period := String

def PeriodDay : Period := "day"
def PeriodWeek : Period := "week"
def PeriodMonth : Period := "month"

/-- The Go struct `model.DateRange`. -/
structure DateRange where
  Start : Time
  End : Time
  deriving DecidableEq, Repr

/-! ## Library functions on strings -/

/-- The two functions of the Go `strings` package that depend on Unicode case
tables. -/
structure Strings where
  ToLower : String → String
  EqualFold : String → String → Bool

/-- Model of `strings.Contains`. -/
def stringsContains (s sub : String) : Bool := decide (sub.data <:+: s.data)

/-- Model of `strings.TrimPrefix(s, "#")`. -/
def trimHash (s : String) : String :=
  match s.data with
  | '#' :: rest => String.mk rest
  | _ => s

/-- A Go `map[K]bool` as an association list with distinct keys. -/
abbrev BoolMap (κ : Type) := List (κ × Bool)

/-- Model of the map read `m[k]`; a missing key reads as `false`. -/
def BoolMap.get {κ : Type} [DecidableEq κ] (m : BoolMap κ) (k : κ) : Bool :=
  match m with
  | [] => false
  | (k0, v) :: rest => if k0 = k then v else BoolMap.get rest k

/-! ## `internal/store`: `FSStore` -/

/-- An `error` value returned by the store. -/
inductive Err where
  | read (day : Int)
  | write (day : Int)
  | encode (day : Int)
  deriving DecidableEq, Repr

/-- The state behind an `*FSStore`: the day files below its root, keyed by day
number, the fault flags of each of them, and the readings `time.Now` and
`rand.Read` will return, with the number of readings consumed so far. -/
structure FSStore where
  files : Int → Option (List Bullet)
  readErr : Int → Bool
  writeErr : Int → Bool
  clock : Nat → Time
  entropy : Nat → Nat
  clockUsed : Nat
  entropyUsed : Nat

/-- Model of `time.Now()`. -/
def timeNow (s : FSStore) : Time × FSStore :=
  (s.clock s.clockUsed, { s with clockUsed := s.clockUsed + 1 })

/-- One lower-case hexadecimal digit. -/
def hexDigit (n : Nat) : Char :=
  if n < 10 then Char.ofNat (48 + n) else Char.ofNat (87 + n)

/-- Model of `hex.EncodeToString` on the eight bytes (most significant first) of
`r % 2^64`. -/
def hexEncode8 (r : Nat) : String :=
  String.mk ((List.range 8).flatMap fun i =>
    let b := (r / 256 ^ (7 - i)) % 256
    [hexDigit (b / 16), hexDigit (b % 16)])

/-- Translation of `generateID`: eight random bytes are read, then the id is
`fmt.Sprintf("%d-%s", time.Now().UnixNano(), hex.EncodeToString(rb[:]))`. -/
def generateID (s : FSStore) : String × FSStore :=
  let rb := s.entropy s.entropyUsed
  let s1 := { s with entropyUsed := s.entropyUsed + 1 }
  let (now, s2) := timeNow s1
  (toString now.UnixNano ++ "-" ++ hexEncode8 rb, s2)

/-- The entries of day number `k` as stored: empty when there is no file. -/
def FSStore.record (s : FSStore) (k : Int) : List Bullet := (s.files k).getD []

/-- The file of day number `k` now holds exactly the lines of `items`. -/
def FSStore.writeFile (s : FSStore) (k : Int) (items : List Bullet) : FSStore :=
  { s with files := fun j => if j = k then some items else s.files j }

/-- Translation of `FSStore.LoadDay`: a missing file is an empty day. -/
def FSStore.LoadDay (s : FSStore) (date : Time) : Except Err (List Bullet) :=
  if s.readErr date.dayNo then .error (.read date.dayNo)
  else
    match s.files date.dayNo with
    | none => .ok []
    | some items => .ok items

/-- The statements both `SaveDay` (for each item) and `Append` run before encoding:
an empty `ID` is generated, a zero `CreatedAt` is set to `time.Now()`. -/
def stamp (s : FSStore) (it : Bullet) : Bullet × FSStore :=
  let (it1, s1) :=
    if it.ID = "" then
      let (id, s') := generateID s
      ({ it with ID := id }, s')
    else (it, s)
  if it1.CreatedAt.IsZero then
    let (now, s') := timeNow s1
    ({ it1 with CreatedAt := now }, s')
  else (it1, s1)

/-- The loop of `SaveDay` over `items`, collecting what is encoded. -/
def stampAll (s : FSStore) : List Bullet → List Bullet × FSStore
  | [] => ([], s)
  | it :: rest =>
    let (b, s1) := stamp s it
    let (bs, s2) := stampAll s1 rest
    (b :: bs, s2)

/-- Translation of `FSStore.SaveDay`: the whole day file is replaced by the encoded
items; when writing fails the live file is untouched.  Every item is taken to be
accepted by the encoder; `Raw.FSStore.SaveDay` is the general case. -/
def FSStore.SaveDay (s : FSStore) (date : Time) (items : List Bullet) : Option Err × FSStore :=
  if s.writeErr date.dayNo then (some (.write date.dayNo), s)
  else
    let (out, s1) := stampAll s items
    (none, s1.writeFile date.dayNo out)

/-- Translation of `FSStore.Append`: one encoded line is added at the end of the day
file, which is created when missing.  The file is taken to end in a newline and the
entry to be accepted by the encoder; `Raw.FSStore.Append` is the general case. -/
def FSStore.Append (s : FSStore) (date : Time) (b : Bullet) : Option Err × FSStore :=
  if s.writeErr date.dayNo then (some (.write date.dayNo), s)
  else
    let (b1, s1) := stamp s b
    (none, s1.writeFile date.dayNo (s1.record date.dayNo ++ [b1]))

/-- The loop of `Update`: the first item whose `ID` equals `b.ID` is replaced. -/
def replaceFirst (b : Bullet) : List Bullet → List Bullet
  | [] => []
  | it :: rest => if it.ID = b.ID then b :: rest else it :: replaceFirst b rest

/-- Translation of `FSStore.Update`. -/
def FSStore.Update (s : FSStore) (date : Time) (b : Bullet) : Option Err × FSStore :=
  match s.LoadDay date with
  | .error e => (some e, s)
  | .ok items => s.SaveDay date (replaceFirst b items)

/-- Translation of `FSStore.Delete`. -/
def FSStore.Delete (s : FSStore) (date : Time) (id : String) : Option Err × FSStore :=
  match s.LoadDay date with
  | .error e => (some e, s)
  | .ok items => s.SaveDay date (items.filter fun it => it.ID ≠ id)

/-! ## `internal/app` -/

/-- The Go struct `app.Entry`: a bullet and its owning date. -/
structure Entry where
  Date : Time
  Item : Bullet
  deriving DecidableEq, Repr

/-- The Go struct `app.App`; `Store` holds the state of the `FSStore` behind the
interface value. -/
structure App where
  Store : FSStore
  CurrentDate : Time
  Period : Period
  Items : List Entry
  TextFilter : String
  TypeFilter : BoolMap BulletType
  TagFilter : BoolMap String

/-- Translation of `App.dateRange`. -/
def App.dateRange (a : App) : DateRange :=
  let d := dateOnly a.CurrentDate
  if a.Period = PeriodWeek then
    let wd := if d.Weekday = 0 then 7 else d.Weekday
    let start := d.AddDays (-(wd - 1))
    ⟨start, start.AddDays 6⟩
  else if a.Period = PeriodMonth then
    let (y, m, _) := civilFromDays d.dayNo
    let start := Time.Date y m 1
    ⟨start, start.AddDate 0 1 (-1)⟩
  else ⟨d, d⟩

/-- The loop of `App.Refresh`, starting at `d`, with at most `fuel` iterations, in a
zone without offset change; `Raw.collectDays` is the general case. -/
def collectDays (s : FSStore) (last : Time) : Nat → Time → Except Err (List Entry)
  | 0, _ => .ok []
  | fuel + 1, d =>
    if d.After last then .ok []
    else
      match s.LoadDay d with
      | .error e => .error e
      | .ok items =>
        match collectDays s last fuel (d.Add nanosPerDay) with
        | .error e => .error e
        | .ok rest => .ok (items.map (fun it => ⟨dateOnly d, it⟩) ++ rest)

/-- Translation of `App.Refresh`; the fuel is the number of days from `Start` to
`End`, so the loop always ends by its own test. -/
def App.Refresh (a : App) : Option Err × App :=
  let rng := a.dateRange
  match collectDays a.Store rng.End ((rng.End.ns - rng.Start.ns) / nanosPerDay + 1).toNat rng.Start with
  | .error e => (some e, a)
  | .ok entries => (none, { a with Items := entries })

/-- Translation of `App.match`. -/
def App.matchEntry (L : Strings) (a : App) (e : Entry) : Bool :=
  if a.TextFilter ≠ "" ∧ ¬ stringsContains (L.ToLower e.Item.Text) (L.ToLower a.TextFilter) then false
  else if a.TypeFilter.length > 0 ∧ ¬ a.TypeFilter.get e.Item.Typ then false
  else if a.TagFilter.length > 0 ∧
      ¬ e.Item.Tags.any (fun t => a.TagFilter.get (trimHash (L.ToLower t))) then false
  else true

/-- Translation of `App.Visible`. -/
def App.Visible (L : Strings) (a : App) : List Entry :=
  a.Items.filter (a.matchEntry L)

/-- The tail `if err := ...; err != nil { return err }; return a.Refresh()`. -/
def thenRefresh (a : App) (r : Option Err × FSStore) : Option Err × App :=
  match r with
  | (some e, s) => (some e, { a with Store := s })
  | (none, s) => App.Refresh { a with Store := s }

/-- The tail `return a.Store.<op>(...)`. -/
def thenReturn (a : App) (r : Option Err × FSStore) : Option Err × App :=
  (r.1, { a with Store := r.2 })

/-- The search loop of the undo branches: the id and type of the first item whose
text equals `text` under `strings.EqualFold` and whose type is Task or Event;
`("", Task)` when there is none. -/
def findClone (L : Strings) (text : String) : List Bullet → String × BulletType
  | [] => ("", Task)
  | it :: rest =>
    if L.EqualFold it.Text text ∧ (it.Typ = Task ∨ it.Typ = Event) then (it.ID, it.Typ)
    else findClone L text rest

/-- Translation of `App.Add`. -/
def App.Add (a : App) (text : String) : Bullet × Option Err × App :=
  let zero : Bullet := ⟨"", "", "", [], Time.zero, none, none, ""⟩
  let (now, s0) := timeNow a.Store
  let b : Bullet := { zero with Text := text, Typ := Task, CreatedAt := now }
  match s0.Append a.CurrentDate b with
  | (some e, s) => (zero, some e, { a with Store := s })
  | (none, s) =>
    match App.Refresh { a with Store := s } with
    | (some e, a1) => (zero, some e, a1)
    | (none, a1) => (b, none, a1)

/-- Translation of `App.UpdateText`. -/
def App.UpdateText (L : Strings) (a : App) (index : Int) (text : String) : Option Err × App :=
  let vis := a.Visible L
  if index < 0 ∨ index ≥ vis.length then (none, a)
  else
    match vis[index.toNat]? with
    | none => (none, a)
    | some e => thenRefresh a (a.Store.Update e.Date { e.Item with Text := text })

/-- Translation of `App.DeleteIndex`. -/
def App.DeleteIndex (L : Strings) (a : App) (index : Int) : Option Err × App :=
  let vis := a.Visible L
  if index < 0 ∨ index ≥ vis.length then (none, a)
  else
    match vis[index.toNat]? with
    | none => (none, a)
    | some e => thenRefresh a (a.Store.Delete e.Date e.Item.ID)

/-- Translation of `App.CompleteIndex`. -/
def App.CompleteIndex (L : Strings) (a : App) (index : Int) : Option Err × App :=
  let vis := a.Visible L
  if index < 0 ∨ index ≥ vis.length then (none, a)
  else
    match vis[index.toNat]? with
    | none => (none, a)
    | some e =>
      let it := e.Item
      if it.Typ = Migrated ∨ it.Typ = Scheduled then (none, a)
      else if it.Typ = Task then
        let (now, s0) := timeNow a.Store
        thenRefresh a (s0.Update e.Date { it with Typ := Done, CompletedAt := some now })
      else if it.Typ = Done then
        thenRefresh a (a.Store.Update e.Date { it with Typ := Task, CompletedAt := none })
      else (none, a)

/-- Translation of `App.MigrateIndex`. -/
def App.MigrateIndex (L : Strings) (a : App) (index : Int) : Option Err × App :=
  let vis := a.Visible L
  if index < 0 ∨ index ≥ vis.length then (none, a)
  else
    match vis[index.toNat]? with
    | none => (none, a)
    | some e =>
      let orig := e.Item
      if orig.Typ = Migrated then
        let target :=
          match orig.ScheduledFor with
          | some sf => dateOnly sf
          | none => e.Date.Add nanosPerDay
        match a.Store.LoadDay target with
        | .error err => (some err, a)
        | .ok items =>
          let (cloneID, restoreType) := findClone L orig.Text items
          let orig1 := { orig with Typ := restoreType, CompletedAt := none, ScheduledFor := none }
          match a.Store.Update e.Date orig1 with
          | (some err, s) => (some err, { a with Store := s })
          | (none, s) =>
            if cloneID ≠ "" then thenRefresh a (s.Delete target cloneID)
            else App.Refresh { a with Store := s }
      else if orig.Typ ≠ Task ∧ orig.Typ ≠ Event then (none, a)
      else
        let next := e.Date.Add nanosPerDay
        let marked := { orig with Typ := Migrated, CompletedAt := none, ScheduledFor := some next }
        match a.Store.Update e.Date marked with
        | (some err, s) => (some err, { a with Store := s })
        | (none, s) =>
          let clone := { orig with ID := "", CompletedAt := none, ScheduledFor := none,
                                   CreatedAt := Time.zero }
          thenRefresh a (s.Append next clone)

/-- Translation of `App.ScheduleIndex`. -/
def App.ScheduleIndex (L : Strings) (a : App) (index : Int) (date : Time) : Option Err × App :=
  let vis := a.Visible L
  if index < 0 ∨ index ≥ vis.length then (none, a)
  else
    match vis[index.toNat]? with
    | none => (none, a)
    | some e =>
      let orig := e.Item
      if orig.Typ = Scheduled then
        match orig.ScheduledFor with
        | none => (none, a)
        | some sf =>
          let target := dateOnly sf
          match a.Store.LoadDay target with
          | .error err => (some err, a)
          | .ok items =>
            let (cloneID, restoreType) := findClone L orig.Text items
            let orig1 := { orig with Typ := restoreType, ScheduledFor := none, CompletedAt := none }
            match a.Store.Update e.Date orig1 with
            | (some err, s) => (some err, { a with Store := s })
            | (none, s) =>
              if cloneID ≠ "" then thenRefresh a (s.Delete target cloneID)
              else App.Refresh { a with Store := s }
      else if orig.Typ ≠ Task ∧ orig.Typ ≠ Event then (none, a)
      else
        let marked := { orig with Typ := Scheduled, ScheduledFor := some date, CompletedAt := none }
        match a.Store.Update e.Date marked with
        | (some err, s) => (some err, { a with Store := s })
        | (none, s) =>
          let clone := { orig with ID := "", ScheduledFor := none, CompletedAt := none,
                                   CreatedAt := Time.zero }
          thenRefresh a (s.Append (dateOnly date) clone)

/-- Translation of `App.ChangeTypeIndex`. -/
def App.ChangeTypeIndex (L : Strings) (a : App) (index : Int) (t : BulletType) : Option Err × App :=
  let vis := a.Visible L
  if index < 0 ∨ index ≥ vis.length then (none, a)
  else
    match vis[index.toNat]? with
    | none => (none, a)
    | some e =>
      let it := { e.Item with Typ := t }
      let (it1, s0) :=
        if t = Done then
          let (now, s') := timeNow a.Store
          ({ it with CompletedAt := some now }, s')
        else ({ it with CompletedAt := none }, a.Store)
      let it2 := if t ≠ Scheduled then { it1 with ScheduledFor := none } else it1
      thenRefresh a (s0.Update e.Date it2)

/-- Translation of `App.UpdateTagsIndex`. -/
def App.UpdateTagsIndex (L : Strings) (a : App) (index : Int) (tags : List String) : Option Err × App :=
  let vis := a.Visible L
  if index < 0 ∨ index ≥ vis.length then (none, a)
  else
    match vis[index.toNat]? with
    | none => (none, a)
    | some e => thenRefresh a (a.Store.Update e.Date { e.Item with Tags := tags })

/-- Translation of `App.DeleteDayIndex`. -/
def App.DeleteDayIndex (a : App) (date : Time) (index : Int) : Option Err × App :=
  match a.Store.LoadDay (dateOnly date) with
  | .error err => (some err, a)
  | .ok items =>
    if index < 0 ∨ index ≥ items.length then (none, a)
    else
      match items[index.toNat]? with
      | none => (none, a)
      | some it => thenReturn a (a.Store.Delete (dateOnly date) it.ID)

/-- Translation of `App.UpdateDayIndexText`. -/
def App.UpdateDayIndexText (a : App) (date : Time) (index : Int) (text : String) : Option Err × App :=
  match a.Store.LoadDay (dateOnly date) with
  | .error err => (some err, a)
  | .ok items =>
    if index < 0 ∨ index ≥ items.length then (none, a)
    else
      match items[index.toNat]? with
      | none => (none, a)
      | some it => thenReturn a (a.Store.Update (dateOnly date) { it with Text := text })

/-- Translation of `App.CompleteDayIndex`. -/
def App.CompleteDayIndex (a : App) (date : Time) (index : Int) : Option Err × App :=
  let d := dateOnly date
  match a.Store.LoadDay d with
  | .error err => (some err, a)
  | .ok items =>
    if index < 0 ∨ index ≥ items.length then (none, a)
    else
      match items[index.toNat]? with
      | none => (none, a)
      | some it =>
        if it.Typ = Migrated ∨ it.Typ = Scheduled then (none, a)
        else if it.Typ = Task then
          let (now, s0) := timeNow a.Store
          thenReturn a (s0.Update d { it with Typ := Done, CompletedAt := some now })
        else if it.Typ = Done then
          thenReturn a (a.Store.Update d { it with Typ := Task, CompletedAt := none })
        else (none, a)

/-- Translation of `App.MigrateDayIndex`. -/
def App.MigrateDayIndex (L : Strings) (a : App) (date : Time) (index : Int) : Option Err × App :=
  let d := dateOnly date
  match a.Store.LoadDay d with
  | .error err => (some err, a)
  | .ok items =>
    if index < 0 ∨ index ≥ items.length then (none, a)
    else
      match items[index.toNat]? with
      | none => (none, a)
      | some orig =>
        if orig.Typ = Migrated then
          let target :=
            match orig.ScheduledFor with
            | some sf => dateOnly sf
            | none => d.AddDays 1
          match a.Store.LoadDay target with
          | .error err => (some err, a)
          | .ok titems =>
            let (cloneID, restoreType) := findClone L orig.Text titems
            let orig1 := { orig with Typ := restoreType, CompletedAt := none, ScheduledFor := none }
            match a.Store.Update d orig1 with
            | (some err, s) => (some err, { a with Store := s })
            | (none, s) =>
              if cloneID ≠ "" then thenReturn a (s.Delete target cloneID)
              else (none, { a with Store := s })
        else if orig.Typ ≠ Task ∧ orig.Typ ≠ Event then (none, a)
        else
          let next := d.AddDays 1
          let marked := { orig with Typ := Migrated, CompletedAt := none, ScheduledFor := some next }
          match a.Store.Update d marked with
          | (some err, s) => (some err, { a with Store := s })
          | (none, s) =>
            let clone := { orig with ID := "", CompletedAt := none, ScheduledFor := none,
                                     CreatedAt := Time.zero }
            thenReturn a (s.Append next clone)

/-- Translation of `App.ScheduleDayIndex`. -/
def App.ScheduleDayIndex (L : Strings) (a : App) (date : Time) (index : Int) (target : Time) :
    Option Err × App :=
  let d := dateOnly date
  match a.Store.LoadDay d with
  | .error err => (some err, a)
  | .ok items =>
    if index < 0 ∨ index ≥ items.length then (none, a)
    else
      match items[index.toNat]? with
      | none => (none, a)
      | some orig =>
        if orig.Typ = Scheduled then
          match orig.ScheduledFor with
          | none => (none, a)
          | some sf =>
            let targetDay := dateOnly sf
            match a.Store.LoadDay targetDay with
            | .error err => (some err, a)
            | .ok titems =>
              let (cloneID, restoreType) := findClone L orig.Text titems
              let orig1 := { orig with Typ := restoreType, CompletedAt := none, ScheduledFor := none }
              match a.Store.Update d orig1 with
              | (some err, s) => (some err, { a with Store := s })
              | (none, s) =>
                if cloneID ≠ "" then thenReturn a (s.Delete targetDay cloneID)
                else (none, { a with Store := s })
        else if orig.Typ ≠ Task ∧ orig.Typ ≠ Event then (none, a)
        else
          let tgt := dateOnly target
          let marked := { orig with Typ := Scheduled, CompletedAt := none, ScheduledFor := some tgt }
          match a.Store.Update d marked with
          | (some err, s) => (some err, { a with Store := s })
          | (none, s) =>
            let clone := { orig with ID := "", CompletedAt := none, ScheduledFor := none,
                                     CreatedAt := Time.zero }
            thenReturn a (s.Append tgt clone)

/-! ## Properties of day records and example data -/

/-- Every entry carries an id and a creation time, as every entry written by the
store does. -/
def Stamped (items : List Bullet) : Prop :=
  ∀ b ∈ items, b.ID ≠ "" ∧ b.CreatedAt.IsZero = false

/-- The ids of a day record are pairwise distinct. -/
def DistinctIDs (items : List Bullet) : Prop := (items.map (·.ID)).Nodup

instance (items : List Bullet) : Decidable (Stamped items) := by
  unfold Stamped; infer_instance

instance (items : List Bullet) : Decidable (DistinctIDs items) := by
  unfold DistinctIDs; infer_instance

/-- No file operation fails. -/
def FSStore.Healthy (s : FSStore) : Prop :=
  ∀ k, s.readErr k = false ∧ s.writeErr k = false

/-- Case folding restricted to the ASCII letters, on which the Go library agrees. -/
def asciiStrings : Strings where
  ToLower s := String.mk (s.data.map Char.toLower)
  EqualFold s t := decide (s.data.map Char.toLower = t.data.map Char.toLower)

/-- The date 2024-01-01. -/
def jan1 : Time := Time.Date 2024 1 1

/-- The task "Buy milk", created on 2024-01-01. -/
def milk (id : String) : Bullet :=
  { ID := id, Typ := Task, Text := "Buy milk", Tags := [], CreatedAt := ⟨jan1.ns + 1⟩,
    ScheduledFor := none, CompletedAt := none, Highlight := "" }

/-- A store with the given day files, no faults, a clock that starts at 01:00 on
2024-01-01 and advances by a nanosecond per reading. -/
def storeOf (files : Int → Option (List Bullet)) : FSStore :=
  { files := files, readErr := fun _ => false, writeErr := fun _ => false,
    clock := fun n => ⟨jan1.ns + 3600000000000 + n⟩, entropy := fun n => n + 1,
    clockUsed := 0, entropyUsed := 0 }

/-- An application in its initial configuration (day view, no filters) on `s`. -/
def appOf (s : FSStore) : App :=
  { Store := s, CurrentDate := jan1, Period := PeriodDay, Items := [], TextFilter := "",
    TypeFilter := [], TagFilter := [] }

/-- A store whose only file is that of day `t`, holding `items`. -/
def oneDay (t : Time) (items : List Bullet) : FSStore :=
  storeOf fun k => if k = t.dayNo then some items else none

/-- The anchor left behind by a forward migration or scheduling. -/
def forwarded (e : Bullet) (kind : BulletType) (target : Time) : Bullet :=
  { e with Typ := kind, CompletedAt := none, ScheduledFor := some target }

/-- The copy handed to `Append` by a forward migration or scheduling. -/
def cloneOf (e : Bullet) : Bullet :=
  { e with ID := "", CompletedAt := none, ScheduledFor := none, CreatedAt := Time.zero }

/-- The store after the anchor `e` at index `i` of day `D` was rewritten to `m` and
its clone was appended to day `T`. -/
def afterForward (s : FSStore) (D : Int) (i : Nat) (e m : Bullet) (T : Int) : FSStore :=
  let s1 := s.writeFile D ((s.record D).set i m)
  (stamp s1 (cloneOf e)).2.writeFile T (s1.record T ++ [(stamp s1 (cloneOf e)).1])

/-- The clone as `Append` stores it on the target day. -/
def storedClone (s : FSStore) (D : Int) (i : Nat) (e m : Bullet) : Bullet :=
  (stamp (s.writeFile D ((s.record D).set i m)) (cloneOf e)).1

/-- The entry `e` completed at time `now`. -/
def markDone (e : Bullet) (now : Time) : Bullet := { e with Typ := Done, CompletedAt := some now }

/-- The entry `e` turned back into a task. -/
def markTask (e : Bullet) : Bullet := { e with Typ := Task, CompletedAt := none }

/-- The note "Call Ann", created on 2024-01-01. -/
def memo (id : String) : Bullet :=
  { ID := id, Typ := Note, Text := "Call Ann", Tags := [], CreatedAt := ⟨jan1.ns + 2⟩,
    ScheduledFor := none, CompletedAt := none, Highlight := "" }

/-- The test of the undo search loop on one item. -/
def isCandidate (L : Strings) (text : String) (it : Bullet) : Bool :=
  decide (L.EqualFold it.Text text = true ∧ (it.Typ = Task ∨ it.Typ = Event))

/-- The first entry, in stored order, whose text equals `text` under
`strings.EqualFold` and whose type is Task or Event. -/
def firstClone (L : Strings) (text : String) (titems : List Bullet) : Option Bullet :=
  titems.find? (isCandidate L text)

/-- Day number of the target of an undo: the recorded `ScheduledFor`, else `D+1`. -/
def undoTarget (a0 : Bullet) (D : Int) : Int :=
  match a0.ScheduledFor with
  | some sf => sf.dayNo
  | none => D + 1

/-- The anchor `a0` after an undo that found `c`. -/
def restoredAs (a0 : Bullet) (c : Option Bullet) : Bullet :=
  { a0 with Typ := match c with
                   | some b => b.Typ
                   | none => Task,
            CompletedAt := none, ScheduledFor := none }

/-- The store after the undo branch ran on the anchor `a0` at index `i` of day `D`
with target day `T`: the anchor is rewritten, then the items of `T` with the id found
by the search are filtered out, unless that id is empty. -/
def afterUndo (L : Strings) (s : FSStore) (D : Int) (i : Nat) (a0 : Bullet) (T : Int) : FSStore :=
  let found := findClone L a0.Text (s.record T)
  let s1 := s.writeFile D ((s.record D).set i
    { a0 with Typ := found.2, CompletedAt := none, ScheduledFor := none })
  if found.1 ≠ "" then s1.writeFile T ((s1.record T).filter fun it => it.ID ≠ found.1)
  else s1

/-- The date 2024-01-02. -/
def jan2 : Time := Time.Date 2024 1 2

/-- A store with two day files. -/
def twoDays (t1 : Time) (items1 : List Bullet) (t2 : Time) (items2 : List Bullet) : FSStore :=
  storeOf fun k =>
    if k = t1.dayNo then some items1 else if k = t2.dayNo then some items2 else none

/-- The entry `b` retyped to `t` at time `now`. -/
def retyped (b : Bullet) (t : BulletType) (now : Time) : Bullet :=
  { b with Typ := t,
           CompletedAt := if t = Done then some now else none,
           ScheduledFor := if t = Scheduled then b.ScheduledFor else none }

/-- The entry has a `CompletedAt` exactly when its type is Done. -/
def CompletedOk (b : Bullet) : Prop := b.CompletedAt.isSome = true ↔ b.Typ = Done

/-- Every entry of every day record satisfies `CompletedOk`. -/
def StoreOk (s : FSStore) : Prop := ∀ k, ∀ b ∈ s.record k, CompletedOk b

/-- Every cached entry satisfies `CompletedOk`. -/
def ItemsOk (items : List Entry) : Prop := ∀ e ∈ items, CompletedOk e.Item

/-- A call of one of the lifecycle operations, with its arguments. -/
inductive Op where
  | Add (text : String)
  | UpdateText (index : Int) (text : String)
  | UpdateTagsIndex (index : Int) (tags : List String)
  | DeleteIndex (index : Int)
  | CompleteIndex (index : Int)
  | MigrateIndex (index : Int)
  | ScheduleIndex (index : Int) (date : Time)
  | ChangeTypeIndex (index : Int) (t : BulletType)
  | DeleteDayIndex (date : Time) (index : Int)
  | UpdateDayIndexText (date : Time) (index : Int) (text : String)
  | CompleteDayIndex (date : Time) (index : Int)
  | MigrateDayIndex (date : Time) (index : Int)
  | ScheduleDayIndex (date : Time) (index : Int) (target : Time)

/-- The application state a call leaves behind, whether or not it returns an error. -/
def App.step (L : Strings) (a : App) : Op → App
  | .Add text => (a.Add text).2.2
  | .UpdateText index text => (a.UpdateText L index text).2
  | .UpdateTagsIndex index tags => (a.UpdateTagsIndex L index tags).2
  | .DeleteIndex index => (a.DeleteIndex L index).2
  | .CompleteIndex index => (a.CompleteIndex L index).2
  | .MigrateIndex index => (a.MigrateIndex L index).2
  | .ScheduleIndex index date => (a.ScheduleIndex L index date).2
  | .ChangeTypeIndex index t => (a.ChangeTypeIndex L index t).2
  | .DeleteDayIndex date index => (a.DeleteDayIndex date index).2
  | .UpdateDayIndexText date index text => (a.UpdateDayIndexText date index text).2
  | .CompleteDayIndex date index => (a.CompleteDayIndex date index).2
  | .MigrateDayIndex date index => (a.MigrateDayIndex L date index).2
  | .ScheduleDayIndex date index target => (a.ScheduleDayIndex L date index target).2

/-- The invariant carried through the operations: store and cache. -/
def Inv (a : App) : Prop := StoreOk a.Store ∧ ItemsOk a.Items

instance (b : Bullet) : Decidable (CompletedOk b) := by
  unfold CompletedOk; infer_instance

/-! ## March-based coordinates for the civil calendar -/

/-- Days before the March-based year `n` of a 400-year era. -/
def marchYearStart (n : Int) : Int := 365 * n + n / 4 - n / 100

/-- Day number of day `t` of March-based year `n` of era `era`. -/
def marchDay (era n t : Int) : Int := era * 146097 + marchYearStart n + t - 306

/-- Day `t` lies in the March-based year `n` of its era, `n` from 0 to 399. -/
def MarchValid (n t : Int) : Prop :=
  0 ≤ n ∧ n ≤ 399 ∧ 0 ≤ t ∧
    (marchYearStart n + t < marchYearStart (n + 1) ∨ (n = 399 ∧ marchYearStart n + t ≤ 146096))

/-- Civil date of day `t` of March-based year `n` of era `era`. -/
def marchCivil (era n t : Int) : Int × Int × Int :=
  let mp := (5 * t + 2) / 153
  let m := if mp < 10 then mp + 3 else mp - 9
  (if m ≤ 2 then n + era * 400 + 1 else n + era * 400, m, t - (153 * mp + 2) / 5 + 1)

/-- The `n` consecutive day numbers from `S` on, ascending. -/
def windowDays (S : Int) : Nat → List Int
  | 0 => []
  | n + 1 => S :: windowDays (S + 1) n

/-- The collection as the specification words it: over every day from `S` to `E`
inclusive, in ascending order, the record of the day in stored order, each entry
paired with the day. -/
def collectSpec (s : FSStore) (S E : Int) : List Entry :=
  (windowDays S (E - S + 1).toNat).flatMap fun k =>
    (s.record k).map fun it => ⟨Time.ofDay k, it⟩

/-- An application in week view anchored at 2024-01-03, whose store has files for
2024-01-01 and 2024-01-02 only. -/
def weekApp : App :=
  { Store := twoDays jan1 [milk "m1"] jan2 [memo "n1", milk "m2"],
    CurrentDate := Time.Date 2024 1 3, Period := PeriodWeek, Items := [],
    TextFilter := "", TypeFilter := [], TagFilter := [] }

/-- The filter test as the specification words it: the text filter is empty or its
lower-case form is a substring of the lower-case text; the type filter is empty or
holds the entry's type; the tag filter is empty or holds one of the entry's tags,
lower-cased and with one leading `#` removed.  A key is held by a filter when the map
reads true at it. -/
def passesSpec (L : Strings) (a : App) (e : Entry) : Prop :=
  (a.TextFilter = "" ∨
    stringsContains (L.ToLower e.Item.Text) (L.ToLower a.TextFilter) = true) ∧
  (a.TypeFilter.length = 0 ∨ a.TypeFilter.get e.Item.Typ = true) ∧
  (a.TagFilter.length = 0 ∨
    ∃ t ∈ e.Item.Tags, a.TagFilter.get (trimHash (L.ToLower t)) = true)

instance (L : Strings) (a : App) (e : Entry) : Decidable (passesSpec L a e) := by
  unfold passesSpec; infer_instance

/-- The task "Buy milk" with the tag `#Home`. -/
def taggedMilk : Bullet := { milk "m1" with Tags := ["#Home"] }

/-- An application whose cache holds the tagged task, a note and an untagged task. -/
def cachedApp : App :=
  { appOf (oneDay jan1 [taggedMilk, memo "n1", milk "m2"]) with
    Items := [⟨jan1, taggedMilk⟩, ⟨jan1, memo "n1"⟩, ⟨jan1, milk "m2"⟩] }

/-- An application whose store and cache hold the task "Buy milk" on 2024-01-01. -/
def cachedOne : App :=
  { appOf (oneDay jan1 [milk "m1"]) with Items := [⟨jan1, milk "m1"⟩] }

/-- The entry `b1` is what the store writes for `b` during a call entered in state
`s`: all fields are those of `b`, except that an empty `ID` is replaced by a non-empty
one produced by `generateID` and a zero `CreatedAt` by a reading of the clock taken
during the call. -/
def Normalizes (s : FSStore) (b b1 : Bullet) : Prop :=
  b1.Typ = b.Typ ∧ b1.Text = b.Text ∧ b1.Tags = b.Tags ∧
  b1.ScheduledFor = b.ScheduledFor ∧ b1.CompletedAt = b.CompletedAt ∧
  b1.Highlight = b.Highlight ∧
  (if b.ID = "" then
      b1.ID ≠ "" ∧ ∃ s0 : FSStore, s0.clock = s.clock ∧ s0.entropy = s.entropy ∧
        s.clockUsed ≤ s0.clockUsed ∧ b1.ID = (generateID s0).1
    else b1.ID = b.ID) ∧
  (if b.CreatedAt.IsZero = true then ∃ n, s.clockUsed ≤ n ∧ b1.CreatedAt = s.clock n
    else b1.CreatedAt = b.CreatedAt)

/-- The task "Buy milk" as a caller hands it over: no id, no creation time. -/
def bareMilk : Bullet := { milk "" with CreatedAt := Time.zero }

/-- The store without any day file. -/
def emptyStore : FSStore := storeOf fun _ => none

/-- Every entry of every day record satisfies `P`. -/
def StoreAll (P : Bullet → Prop) (s : FSStore) : Prop := ∀ k, ∀ b ∈ s.record k, P b

/-- Every cached entry satisfies `P`. -/
def ItemsAll (P : Bullet → Prop) (items : List Entry) : Prop := ∀ e ∈ items, P e.Item

/-- The property `P` holds throughout the store and the cache. -/
def InvAll (P : Bullet → Prop) (a : App) : Prop := StoreAll P a.Store ∧ ItemsAll P a.Items

/-- The entry has a `ScheduledFor` exactly when its type is Migrated or Scheduled. -/
def ScheduledOk (b : Bullet) : Prop :=
  b.ScheduledFor.isSome = true ↔ (b.Typ = Migrated ∨ b.Typ = Scheduled)

/-- An entry with a `ScheduledFor` has type Migrated or Scheduled. -/
def ScheduledImp (b : Bullet) : Prop :=
  b.ScheduledFor.isSome = true → (b.Typ = Migrated ∨ b.Typ = Scheduled)

instance (b : Bullet) : Decidable (ScheduledOk b) := by
  unfold ScheduledOk; infer_instance

instance (b : Bullet) : Decidable (ScheduledImp b) := by
  unfold ScheduledImp; infer_instance

instance (P : Bullet → Prop) [DecidablePred P] (items : List Entry) :
    Decidable (ItemsAll P items) := by
  unfold ItemsAll; infer_instance

/-- The property `P` of entries survives every rewrite the lifecycle operations other
than a retype perform: the stamping done by the store, a new text, new tags, the task
made by `Add`, completing a task, reopening a done entry, restoring an anchor,
marking an anchor, cloning a task or event. -/
structure Lifecycle (P : Bullet → Prop) : Prop where
  stamped : ∀ (s : FSStore) (b : Bullet), P b → P (stamp s b).1
  text : ∀ (b : Bullet) (text : String), P b → P { b with Text := text }
  tags : ∀ (b : Bullet) (tags : List String), P b → P { b with Tags := tags }
  fresh : ∀ (text : String) (now : Time),
    P { ID := "", Typ := Task, Text := text, Tags := [], CreatedAt := now,
        ScheduledFor := none, CompletedAt := none, Highlight := "" }
  done : ∀ (b : Bullet) (now : Time), P b → b.Typ = Task →
    P { b with Typ := Done, CompletedAt := some now }
  task : ∀ (b : Bullet), P b → b.Typ = Done → P { b with Typ := Task, CompletedAt := none }
  restored : ∀ (b : Bullet) (t : BulletType), t = Task ∨ t = Event →
    P { b with Typ := t, CompletedAt := none, ScheduledFor := none }
  marked : ∀ (b : Bullet) (t : BulletType) (sf : Time), t = Migrated ∨ t = Scheduled →
    P { b with Typ := t, CompletedAt := none, ScheduledFor := some sf }
  clone : ∀ (b : Bullet), ¬ (b.Typ ≠ Task ∧ b.Typ ≠ Event) →
    P { b with ID := "", CompletedAt := none, ScheduledFor := none, CreatedAt := Time.zero }

/-- The property `P` survives the retype performed by the call `op`, when `op` is a
call of `ChangeTypeIndex`. -/
def RetypeKeeps (P : Bullet → Prop) : Op → Prop
  | .ChangeTypeIndex _ t => ∀ (b : Bullet) (now : Time), P b → P (retyped b t now)
  | _ => True

/-- The call is a retype to Migrated or to Scheduled. -/
def Op.retypesToForwarded : Op → Prop
  | .ChangeTypeIndex _ t => t = Migrated ∨ t = Scheduled
  | _ => False

/-- A task retyped to Scheduled by hand: it has no `ScheduledFor`. -/
def loneScheduled (id : String) : Bullet := { milk id with Typ := Scheduled }

/-- Two application states over the store `s` that agree on nothing else. -/
def viewA (s : FSStore) : App := appOf s

/-- An application over `s` in month view, anchored elsewhere, with a stale cache and
all three filters set so that no task is visible. -/
def viewB (s : FSStore) : App :=
  { Store := s, CurrentDate := Time.Date 2023 5 17, Period := PeriodMonth,
    Items := [⟨jan2, memo "zz"⟩], TextFilter := "nothing", TypeFilter := [(Note, true)],
    TagFilter := [("work", true)] }

/-! ## `cmd/blt`: the command line -/

/-- Model of `unicode.IsSpace`. -/
def isSpace (c : Char) : Bool :=
  c = '\t' || c = '\n' || c.toNat = 11 || c.toNat = 12 || c = '\r' || c = ' ' ||
  c.toNat = 0x85 || c.toNat = 0xA0 || c.toNat = 0x1680 ||
  (0x2000 ≤ c.toNat && c.toNat ≤ 0x200A) || c.toNat = 0x2028 || c.toNat = 0x2029 ||
  c.toNat = 0x202F || c.toNat = 0x205F || c.toNat = 0x3000

/-- Model of `strings.TrimSpace`. -/
def trimSpace (s : String) : String :=
  String.mk ((s.data.dropWhile isSpace).reverse.dropWhile isSpace).reverse

/-- Value of a run of decimal digits. -/
def digitsValue (cs : List Char) : Nat :=
  cs.foldl (fun acc c => 10 * acc + (c.toNat - 48)) 0

/-- Model of `fmt.Sscanf(s, "%d", &i)`: the value it stores in `i`, or `none` when
it returns an error and leaves `i` as it was.  Leading space other than a newline is
skipped, a sign is accepted, then a non-empty run of decimal digits is read, which
`strconv.ParseInt` accepts when it fits 64 bits; whatever follows the digits is left
unread. -/
def sscanfInt (s : String) : Option Int :=
  let cs := s.data.dropWhile fun c => isSpace c && c ≠ '\n'
  match cs with
  | [] => none
  | c :: rest =>
    let neg := decide (c = '-')
    let body := if c = '+' ∨ c = '-' then rest else cs
    let tok := body.takeWhile Char.isDigit
    if tok = [] then none
    else
      let v : Int := if neg then -(digitsValue tok : Int) else (digitsValue tok : Int)
      if -(2 : Int) ^ 63 ≤ v ∧ v < (2 : Int) ^ 63 then some v else none

/-- Translation of `parseIndex`: `i` starts at 0 and the error of `Sscanf` is
dropped. -/
def parseIndex (s : String) : Int :=
  match sscanfInt s with
  | some v => v
  | none => 0

/-- Number of days of month `m` of year `y`: the library's `daysIn`. -/
def daysIn (y m : Int) : Int :=
  if m = 2 then (if y % 4 = 0 ∧ (y % 100 ≠ 0 ∨ y % 400 = 0) then 29 else 28)
  else if m = 4 ∨ m = 6 ∨ m = 9 ∨ m = 11 then 30 else 31

/-- Model of `time.Parse("2006-01-02", s)`: four digits, `-`, two digits, `-`, two
digits and nothing else, with the month from 1 to 12 and the day within the month;
`none` stands for an error. -/
def timeParse (s : String) : Option Time :=
  match s.data with
  | [y1, y2, y3, y4, '-', m1, m2, '-', d1, d2] =>
    if [y1, y2, y3, y4, m1, m2, d1, d2].all Char.isDigit then
      let y : Int := digitsValue [y1, y2, y3, y4]
      let m : Int := digitsValue [m1, m2]
      let d : Int := digitsValue [d1, d2]
      if 1 ≤ m ∧ m ≤ 12 ∧ 1 ≤ d ∧ d ≤ daysIn y m then some (Time.Date y m d) else none
    else none
  | _ => none

/-- Translation of `parseDate`: the error of `time.Parse` is dropped, which leaves
the zero time. -/
def parseDate (s : String) : Time :=
  match timeParse s with
  | some d => d
  | none => Time.zero

/-- Translation of `app.New`. -/
def App.New (st : FSStore) : App :=
  { Store := st, CurrentDate := Time.zero, Period := PeriodDay, Items := [],
    TextFilter := "", TypeFilter := [], TagFilter := [] }

/-- Translation of `App.SetPeriod` as `newAppWithContext` calls it, the error
dropped.  `SavePrefs` writes the preferences file, which is not a day file and is
left out. -/
def App.SetPeriod (a : App) (p : Blt.Period) : App := (App.Refresh { a with Period := p }).2

/-- Translation of `App.JumpToDate`, the error dropped. -/
def App.JumpToDate (a : App) (d : Time) : App :=
  (App.Refresh { a with CurrentDate := dateOnly d }).2

/-- Translation of `App.LoadDay`, the error dropped. -/
def App.LoadDay (a : App) (date : Time) : App :=
  (App.Refresh { a with CurrentDate := date }).2

/-- Translation of `newAppWithContext` on a store that could be opened. -/
def newAppWithContext (L : Strings) (st : FSStore) (span dateStr : String) : App :=
  let a := App.New st
  let a1 :=
    if L.ToLower span = "week" then a.SetPeriod PeriodWeek
    else if L.ToLower span = "month" then a.SetPeriod PeriodMonth
    else a.SetPeriod PeriodDay
  if dateStr ≠ "" then
    match timeParse dateStr with
    | some d => a1.JumpToDate d
    | none => a1
  else
    let (now, s1) := timeNow a1.Store
    App.LoadDay { a1 with Store := s1 } now

/-- The `switch` of `cliAdd` on the lower-cased `--type`. -/
def addKind (k : String) : Option BulletType :=
  if k = "task" then some Task
  else if k = "event" then some Event
  else if k = "note" then some Note
  else if k = "important" then some HighlightImportant
  else if k = "inspiration" then some HighlightInspiration
  else none

/-- Translation of `cliAdd` after its flags were parsed and its store was opened: the
exit status and the store left behind. -/
def cliAdd (L : Strings) (st : FSStore) (dateStr typ note text : String) : Int × FSStore :=
  let t := if note ≠ "" then note else trimSpace text
  let typ1 := if note ≠ "" then "note" else typ
  if trimSpace t = "" then (2, st)
  else
    let (now, s1) := timeNow st
    let d :=
      if dateStr ≠ "" then
        match timeParse dateStr with
        | some parsed => parsed
        | none => now
      else now
    let (created, s2) := timeNow s1
    match addKind (L.ToLower typ1) with
    | none => (2, s2)
    | some k =>
      let b : Bullet := { ID := "", Typ := k, Text := t, Tags := [], CreatedAt := created,
                          ScheduledFor := none, CompletedAt := none, Highlight := "" }
      match s2.Append d b with
      | (some _, s3) => (1, s3)
      | (none, s3) => (0, s3)

/-- Translation of `cliDelete` after its flags were parsed, with the positional
arguments `args`: the exit status and the store left behind. -/
def cliDelete (L : Strings) (st : FSStore) (args : List String) (dateStr : String) :
    Int × FSStore :=
  match args with
  | [] => (2, st)
  | arg0 :: _ =>
    if trimSpace dateStr = "" then (2, st)
    else
      let idx := parseIndex arg0
      let a := newAppWithContext L st "day" dateStr
      match a.DeleteDayIndex (parseDate dateStr) idx with
      | (some _, a1) => (1, a1.Store)
      | (none, a1) => (0, a1.Store)

/-! ## `FSStore.SaveDay` step by step -/

/-- The step of `SaveDay` at which the file system fails. -/
inductive SaveFault where
  | mkdir
  | createTemp
  | encode (k : Nat)
  | flush
  | close
  | rename
  deriving DecidableEq, Repr

/-- The store together with the temporary files `day-*.tmp` lying in its
directories, the most recently created first; each is given by the entries written to
it. -/
structure Disk where
  store : FSStore
  temps : List (List Bullet)

/-- Model of `os.CreateTemp(dir, "day-*.tmp")`. -/
def Disk.createTemp (d : Disk) : Disk := { d with temps := [] :: d.temps }

/-- One entry is encoded to the temporary file created last. -/
def Disk.writeTemp (d : Disk) (b : Bullet) : Disk :=
  match d.temps with
  | [] => d
  | t :: ts => { d with temps := (t ++ [b]) :: ts }

/-- Model of `os.Remove(tmpPath)` on the temporary file created last. -/
def Disk.removeTemp (d : Disk) : Disk := { d with temps := d.temps.tail }

/-- Model of `os.Rename(tmpPath, path)`: the temporary file created last becomes the
file of day `k`. -/
def Disk.renameTemp (d : Disk) (k : Int) : Disk :=
  { store := d.store.writeFile k (d.temps.headD []), temps := d.temps.tail }

/-- The loop of `SaveDay` from item number `k` on: each item is stamped, then
encoded to the temporary file; `false` is returned when an encoding fails. -/
def encodeLoop (fault : Option SaveFault) : Nat → Disk → List Bullet → Bool × Disk
  | _, d, [] => (true, d)
  | k, d, it :: rest =>
    let (b, s1) := stamp d.store it
    if fault = some (.encode k) then (false, { d with store := s1 })
    else encodeLoop fault (k + 1) ({ d with store := s1 }.writeTemp b) rest

/-- Translation of `FSStore.SaveDay` with its steps: the directory is ensured,
the temporary file is created, the items are encoded, the buffer is flushed, the file
is closed and renamed over the day file.  After a failed encoding, flush or close the
temporary file is removed; `fault` names the step that fails, if any.  Encoded
entries are taken to reach the temporary file at once. -/
def Disk.SaveDay (d : Disk) (date : Time) (items : List Bullet) (fault : Option SaveFault) :
    Option Err × Disk :=
  if fault = some .mkdir then (some (.write date.dayNo), d)
  else if fault = some .createTemp then (some (.write date.dayNo), d)
  else
    match encodeLoop fault 0 d.createTemp items with
    | (false, d1) => (some (.write date.dayNo), d1.removeTemp)
    | (true, d1) =>
      if fault = some .flush then (some (.write date.dayNo), d1.removeTemp)
      else if fault = some .close then (some (.write date.dayNo), d1.removeTemp)
      else if fault = some .rename then (some (.write date.dayNo), d1)
      else (none, d1.renameTemp date.dayNo)

/-! ## `FSStore.LoadDay` on the bytes of a file -/

/-- How a call of `ReadBytes` ends: with the delimiter, with `io.EOF`, or with
another error. -/
inductive ReadEnd where
  | delim
  | eof
  | fault
  deriving DecidableEq, Repr

/-- Model of `bufio.Reader.ReadBytes('\n')` on the bytes left in the file: the bytes
up to and including the first newline, and what is left after them; without a newline
all the bytes left, and `io.EOF`, or a read error when `bad` is set. -/
def readBytes (bad : Bool) : List Nat → List Nat × List Nat × ReadEnd
  | [] => ([], [], if bad then .fault else .eof)
  | c :: rest =>
    if c = 10 then ([c], rest, .delim)
    else
      let (line, left, e) := readBytes bad rest
      (c :: line, left, e)

/-- Translation of `bytesTrimRightNewline`. -/
def bytesTrimRightNewline (b : List Nat) : List Nat :=
  if b.length = 0 then b
  else if b.getLast? = some 10 ∨ b.getLast? = some 13 then b.dropLast
  else b

/-- The loop of `LoadDay`, with at most `fuel` calls of `ReadBytes`; `Unmarshal`
models `json.Unmarshal` into a fresh `Bullet`, `none` standing for an error. -/
def loadLoop (Unmarshal : List Nat → Option Bullet) (bad : Bool) (day : Int) :
    Nat → List Nat → List Bullet → List Bullet × Option Err
  | 0, _, out => (out, none)
  | fuel + 1, data, out =>
    let (line, left, e) := readBytes bad data
    let out1 :=
      if line.length > 0 then
        match Unmarshal (bytesTrimRightNewline line) with
        | some b => out ++ [b]
        | none => out
      else out
    if e = .eof then (out1, none)
    else if e = .fault then (out1, some (.read day))
    else loadLoop Unmarshal bad day fuel left out1

/-- What `os.Open` finds at the path of a day. -/
inductive DayFile where
  | missing
  | unreadable
  | bytes (data : List Nat) (bad : Bool)

/-- Translation of `FSStore.LoadDay` on the bytes of the day file; each call of
`ReadBytes` but the last consumes a byte, so the loop ends by its own test. -/
def loadDayFile (Unmarshal : List Nat → Option Bullet) (day : Int) :
    DayFile → List Bullet × Option Err
  | .missing => ([], none)
  | .unreadable => ([], some (.read day))
  | .bytes data bad => loadLoop Unmarshal bad day (data.length + 1) data []

/-- A day file made of the given lines, each followed by a newline. -/
def fileOfLines (lines : List (List Nat)) : List Nat :=
  lines.flatMap fun l => l ++ [10]

/-- The entries the specification asks for: those decoded from the lines that parse,
in file order. -/
def decodeLines (Unmarshal : List Nat → Option Bullet) (lines : List (List Nat)) :
    List Bullet :=
  lines.filterMap Unmarshal

/-- The bytes of an ASCII string. -/
def ascii (s : String) : List Nat := s.data.map Char.toNat

/-- A decoder for examples: it knows the lines `milk` and `memo` and rejects all
others, the empty line included. -/
def sampleUnmarshal (line : List Nat) : Option Bullet :=
  if line = ascii "milk" then some (milk "m1")
  else if line = ascii "memo" then some (memo "n1")
  else none

/-- The entries of day `k` as `Refresh` collects them. -/
def daySegment (s : FSStore) (k : Int) : List Entry :=
  (s.record k).map fun it => ⟨Time.ofDay k, it⟩

/-- The cache holds what `Refresh` would load: `Refresh` succeeds and leaves `Items`
as they are. -/
def App.Fresh (a : App) : Prop := (a.Refresh).1 = none ∧ (a.Refresh).2.Items = a.Items

instance (a : App) : Decidable a.Fresh :=
  inferInstanceAs (Decidable ((a.Refresh).1 = none ∧ (a.Refresh).2.Items = a.Items))

/-- The test of `Time.MarshalJSON`: the year lies in `[0, 9999]`. -/
def Time.encodable (t : Time) : Bool :=
  decide (0 ≤ (civilFromDays t.dayNo).1 ∧ (civilFromDays t.dayNo).1 ≤ 9999)

/-- The call `enc.Encode(&b)` succeeds: each of the three times of `b` that is
present can be encoded. -/
def Bullet.encodable (b : Bullet) : Bool :=
  b.CreatedAt.encodable && b.ScheduledFor.all Time.encodable &&
    b.CompletedAt.all Time.encodable

/-- How a day file ends.  `closed`: the file is missing or empty, or its last byte is
a newline, or only blanks follow its last newline.  `entry`: the bytes after the last
newline decode to the last entry `LoadDay` returns.  `junk`: the bytes after the last
newline are not blank and do not decode.  In the last two cases a line appended to
the file continues that last line, and the line so formed, a non-blank prefix
followed by an encoded object, is not valid JSON. -/
inductive Tail where
  | closed
  | entry
  | junk
  deriving DecidableEq, Repr

/-- The file of day `k` now ends in a newline. -/
def closeTail (t : Int → Tail) (k : Int) : Int → Tail :=
  fun j => if j = k then .closed else t j

/-- The state behind an `*FSStore` on disk: `decoded` holds, with the fault flags and
the readings of the clock and of `rand.Read`, what `LoadDay` decodes from each day
file; `tail` tells how each day file ends. -/
structure Raw.FSStore where
  decoded : Blt.FSStore
  tail : Int → Tail

/-- The entries of day number `k` as `LoadDay` decodes them. -/
def Raw.FSStore.record (s : Raw.FSStore) (k : Int) : List Bullet := s.decoded.record k

/-- Translation of `FSStore.LoadDay`: a last line without newline is decoded like any
other line. -/
def Raw.FSStore.LoadDay (s : Raw.FSStore) (date : Time) : Except Err (List Bullet) :=
  s.decoded.LoadDay date

/-- The loop of `SaveDay` with the encoder's test: the items encoded, or `none` when
`enc.Encode` fails on an item, in which case the loop stops there. -/
def saveLoop (s : Blt.FSStore) : List Bullet → Option (List Bullet) × Blt.FSStore
  | [] => (some [], s)
  | it :: rest =>
    let (b, s1) := stamp s it
    if b.encodable then
      match saveLoop s1 rest with
      | (some bs, s2) => (some (b :: bs), s2)
      | (none, s2) => (none, s2)
    else (none, s1)

/-- Translation of `FSStore.SaveDay`: when an item cannot be encoded the temporary
file is removed and the day file is untouched; otherwise the day file is replaced by
the encoded lines, each ending in a newline. -/
def Raw.FSStore.SaveDay (s : Raw.FSStore) (date : Time) (items : List Bullet) :
    Option Err × Raw.FSStore :=
  if s.decoded.writeErr date.dayNo then (some (.write date.dayNo), s)
  else
    match saveLoop s.decoded items with
    | (some out, d1) => (none, ⟨d1.writeFile date.dayNo out, closeTail s.tail date.dayNo⟩)
    | (none, d1) => (some (.encode date.dayNo), ⟨d1, s.tail⟩)

/-- Translation of `FSStore.Append`: the file is opened with `O_CREATE|O_APPEND` and
one encoded line is written after its last byte.  After a last line without newline
the new line continues that line, which then decodes to nothing.  When the entry
cannot be encoded nothing is written, but the file has been created. -/
def Raw.FSStore.Append (s : Raw.FSStore) (date : Time) (b : Bullet) :
    Option Err × Raw.FSStore :=
  if s.decoded.writeErr date.dayNo then (some (.write date.dayNo), s)
  else
    let (b1, d1) := stamp s.decoded b
    if b1.encodable then
      match s.tail date.dayNo with
      | .closed =>
        (none, ⟨d1.writeFile date.dayNo (d1.record date.dayNo ++ [b1]),
          closeTail s.tail date.dayNo⟩)
      | .entry =>
        (none, ⟨d1.writeFile date.dayNo (d1.record date.dayNo).dropLast,
          closeTail s.tail date.dayNo⟩)
      | .junk =>
        (none, ⟨d1.writeFile date.dayNo (d1.record date.dayNo),
          closeTail s.tail date.dayNo⟩)
    else (some (.encode date.dayNo), ⟨d1.writeFile date.dayNo (d1.record date.dayNo), s.tail⟩)

/-- Translation of `FSStore.Update`. -/
def Raw.FSStore.Update (s : Raw.FSStore) (date : Time) (b : Bullet) :
    Option Err × Raw.FSStore :=
  match s.LoadDay date with
  | .error e => (some e, s)
  | .ok items => s.SaveDay date (replaceFirst b items)

/-- Translation of `FSStore.Delete`. -/
def Raw.FSStore.Delete (s : Raw.FSStore) (date : Time) (id : String) :
    Option Err × Raw.FSStore :=
  match s.LoadDay date with
  | .error e => (some e, s)
  | .ok items => s.SaveDay date (items.filter fun it => it.ID ≠ id)

/-- The zone data behind a `*time.Location`: for an instant, the offset in force and
the bounds of the period during which it is in force, as `Location.lookup` returns
them.  Instants and wall-clock readings are both counted in nanoseconds from
`0001-01-01 00:00:00`, instants in UTC. -/
structure Zone where
  lookup : Int → Int × Int × Int

/-- The wall-clock reading of an instant. -/
def Zone.toWall (Z : Zone) (x : Int) : Int := x + (Z.lookup x).1

/-- The instant `time.Date` returns for a wall-clock reading: translation of its zone
adjustment. -/
def Zone.toInst (Z : Zone) (w : Int) : Int :=
  let (offset, start, stop) := Z.lookup w
  if offset ≠ 0 then
    let utc := w - offset
    if utc < start ∨ utc ≥ stop then w - (Z.lookup utc).1 else w - offset
  else w

/-- Model of `t.Add(d)` for a time made by `time.Date` in the zone `Z`: the instant
moves by `d` nanoseconds. -/
def Zone.Add (Z : Zone) (t : Time) (d : Int) : Time := ⟨Z.toWall (Z.toInst t.ns + d)⟩

/-- The offset of the zone never changes. -/
def Zone.Plain (Z : Zone) : Prop := ∃ o, ∀ x, (Z.lookup x).1 = o

/-- The Go struct `app.App` over the store on disk. -/
structure Raw.App where
  Store : Raw.FSStore
  CurrentDate : Time
  Period : Blt.Period
  Items : List Entry
  TextFilter : String
  TypeFilter : BoolMap BulletType
  TagFilter : BoolMap String

/-- The application state as the definitions of the first part see it. -/
def Raw.App.decoded (a : Raw.App) : Blt.App :=
  { Store := a.Store.decoded, CurrentDate := a.CurrentDate, Period := a.Period,
    Items := a.Items, TextFilter := a.TextFilter, TypeFilter := a.TypeFilter,
    TagFilter := a.TagFilter }

/-- Translation of `App.dateRange`, which uses the calendar only. -/
def Raw.App.dateRange (a : Raw.App) : DateRange := a.decoded.dateRange

/-- Translation of `App.Visible`. -/
def Raw.App.Visible (L : Strings) (a : Raw.App) : List Entry :=
  a.Items.filter (a.decoded.matchEntry L)

/-- The loop of `App.Refresh`: `x` is the instant of the loop variable `d`, `last` the
instant of `rng.End`; `d.After(rng.End)` compares instants and `d.Add(24 * time.Hour)`
moves the instant; `LoadDay` and `dateOnly` use the calendar day of `d` in the zone. -/
def Raw.collectDays (Z : Zone) (s : Raw.FSStore) (last : Int) :
    Nat → Int → Except Err (List Entry)
  | 0, _ => .ok []
  | fuel + 1, x =>
    if last < x then .ok []
    else
      match s.LoadDay ⟨Z.toWall x⟩ with
      | .error e => .error e
      | .ok items =>
        match Raw.collectDays Z s last fuel (x + nanosPerDay) with
        | .error e => .error e
        | .ok rest => .ok (items.map (fun it => ⟨dateOnly ⟨Z.toWall x⟩, it⟩) ++ rest)

/-- Translation of `App.Refresh` in the zone `Z` of the anchor date; the fuel is the
number of steps of 24 hours from the instant of `Start` to that of `End`, so the loop
always ends by its own test. -/
def Raw.App.Refresh (Z : Zone) (a : Raw.App) : Option Err × Raw.App :=
  let rng := a.dateRange
  match Raw.collectDays Z a.Store (Z.toInst rng.End.ns)
      ((Z.toInst rng.End.ns - Z.toInst rng.Start.ns) / nanosPerDay + 1).toNat
      (Z.toInst rng.Start.ns) with
  | .error e => (some e, a)
  | .ok entries => (none, { a with Items := entries })

/-- The tail `if err := ...; err != nil { return err }; return a.Refresh()`. -/
def Raw.thenRefresh (Z : Zone) (a : Raw.App) (r : Option Err × Raw.FSStore) :
    Option Err × Raw.App :=
  match r with
  | (some e, s) => (some e, { a with Store := s })
  | (none, s) => Raw.App.Refresh Z { a with Store := s }

/-- The tail `return a.Store.<op>(...)`. -/
def Raw.thenReturn (a : Raw.App) (r : Option Err × Raw.FSStore) : Option Err × Raw.App :=
  (r.1, { a with Store := r.2 })

/-- Translation of `App.DeleteIndex`. -/
def Raw.App.DeleteIndex (Z : Zone) (L : Strings) (a : Raw.App) (index : Int) :
    Option Err × Raw.App :=
  let vis := a.Visible L
  if index < 0 ∨ index ≥ vis.length then (none, a)
  else
    match vis[index.toNat]? with
    | none => (none, a)
    | some e => Raw.thenRefresh Z a (a.Store.Delete e.Date e.Item.ID)

/-- Translation of `App.MigrateIndex`. -/
def Raw.App.MigrateIndex (Z : Zone) (L : Strings) (a : Raw.App) (index : Int) :
    Option Err × Raw.App :=
  let vis := a.Visible L
  if index < 0 ∨ index ≥ vis.length then (none, a)
  else
    match vis[index.toNat]? with
    | none => (none, a)
    | some e =>
      let orig := e.Item
      if orig.Typ = Migrated then
        let target :=
          match orig.ScheduledFor with
          | some sf => dateOnly sf
          | none => Z.Add e.Date nanosPerDay
        match a.Store.LoadDay target with
        | .error err => (some err, a)
        | .ok items =>
          let (cloneID, restoreType) := findClone L orig.Text items
          let orig1 := { orig with Typ := restoreType, CompletedAt := none, ScheduledFor := none }
          match a.Store.Update e.Date orig1 with
          | (some err, s) => (some err, { a with Store := s })
          | (none, s) =>
            if cloneID ≠ "" then Raw.thenRefresh Z a (s.Delete target cloneID)
            else Raw.App.Refresh Z { a with Store := s }
      else if orig.Typ ≠ Task ∧ orig.Typ ≠ Event then (none, a)
      else
        let next := Z.Add e.Date nanosPerDay
        let marked := { orig with Typ := Migrated, CompletedAt := none, ScheduledFor := some next }
        match a.Store.Update e.Date marked with
        | (some err, s) => (some err, { a with Store := s })
        | (none, s) =>
          let clone := { orig with ID := "", CompletedAt := none, ScheduledFor := none,
                                   CreatedAt := Time.zero }
          Raw.thenRefresh Z a (s.Append next clone)

/-- Translation of `App.MigrateDayIndex`. -/
def Raw.App.MigrateDayIndex (L : Strings) (a : Raw.App) (date : Time) (index : Int) :
    Option Err × Raw.App :=
  let d := dateOnly date
  match a.Store.LoadDay d with
  | .error err => (some err, a)
  | .ok items =>
    if index < 0 ∨ index ≥ items.length then (none, a)
    else
      match items[index.toNat]? with
      | none => (none, a)
      | some orig =>
        if orig.Typ = Migrated then
          let target :=
            match orig.ScheduledFor with
            | some sf => dateOnly sf
            | none => d.AddDays 1
          match a.Store.LoadDay target with
          | .error err => (some err, a)
          | .ok titems =>
            let (cloneID, restoreType) := findClone L orig.Text titems
            let orig1 := { orig with Typ := restoreType, CompletedAt := none, ScheduledFor := none }
            match a.Store.Update d orig1 with
            | (some err, s) => (some err, { a with Store := s })
            | (none, s) =>
              if cloneID ≠ "" then Raw.thenReturn a (s.Delete target cloneID)
              else (none, { a with Store := s })
        else if orig.Typ ≠ Task ∧ orig.Typ ≠ Event then (none, a)
        else
          let next := d.AddDays 1
          let marked := { orig with Typ := Migrated, CompletedAt := none, ScheduledFor := some next }
          match a.Store.Update d marked with
          | (some err, s) => (some err, { a with Store := s })
          | (none, s) =>
            let clone := { orig with ID := "", CompletedAt := none, ScheduledFor := none,
                                     CreatedAt := Time.zero }
            Raw.thenReturn a (s.Append next clone)

/-- Translation of `App.ScheduleDayIndex`. -/
def Raw.App.ScheduleDayIndex (L : Strings) (a : Raw.App) (date : Time) (index : Int)
    (target : Time) : Option Err × Raw.App :=
  let d := dateOnly date
  match a.Store.LoadDay d with
  | .error err => (some err, a)
  | .ok items =>
    if index < 0 ∨ index ≥ items.length then (none, a)
    else
      match items[index.toNat]? with
      | none => (none, a)
      | some orig =>
        if orig.Typ = Scheduled then
          match orig.ScheduledFor with
          | none => (none, a)
          | some sf =>
            let targetDay := dateOnly sf
            match a.Store.LoadDay targetDay with
            | .error err => (some err, a)
            | .ok titems =>
              let (cloneID, restoreType) := findClone L orig.Text titems
              let orig1 := { orig with Typ := restoreType, CompletedAt := none, ScheduledFor := none }
              match a.Store.Update d orig1 with
              | (some err, s) => (some err, { a with Store := s })
              | (none, s) =>
                if cloneID ≠ "" then Raw.thenReturn a (s.Delete targetDay cloneID)
                else (none, { a with Store := s })
        else if orig.Typ ≠ Task ∧ orig.Typ ≠ Event then (none, a)
        else
          let tgt := dateOnly target
          let marked := { orig with Typ := Scheduled, CompletedAt := none, ScheduledFor := some tgt }
          match a.Store.Update d marked with
          | (some err, s) => (some err, { a with Store := s })
          | (none, s) =>
            let clone := { orig with ID := "", CompletedAt := none, ScheduledFor := none,
                                     CreatedAt := Time.zero }
            Raw.thenReturn a (s.Append tgt clone)

/-- Every time the clock returns and every time held in a day file can be encoded, as
every time the decoder accepts can. -/
def FSStore.InRange (s : FSStore) : Prop :=
  (∀ n, (s.clock n).encodable = true) ∧ ∀ k, ∀ b ∈ s.record k, b.encodable = true

/-- No file operation fails for a reason outside the program: no input or output
fault, and the times of the clock and of the day files can be encoded. -/
def Raw.FSStore.Healthy (s : Raw.FSStore) : Prop := s.decoded.Healthy ∧ s.decoded.InRange

/-- The cache holds what `Refresh` would load in the zone `Z`. -/
def Raw.App.Fresh (Z : Zone) (a : Raw.App) : Prop :=
  (a.Refresh Z).1 = none ∧ (a.Refresh Z).2.Items = a.Items

instance (Z : Zone) (a : Raw.App) : Decidable (a.Fresh Z) :=
  inferInstanceAs (Decidable ((a.Refresh Z).1 = none ∧ (a.Refresh Z).2.Items = a.Items))

/-- The result of an operation on disk agrees with the result `r0` of the operation
of the first part: same error, same decoded state, and every day file that ended in a
newline (`t0`) still does. -/
def Raw.Agrees (t0 : Int → Tail) (r : Option Err × Raw.App) (r0 : Option Err × Blt.App) :
    Prop :=
  r.1 = r0.1 ∧ r.2.decoded = r0.2 ∧ ∀ k, t0 k = .closed → r.2.Store.tail k = .closed

/-- UTC, the zone of the dates made by `time.Parse`. -/
def utcZone : Zone := ⟨fun _ => (0, 0, 0)⟩

/-- Zone data of Europe/Berlin around the end of summer time in 2024: UTC+2 from
2024-03-31 01:00 UTC until 2024-10-27 01:00 UTC, then UTC+1 until 2025-03-30 01:00 UTC.
The 27th of October 2024 lasts 25 hours. -/
def berlin2024 : Zone :=
  ⟨fun x =>
    if x < (Time.Date 2024 10 27).ns + 3600000000000 then
      (7200000000000, (Time.Date 2024 3 31).ns + 3600000000000,
        (Time.Date 2024 10 27).ns + 3600000000000)
    else
      (3600000000000, (Time.Date 2024 10 27).ns + 3600000000000,
        (Time.Date 2025 3 30).ns + 3600000000000)⟩

/-- The result `r` of a store operation of the first part on day `k`, seen on disk:
on success the file of day `k` has been written and ends in a newline. -/
def Raw.lift (s : Raw.FSStore) (k : Int) (r : Option Err × Blt.FSStore) :
    Option Err × Raw.FSStore :=
  (r.1, ⟨r.2, if r.1 = none then closeTail s.tail k else s.tail⟩)

/-- The store on disk with the given day files, each ending in a newline, no faults,
and a clock that starts at 01:00 on 2024-01-01 and stays within the second that
follows. -/
def diskOf (files : Int → Option (List Bullet)) : Raw.FSStore :=
  ⟨{ storeOf files with
      clock := fun n => ⟨jan1.ns + 3600000000000 + ((n % 1000000000 : Nat) : Int)⟩ },
    fun _ => .closed⟩

/-- The store on disk whose only file is that of day `t`, holding `items`. -/
def diskOne (t : Time) (items : List Bullet) : Raw.FSStore :=
  diskOf fun k => if k = t.dayNo then some items else none

/-- The store on disk with two day files. -/
def diskTwo (t1 : Time) (items1 : List Bullet) (t2 : Time) (items2 : List Bullet) :
    Raw.FSStore :=
  diskOf fun k =>
    if k = t1.dayNo then some items1 else if k = t2.dayNo then some items2 else none

/-- The store `s` where the file of day `t` ends as `e` says. -/
def Raw.FSStore.endingIn (s : Raw.FSStore) (t : Time) (e : Tail) : Raw.FSStore :=
  ⟨s.decoded, fun k => if k = t.dayNo then e else s.tail k⟩

/-- An application in its initial configuration (day view of 2024-01-01, no filters)
on the store `s` on disk. -/
def Raw.appOf (s : Raw.FSStore) : Raw.App :=
  { Store := s, CurrentDate := jan1, Period := PeriodDay, Items := [], TextFilter := "",
    TypeFilter := [], TagFilter := [] }

/-- The last day the encoder accepts, 9999-12-31. -/
def lastDay : Time := Time.Date 9999 12 31

/-- The date 2024-10-`d`. -/
def oct (d : Int) : Time := Time.Date 2024 10 d

/-- An application in month view, anchored at 09:30 on 2024-10-15, with an empty cache;
the store holds a task on 2024-10-27 and a note on 2024-10-31. -/
def octoberApp : Raw.App :=
  { Store := diskTwo (oct 27) [milk "m1"] (oct 31) [memo "n1"],
    CurrentDate := ⟨(oct 15).ns + 34200000000000⟩, Period := PeriodMonth, Items := [],
    TextFilter := "", TypeFilter := [], TagFilter := [] }

/-- An application in day view of 2024-10-27 whose cache holds the task of the day. -/
def changeDayApp : Raw.App :=
  { Store := diskOne (oct 27) [milk "m1"], CurrentDate := oct 27, Period := PeriodDay,
    Items := [⟨oct 27, milk "m1"⟩], TextFilter := "", TypeFilter := [], TagFilter := [] }

set_option maxRecDepth 100000

/-! ## Lemmas on dates -/

theorem dayNo_ofDay (k : Int) : (Time.ofDay k).dayNo = k := by
  simp [Time.dayNo, Time.ofDay, nanosPerDay]

theorem dayNo_dateOnly (t : Time) : (dateOnly t).dayNo = t.dayNo := by
  simp [dateOnly, dayNo_ofDay]

theorem dateOnly_addDays (t : Time) (n : Int) :
    (dateOnly t).AddDays n = Time.ofDay (t.dayNo + n) := by
  simp [dateOnly, Time.AddDays, Time.ofDay, add_mul]

theorem dateOnly_ofDay (k : Int) : dateOnly (Time.ofDay k) = Time.ofDay k := by
  simp [dateOnly, dayNo_ofDay]

/-! ## Lemmas on the store -/

theorem record_writeFile (s : FSStore) (k j : Int) (items : List Bullet) :
    (s.writeFile k items).record j = if j = k then items else s.record j := by
  unfold FSStore.record FSStore.writeFile
  by_cases h : j = k <;> simp [h]

theorem healthy_writeFile {s : FSStore} (h : s.Healthy) (k : Int) (items : List Bullet) :
    (s.writeFile k items).Healthy := h

theorem loadDay_eq {s : FSStore} (h : s.Healthy) (date : Time) :
    s.LoadDay date = .ok (s.record date.dayNo) := by
  unfold FSStore.LoadDay FSStore.record
  rw [(h date.dayNo).1]
  cases s.files date.dayNo <;> simp

theorem generateID_ne_empty (s : FSStore) : (generateID s).1 ≠ "" := by
  intro h
  have h1 := congrArg String.length h
  have h2 : "-".length = 1 := rfl
  simp [generateID, timeNow, String.length_append, h2] at h1

theorem stamp_eq_self (s : FSStore) (b : Bullet) (h1 : b.ID ≠ "") (h2 : b.CreatedAt.IsZero = false) :
    stamp s b = (b, s) := by
  simp [stamp, h1, h2]

theorem stampAll_eq_self (s : FSStore) (items : List Bullet) (h : Stamped items) :
    stampAll s items = (items, s) := by
  induction items with
  | nil => rfl
  | cons b rest ih =>
    have hb := h b (List.mem_cons_self _ _)
    have hr : Stamped rest := fun x hx => h x (List.mem_cons_of_mem _ hx)
    simp [stampAll, stamp_eq_self s b hb.1 hb.2, ih hr]

theorem saveDay_eq {s : FSStore} (h : s.Healthy) (date : Time) (items : List Bullet)
    (hst : Stamped items) : s.SaveDay date items = (none, s.writeFile date.dayNo items) := by
  simp [FSStore.SaveDay, (h date.dayNo).2, stampAll_eq_self s items hst]

theorem replaceFirst_eq_set (b e : Bullet) (items : List Bullet) (i : Nat)
    (hi : items[i]? = some e) (hid : e.ID = b.ID) (hd : DistinctIDs items) :
    replaceFirst b items = items.set i b := by
  induction items generalizing i with
  | nil => simp at hi
  | cons x rest ih =>
    have hd1 : x.ID ∉ rest.map (·.ID) ∧ DistinctIDs rest := by
      simpa [DistinctIDs] using hd
    cases i with
    | zero =>
      simp at hi
      subst hi
      simp [replaceFirst, hid]
    | succ n =>
      simp at hi
      have hmem : e ∈ rest := List.getElem?_mem hi
      have hne : x.ID ≠ b.ID := by
        intro hx
        apply hd1.1
        rw [hx, ← hid]
        exact List.mem_map_of_mem _ hmem
      simp [replaceFirst, hne, ih n hi hd1.2]

theorem stamped_set {items : List Bullet} (h : Stamped items) (i : Nat) (b : Bullet)
    (h1 : b.ID ≠ "") (h2 : b.CreatedAt.IsZero = false) : Stamped (items.set i b) := by
  intro x hx
  rcases List.mem_or_eq_of_mem_set hx with hx | hx
  · exact h x hx
  · subst hx; exact ⟨h1, h2⟩

theorem stamp_files (s : FSStore) (b : Bullet) :
    (stamp s b).2.files = s.files ∧ (stamp s b).2.readErr = s.readErr ∧
      (stamp s b).2.writeErr = s.writeErr := by
  unfold stamp generateID timeNow
  by_cases h1 : b.ID = "" <;> by_cases h2 : b.CreatedAt.IsZero = true <;> simp [h1, h2]

theorem stamp_fields (s : FSStore) (b : Bullet) :
    (stamp s b).1.Typ = b.Typ ∧ (stamp s b).1.Text = b.Text ∧ (stamp s b).1.Tags = b.Tags ∧
      (stamp s b).1.ScheduledFor = b.ScheduledFor ∧ (stamp s b).1.CompletedAt = b.CompletedAt ∧
      (stamp s b).1.Highlight = b.Highlight := by
  unfold stamp
  by_cases h1 : b.ID = "" <;> by_cases h2 : b.CreatedAt.IsZero = true <;> simp [h1, h2]

theorem stamp_id (s : FSStore) (b : Bullet) :
    (stamp s b).1.ID = if b.ID = "" then (generateID s).1 else b.ID := by
  unfold stamp
  by_cases h1 : b.ID = "" <;> by_cases h2 : b.CreatedAt.IsZero = true <;> simp [h1, h2]

theorem stamp_id_ne_empty (s : FSStore) (b : Bullet) : (stamp s b).1.ID ≠ "" := by
  rw [stamp_id]
  by_cases h1 : b.ID = ""
  · simpa [h1] using generateID_ne_empty s
  · simp [h1]

theorem healthy_stamp {s : FSStore} (h : s.Healthy) (b : Bullet) : (stamp s b).2.Healthy := by
  intro k
  have hf := stamp_files s b
  rw [hf.2.1, hf.2.2]
  exact h k

theorem record_stamp (s : FSStore) (b : Bullet) (k : Int) :
    (stamp s b).2.record k = s.record k := by
  unfold FSStore.record
  rw [(stamp_files s b).1]

theorem append_eq {s : FSStore} (h : s.Healthy) (date : Time) (b : Bullet) :
    s.Append date b =
      (none, (stamp s b).2.writeFile date.dayNo (s.record date.dayNo ++ [(stamp s b).1])) := by
  simp [FSStore.Append, (h date.dayNo).2, record_stamp]

theorem update_eq {s : FSStore} (h : s.Healthy) (date : Time) (b e : Bullet) (i : Nat)
    (hi : (s.record date.dayNo)[i]? = some e) (hid : e.ID = b.ID)
    (hst : Stamped (s.record date.dayNo)) (hd : DistinctIDs (s.record date.dayNo))
    (hb : b.CreatedAt.IsZero = false) :
    s.Update date b = (none, s.writeFile date.dayNo ((s.record date.dayNo).set i b)) := by
  have he : e ∈ s.record date.dayNo := List.getElem?_mem hi
  have hb1 : b.ID ≠ "" := hid ▸ (hst e he).1
  simp only [FSStore.Update, loadDay_eq h]
  rw [replaceFirst_eq_set b e _ i hi hid hd]
  exact saveDay_eq h date _ (stamped_set hst i b hb1 hb)

theorem index_ok {α : Type} (items : List α) (i : Nat) (e : α) (hi : items[i]? = some e) :
    ¬ ((i : Int) < 0 ∨ (i : Int) ≥ items.length) := by
  have : i < items.length := by
    by_contra hc
    rw [List.getElem?_eq_none (by omega)] at hi
    cases hi
  omega

theorem record_afterForward (s : FSStore) (D : Int) (i : Nat) (e m : Bullet) (T k : Int) :
    (afterForward s D i e m T).record k =
      (if k = D then (s.record D).set i m else s.record k) ++
        (if k = T then [storedClone s D i e m] else []) := by
  unfold afterForward storedClone
  by_cases h : k = T <;> simp [record_writeFile, record_stamp, h]

theorem storedClone_fields (s : FSStore) (D : Int) (i : Nat) (e m : Bullet) :
    (storedClone s D i e m).Typ = e.Typ ∧ (storedClone s D i e m).Text = e.Text ∧
      (storedClone s D i e m).Tags = e.Tags ∧ (storedClone s D i e m).ID ≠ "" ∧
      (storedClone s D i e m).ScheduledFor = none ∧ (storedClone s D i e m).CompletedAt = none ∧
      (storedClone s D i e m).Highlight = e.Highlight := by
  simp [storedClone, stamp_fields, stamp_id_ne_empty, cloneOf]

theorem forward_migrate_eq (L : Strings) (a : App) (date : Time) (i : Nat) (e : Bullet)
    (hio : a.Store.Healthy)
    (hi : (a.Store.record date.dayNo)[i]? = some e)
    (hk : e.Typ = Task ∨ e.Typ = Event)
    (hd : DistinctIDs (a.Store.record date.dayNo))
    (hst : Stamped (a.Store.record date.dayNo)) :
    a.MigrateDayIndex L date i =
      (none, { a with Store := (afterForward a.Store date.dayNo i e
        (forwarded e Migrated (Time.ofDay (date.dayNo + 1))) (date.dayNo + 1)) }) := by
  have he : e ∈ a.Store.record date.dayNo := List.getElem?_mem hi
  have hnm : e.Typ ≠ Migrated := by
    rcases hk with h | h <;> rw [h] <;> decide
  have hnn : ¬ (e.Typ ≠ Task ∧ e.Typ ≠ Event) := by tauto
  have hu := update_eq hio (dateOnly date) (forwarded e Migrated (Time.ofDay (date.dayNo + 1)))
    e i (by simpa [dayNo_dateOnly] using hi) rfl (by simpa [dayNo_dateOnly] using hst)
    (by simpa [dayNo_dateOnly] using hd) (hst e he).2
  simp only [dayNo_dateOnly, forwarded] at hu
  simp only [App.MigrateDayIndex, loadDay_eq hio, dayNo_dateOnly, if_neg (index_ok _ i e hi),
    Int.toNat_ofNat, hi, if_neg hnm, if_neg hnn, dateOnly_addDays, hu, thenReturn,
    append_eq (healthy_writeFile hio _ _), dayNo_ofDay, forwarded, cloneOf, afterForward]

theorem healthy_timeNow {s : FSStore} (h : s.Healthy) : (timeNow s).2.Healthy := h

theorem record_timeNow (s : FSStore) (k : Int) : (timeNow s).2.record k = s.record k := rfl

theorem set_self {α : Type} (l : List α) (i : Nat) (e : α) (hi : l[i]? = some e) :
    l.set i e = l := by
  apply List.ext_getElem?
  intro j
  rw [List.getElem?_set]
  by_cases h : i = j
  · subst h
    have : i < l.length := by
      by_contra hc
      rw [List.getElem?_eq_none (by omega)] at hi
      cases hi
    simp [this, hi]
  · simp [h]

theorem distinct_set {items : List Bullet} (h : DistinctIDs items) (i : Nat) (e b : Bullet)
    (hi : items[i]? = some e) (hid : b.ID = e.ID) : DistinctIDs (items.set i b) := by
  unfold DistinctIDs at *
  rw [List.map_set, hid]
  rw [set_self _ i e.ID (by simp [hi])]
  exact h

theorem getElem?_set_at {α : Type} (l : List α) (i : Nat) (e b : α) (hi : l[i]? = some e) :
    (l.set i b)[i]? = some b := by
  have : i < l.length := by
    by_contra hc
    rw [List.getElem?_eq_none (by omega)] at hi
    cases hi
  simp [List.getElem?_set, this]

theorem complete_task_eq (a : App) (date : Time) (i : Nat) (e : Bullet)
    (hio : a.Store.Healthy) (hi : (a.Store.record date.dayNo)[i]? = some e)
    (hk : e.Typ = Task)
    (hst : Stamped (a.Store.record date.dayNo)) (hd : DistinctIDs (a.Store.record date.dayNo)) :
    a.CompleteDayIndex date i =
      (none, { a with Store := ((timeNow a.Store).2.writeFile date.dayNo
        ((a.Store.record date.dayNo).set i (markDone e (a.Store.clock a.Store.clockUsed)))) }) := by
  have he : e ∈ a.Store.record date.dayNo := List.getElem?_mem hi
  have hnm : ¬ (e.Typ = Migrated ∨ e.Typ = Scheduled) := by
    rw [hk]; decide
  have hu := update_eq (healthy_timeNow hio) (dateOnly date)
    (markDone e (a.Store.clock a.Store.clockUsed))
    e i (by simpa [dayNo_dateOnly, record_timeNow] using hi) rfl
    (by simpa [dayNo_dateOnly, record_timeNow] using hst)
    (by simpa [dayNo_dateOnly, record_timeNow] using hd) (hst e he).2
  simp only [dayNo_dateOnly, record_timeNow, markDone] at hu
  simp only [App.CompleteDayIndex, loadDay_eq hio, dayNo_dateOnly, if_neg (index_ok _ i e hi),
    Int.toNat_ofNat, hi, if_neg hnm, if_pos hk, thenReturn, markDone]
  rw [show (timeNow a.Store).1 = a.Store.clock a.Store.clockUsed from rfl, hu]

theorem complete_done_eq (a : App) (date : Time) (i : Nat) (e : Bullet)
    (hio : a.Store.Healthy) (hi : (a.Store.record date.dayNo)[i]? = some e)
    (hk : e.Typ = Done)
    (hst : Stamped (a.Store.record date.dayNo)) (hd : DistinctIDs (a.Store.record date.dayNo)) :
    a.CompleteDayIndex date i =
      (none, { a with Store := (a.Store.writeFile date.dayNo
        ((a.Store.record date.dayNo).set i (markTask e))) }) := by
  have he : e ∈ a.Store.record date.dayNo := List.getElem?_mem hi
  have hnm : ¬ (e.Typ = Migrated ∨ e.Typ = Scheduled) := by
    rw [hk]; decide
  have hnt : ¬ e.Typ = Task := by
    rw [hk]; decide
  have hu := update_eq hio (dateOnly date) (markTask e)
    e i (by simpa [dayNo_dateOnly] using hi) rfl
    (by simpa [dayNo_dateOnly] using hst)
    (by simpa [dayNo_dateOnly] using hd) (hst e he).2
  simp only [dayNo_dateOnly, markTask] at hu
  simp only [App.CompleteDayIndex, loadDay_eq hio, dayNo_dateOnly, if_neg (index_ok _ i e hi),
    Int.toNat_ofNat, hi, if_neg hnm, if_neg hnt, if_pos hk, thenReturn, hu, markTask]

theorem findClone_eq (L : Strings) (text : String) (titems : List Bullet) :
    findClone L text titems =
      match firstClone L text titems with
      | some c => (c.ID, c.Typ)
      | none => ("", Task) := by
  induction titems with
  | nil => rfl
  | cons x rest ih =>
    unfold findClone firstClone
    by_cases h : L.EqualFold x.Text text = true ∧ (x.Typ = Task ∨ x.Typ = Event)
    · simp [List.find?, isCandidate, h]
    · rw [if_neg h]
      simp only [List.find?, isCandidate, h, decide_False]
      exact ih

theorem delete_eq {s : FSStore} (h : s.Healthy) (date : Time) (id : String)
    (hst : Stamped ((s.record date.dayNo).filter fun it => it.ID ≠ id)) :
    s.Delete date id =
      (none, s.writeFile date.dayNo ((s.record date.dayNo).filter fun it => it.ID ≠ id)) := by
  simp only [FSStore.Delete, loadDay_eq h]
  exact saveDay_eq h date _ hst

theorem stamped_filter {items : List Bullet} (h : Stamped items) (p : Bullet → Bool) :
    Stamped (items.filter p) :=
  fun b hb => h b (List.mem_of_mem_filter hb)

theorem filter_id_eq_erase (l : List Bullet) (c : Bullet) (hd : DistinctIDs l) (hc : c ∈ l) :
    (l.filter fun it => it.ID ≠ c.ID) = l.erase c := by
  induction l with
  | nil => simp at hc
  | cons x rest ih =>
    have hd1 : x.ID ∉ rest.map (·.ID) ∧ DistinctIDs rest := by
      simpa [DistinctIDs] using hd
    by_cases hx : x = c
    · subst hx
      have hall : ∀ y ∈ rest, y.ID ≠ x.ID := by
        intro y hy hxy
        exact hd1.1 (hxy ▸ List.mem_map_of_mem _ hy)
      simp only [List.filter, ne_eq, not_true_eq_false, decide_False, List.erase_cons_head]
      rw [List.filter_eq_self]
      intro y hy
      simpa using hall y hy
    · have hcr : c ∈ rest := by
        rcases List.mem_cons.1 hc with h | h
        · exact absurd h.symm hx
        · exact h
      have hne : x.ID ≠ c.ID := by
        intro hxc
        exact hd1.1 (hxc ▸ List.mem_map_of_mem _ hcr)
      have hbeq : (x == c) = false := by simpa using hx
      simp only [List.filter, ne_eq, hne, not_false_eq_true, decide_True, List.erase_cons, hbeq]
      rw [← ih hd1.2 hcr]
      simp

theorem record_afterUndo (L : Strings) (s : FSStore) (D : Int) (i : Nat) (a0 : Bullet) (T k : Int) :
    (afterUndo L s D i a0 T).record k =
      if k = T ∧ (findClone L a0.Text (s.record T)).1 ≠ "" then
        (if k = D then (s.record D).set i
            { a0 with Typ := (findClone L a0.Text (s.record T)).2, CompletedAt := none,
                      ScheduledFor := none }
          else s.record k).filter fun it => it.ID ≠ (findClone L a0.Text (s.record T)).1
      else
        if k = D then (s.record D).set i
            { a0 with Typ := (findClone L a0.Text (s.record T)).2, CompletedAt := none,
                      ScheduledFor := none }
        else s.record k := by
  unfold afterUndo
  by_cases hf : (findClone L a0.Text (s.record T)).1 = ""
  · simp [hf, record_writeFile]
  · by_cases hk : k = T
    · subst hk
      simp [hf, record_writeFile]
    · simp [hf, hk, record_writeFile]

theorem undo_migrate_eq (L : Strings) (a : App) (date : Time) (i : Nat) (a0 : Bullet)
    (hio : a.Store.Healthy)
    (hi : (a.Store.record date.dayNo)[i]? = some a0)
    (hk : a0.Typ = Migrated)
    (hst : Stamped (a.Store.record date.dayNo))
    (hd : DistinctIDs (a.Store.record date.dayNo))
    (hstT : Stamped ((a.Store.record (undoTarget a0 date.dayNo)).filter fun it =>
      it.ID ≠ (findClone L a0.Text (a.Store.record (undoTarget a0 date.dayNo))).1)) :
    a.MigrateDayIndex L date i =
      (none, { a with Store :=
        (afterUndo L a.Store date.dayNo i a0 (undoTarget a0 date.dayNo)) }) := by
  have he : a0 ∈ a.Store.record date.dayNo := List.getElem?_mem hi
  have hT : (match a0.ScheduledFor with
      | some sf => dateOnly sf
      | none => (dateOnly date).AddDays 1).dayNo = undoTarget a0 date.dayNo := by
    unfold undoTarget
    cases a0.ScheduledFor <;> simp [dayNo_dateOnly, dateOnly_addDays, dayNo_ofDay]
  have hu := update_eq hio (dateOnly date)
    { a0 with Typ := (findClone L a0.Text (a.Store.record (undoTarget a0 date.dayNo))).2,
              CompletedAt := none, ScheduledFor := none }
    a0 i (by simpa [dayNo_dateOnly] using hi) rfl (by simpa [dayNo_dateOnly] using hst)
    (by simpa [dayNo_dateOnly] using hd) (hst a0 he).2
  simp only [dayNo_dateOnly] at hu
  simp only [App.MigrateDayIndex, loadDay_eq hio, dayNo_dateOnly, if_neg (index_ok _ i a0 hi),
    Int.toNat_ofNat, hi, if_pos hk, hT, hu, thenReturn, afterUndo]
  by_cases hf : (findClone L a0.Text (a.Store.record (undoTarget a0 date.dayNo))).1 = ""
  · simp [hf]
  · have hdel := delete_eq (healthy_writeFile hio date.dayNo ((a.Store.record date.dayNo).set i
        { a0 with Typ := (findClone L a0.Text (a.Store.record (undoTarget a0 date.dayNo))).2,
                  CompletedAt := none, ScheduledFor := none }))
      (match a0.ScheduledFor with
        | some sf => dateOnly sf
        | none => (dateOnly date).AddDays 1)
      (findClone L a0.Text (a.Store.record (undoTarget a0 date.dayNo))).1
      (by
        rw [hT, record_writeFile]
        split
        · apply stamped_filter
          refine stamped_set hst i _ ?_ ?_
          · exact (hst a0 he).1
          · exact (hst a0 he).2
        · exact hstT)
    rw [hT] at hdel
    simp [hf, hdel]

theorem undo_schedule_eq (L : Strings) (a : App) (date target : Time) (i : Nat)
    (a0 : Bullet) (sf : Time)
    (hio : a.Store.Healthy)
    (hi : (a.Store.record date.dayNo)[i]? = some a0)
    (hk : a0.Typ = Scheduled) (hsf : a0.ScheduledFor = some sf)
    (hst : Stamped (a.Store.record date.dayNo))
    (hd : DistinctIDs (a.Store.record date.dayNo))
    (hstT : Stamped ((a.Store.record sf.dayNo).filter fun it =>
      it.ID ≠ (findClone L a0.Text (a.Store.record sf.dayNo)).1)) :
    a.ScheduleDayIndex L date i target =
      (none, { a with Store := (afterUndo L a.Store date.dayNo i a0 sf.dayNo) }) := by
  have he : a0 ∈ a.Store.record date.dayNo := List.getElem?_mem hi
  have hu := update_eq hio (dateOnly date)
    { a0 with Typ := (findClone L a0.Text (a.Store.record sf.dayNo)).2,
              CompletedAt := none, ScheduledFor := none }
    a0 i (by simpa [dayNo_dateOnly] using hi) rfl (by simpa [dayNo_dateOnly] using hst)
    (by simpa [dayNo_dateOnly] using hd) (hst a0 he).2
  simp only [dayNo_dateOnly] at hu
  simp only [App.ScheduleDayIndex, loadDay_eq hio, dayNo_dateOnly, if_neg (index_ok _ i a0 hi),
    Int.toNat_ofNat, hi, if_pos hk, hsf, hu, thenReturn, afterUndo]
  by_cases hf : (findClone L a0.Text (a.Store.record sf.dayNo)).1 = ""
  · simp [hf]
  · have hdel := delete_eq (healthy_writeFile hio date.dayNo ((a.Store.record date.dayNo).set i
        { a0 with Typ := (findClone L a0.Text (a.Store.record sf.dayNo)).2,
                  CompletedAt := none, ScheduledFor := none }))
      (dateOnly sf) (findClone L a0.Text (a.Store.record sf.dayNo)).1
      (by
        rw [dayNo_dateOnly, record_writeFile]
        split
        · apply stamped_filter
          refine stamped_set hst i _ ?_ ?_
          · exact (hst a0 he).1
          · exact (hst a0 he).2
        · exact hstT)
    rw [dayNo_dateOnly] at hdel
    simp [hf, hdel]

theorem mem_set_of_ne {α : Type} (l : List α) (i : Nat) (e b c : α) (hi : l[i]? = some e)
    (hc : c ∈ l) (hne : c ≠ e) : c ∈ l.set i b := by
  obtain ⟨j, hj⟩ := List.mem_iff_getElem?.1 hc
  have hij : i ≠ j := by
    intro h
    subst h
    rw [hi] at hj
    exact hne (Option.some.inj hj).symm
  apply List.mem_iff_getElem?.2
  exact ⟨j, by rw [List.getElem?_set_ne hij]; exact hj⟩

theorem firstClone_spec (L : Strings) (text : String) (titems : List Bullet) (c : Bullet)
    (h : firstClone L text titems = some c) :
    c ∈ titems ∧ (c.Typ = Task ∨ c.Typ = Event) ∧ L.EqualFold c.Text text = true := by
  unfold firstClone at h
  have h1 := List.find?_some h
  have h2 := List.mem_of_find?_eq_some h
  simp only [isCandidate, decide_eq_true_eq] at h1
  exact ⟨h2, h1.2, h1.1⟩

theorem healthy_afterForward {s : FSStore} (h : s.Healthy) (D : Int) (i : Nat) (e m : Bullet)
    (T : Int) : (afterForward s D i e m T).Healthy :=
  healthy_writeFile (healthy_stamp (healthy_writeFile h _ _) _) _ _

theorem storedClone_id (s : FSStore) (D : Int) (i : Nat) (e m : Bullet) :
    (storedClone s D i e m).ID = (generateID s).1 := by
  unfold storedClone
  rw [stamp_id]
  simp [cloneOf, generateID, timeNow, FSStore.writeFile]

theorem findClone_append (L : Strings) (text : String) (l r : List Bullet)
    (h : ∀ b ∈ l, (b.Typ = Task ∨ b.Typ = Event) → L.EqualFold b.Text text = false) :
    findClone L text (l ++ r) = findClone L text r := by
  induction l with
  | nil => rfl
  | cons x rest ih =>
    have hx : ¬ (L.EqualFold x.Text text = true ∧ (x.Typ = Task ∨ x.Typ = Event)) := by
      intro hc
      have := h x (List.mem_cons_self _ _) hc.2
      rw [this] at hc
      exact Bool.false_ne_true hc.1
    simp only [List.cons_append, findClone, if_neg hx]
    exact ih fun b hb => h b (List.mem_cons_of_mem _ hb)

theorem filter_append_fresh (l : List Bullet) (c : Bullet) (h : c.ID ∉ l.map (·.ID)) :
    ((l ++ [c]).filter fun it => it.ID ≠ c.ID) = l := by
  rw [List.filter_append]
  have h1 : (l.filter fun it => it.ID ≠ c.ID) = l := by
    rw [List.filter_eq_self]
    intro y hy
    have : y.ID ≠ c.ID := fun hyc => h (hyc ▸ List.mem_map_of_mem _ hy)
    simpa using this
  rw [h1]
  simp

theorem forward_schedule_eq (L : Strings) (a : App) (date target : Time) (i : Nat)
    (e : Bullet)
    (hio : a.Store.Healthy)
    (hi : (a.Store.record date.dayNo)[i]? = some e)
    (hk : e.Typ = Task ∨ e.Typ = Event)
    (hd : DistinctIDs (a.Store.record date.dayNo))
    (hst : Stamped (a.Store.record date.dayNo)) :
    a.ScheduleDayIndex L date i target =
      (none, { a with Store := (afterForward a.Store date.dayNo i e
        (forwarded e Scheduled (Time.ofDay target.dayNo)) target.dayNo) }) := by
  have he : e ∈ a.Store.record date.dayNo := List.getElem?_mem hi
  have hnm : e.Typ ≠ Scheduled := by
    rcases hk with h | h <;> rw [h] <;> decide
  have hnn : ¬ (e.Typ ≠ Task ∧ e.Typ ≠ Event) := by tauto
  have hu := update_eq hio (dateOnly date) (forwarded e Scheduled (Time.ofDay target.dayNo))
    e i (by simpa [dayNo_dateOnly] using hi) rfl (by simpa [dayNo_dateOnly] using hst)
    (by simpa [dayNo_dateOnly] using hd) (hst e he).2
  have ht : dateOnly target = Time.ofDay target.dayNo := rfl
  simp only [dayNo_dateOnly, forwarded] at hu
  simp only [App.ScheduleDayIndex, loadDay_eq hio, dayNo_dateOnly, if_neg (index_ok _ i e hi),
    Int.toNat_ofNat, hi, if_neg hnm, if_neg hnn, ht, hu, thenReturn,
    append_eq (healthy_writeFile hio _ _), dayNo_ofDay, forwarded, cloneOf, afterForward]

theorem stampAll_append_one (s : FSStore) (l : List Bullet) (c : Bullet) (h : Stamped l) :
    stampAll s (l ++ [c]) = (l ++ [(stamp s c).1], (stamp s c).2) := by
  induction l with
  | nil => simp [stampAll]
  | cons b rest ih =>
    have hb := h b (List.mem_cons_self _ _)
    have hr : Stamped rest := fun x hx => h x (List.mem_cons_of_mem _ hx)
    simp [stampAll, stamp_eq_self s b hb.1 hb.2, ih hr]

theorem saveDay_append_one {s : FSStore} (h : s.Healthy) (date : Time) (l : List Bullet)
    (c : Bullet) (hst : Stamped l) :
    s.SaveDay date (l ++ [c]) =
      (none, (stamp s c).2.writeFile date.dayNo (l ++ [(stamp s c).1])) := by
  simp [FSStore.SaveDay, (h date.dayNo).2, stampAll_append_one s l c hst]

theorem replaceFirst_append (b : Bullet) (l r : List Bullet) (h : b.ID ∈ l.map (·.ID)) :
    replaceFirst b (l ++ r) = replaceFirst b l ++ r := by
  induction l with
  | nil => simp at h
  | cons x rest ih =>
    by_cases hx : x.ID = b.ID
    · simp [replaceFirst, hx]
    · have : b.ID ∈ rest.map (·.ID) := by
        simp only [List.map_cons, List.mem_cons] at h
        rcases h with h | h
        · exact absurd h.symm hx
        · exact h
      simp [replaceFirst, hx, ih this]

theorem no_candidate_set (L : Strings) (text : String) (l : List Bullet) (i : Nat) (m : Bullet)
    (hm : ¬ (m.Typ = Task ∨ m.Typ = Event))
    (h : ∀ (j : Nat) (b : Bullet), l[j]? = some b → j ≠ i →
      (b.Typ = Task ∨ b.Typ = Event) → L.EqualFold b.Text text = false) :
    ∀ b ∈ l.set i m, (b.Typ = Task ∨ b.Typ = Event) → L.EqualFold b.Text text = false := by
  intro b hb hk
  obtain ⟨j, hj⟩ := List.mem_iff_getElem?.1 hb
  rw [List.getElem?_set] at hj
  by_cases hij : i = j
  · subst hij
    simp only [if_true] at hj
    split at hj
    · cases hj
      exact absurd hk hm
    · cases hj
  · simp only [hij, if_false] at hj
    exact h j b hj (Ne.symm hij) hk

theorem undo_schedule_sameDay (L : Strings) (hL : ∀ s, L.EqualFold s s = true)
    (s : FSStore) (a : App) (date target : Time) (i : Nat) (e : Bullet)
    (hio : s.Healthy)
    (hi : (s.record date.dayNo)[i]? = some e)
    (hk : e.Typ = Task ∨ e.Typ = Event) (hs : e.ScheduledFor = none) (hc : e.CompletedAt = none)
    (hno : ∀ (j : Nat) (b : Bullet), (s.record date.dayNo)[j]? = some b → j ≠ i →
      (b.Typ = Task ∨ b.Typ = Event) → L.EqualFold b.Text e.Text = false)
    (hst : Stamped (s.record date.dayNo))
    (hd : DistinctIDs (s.record date.dayNo))
    (hfresh : (generateID s).1 ∉ (s.record date.dayNo).map (·.ID)) :
    (App.ScheduleDayIndex L { a with Store := (afterForward s date.dayNo i e
        (forwarded e Scheduled (Time.ofDay date.dayNo)) date.dayNo) } date i target).1 = none ∧
    ∀ k, (App.ScheduleDayIndex L { a with Store := (afterForward s date.dayNo i e
        (forwarded e Scheduled (Time.ofDay date.dayNo)) date.dayNo) } date i target).2.Store.record k =
      s.record k := by
  have he : e ∈ s.record date.dayNo := List.getElem?_mem hi
  have hlt : i < (s.record date.dayNo).length := by
    by_contra hcon
    rw [List.getElem?_eq_none (by omega)] at hi
    cases hi
  obtain ⟨m, hm⟩ : ∃ m, m = forwarded e Scheduled (Time.ofDay date.dayNo) := ⟨_, rfl⟩
  obtain ⟨cl, hcl⟩ : ∃ cl, cl = storedClone s date.dayNo i e m := ⟨_, rfl⟩
  obtain ⟨s1, hs1⟩ : ∃ s1, s1 = afterForward s date.dayNo i e m date.dayNo := ⟨_, rfl⟩
  have hio1 : s1.Healthy := hs1 ▸ healthy_afterForward hio _ _ _ _ _
  have hrec : ∀ k, s1.record k =
      if k = date.dayNo then (s.record date.dayNo).set i m ++ [cl] else s.record k := by
    intro k
    rw [hs1, record_afterForward, hcl]
    by_cases hkd : k = date.dayNo <;> simp [hkd]
  have hclf := storedClone_fields s date.dayNo i e m
  rw [← hcl] at hclf
  have hclid : cl.ID = (generateID s).1 := by rw [hcl, storedClone_id]
  have hmT : ¬ (m.Typ = Task ∨ m.Typ = Event) := by
    rw [hm]; simp only [forwarded]; decide
  have hfind : findClone L m.Text ((s.record date.dayNo).set i m ++ [cl]) = (cl.ID, e.Typ) := by
    have hmt : m.Text = e.Text := by rw [hm]; rfl
    rw [hmt, findClone_append L e.Text _ _ (no_candidate_set L e.Text _ i m hmT hno)]
    simp [findClone, hclf.1, hclf.2.1, hL, hk]
  have hrest : ({ m with Typ := e.Typ, CompletedAt := none, ScheduledFor := none } : Bullet) = e := by
    rw [hm]
    cases e
    simp_all [forwarded]
  have hmem : e.ID ∈ ((s.record date.dayNo).set i m).map (·.ID) := by
    apply List.mem_map.2
    exact ⟨m, List.mem_iff_getElem?.2 ⟨i, getElem?_set_at _ i e m hi⟩, by rw [hm]; rfl⟩
  have hrf : replaceFirst e ((s.record date.dayNo).set i m ++ [cl]) = s.record date.dayNo ++ [cl] := by
    rw [replaceFirst_append e _ _ hmem,
      replaceFirst_eq_set e m _ i (getElem?_set_at _ i e m hi) (by rw [hm]; rfl)
        (distinct_set hd i e m hi (by rw [hm]; rfl)),
      List.set_set, set_self _ i e hi]
  have hupd : s1.Update (dateOnly date) e =
      (none, (stamp s1 cl).2.writeFile date.dayNo (s.record date.dayNo ++ [(stamp s1 cl).1])) := by
    simp only [FSStore.Update, loadDay_eq hio1, dayNo_dateOnly, hrec, if_true, hrf]
    have := saveDay_append_one hio1 (dateOnly date) (s.record date.dayNo) cl hst
    rw [dayNo_dateOnly] at this
    exact this
  have hid2 : (stamp s1 cl).1.ID = cl.ID := by
    rw [stamp_id, if_neg hclf.2.2.2.1]
  have hdel : ((stamp s1 cl).2.writeFile date.dayNo
      (s.record date.dayNo ++ [(stamp s1 cl).1])).Delete (Time.ofDay date.dayNo) cl.ID =
      (none, ((stamp s1 cl).2.writeFile date.dayNo
        (s.record date.dayNo ++ [(stamp s1 cl).1])).writeFile date.dayNo (s.record date.dayNo)) := by
    have hfil : ((s.record date.dayNo ++ [(stamp s1 cl).1]).filter fun it => it.ID ≠ cl.ID) =
        s.record date.dayNo := by
      rw [← hid2]
      exact filter_append_fresh _ _ (by rw [hid2, hclid]; exact hfresh)
    have := delete_eq (healthy_writeFile (healthy_stamp hio1 cl) date.dayNo
      (s.record date.dayNo ++ [(stamp s1 cl).1])) (Time.ofDay date.dayNo) cl.ID
      (by rw [dayNo_ofDay, record_writeFile, if_pos rfl, hfil]; exact hst)
    rw [dayNo_ofDay, record_writeFile, if_pos rfl, hfil] at this
    exact this
  have hi1 : (s1.record date.dayNo)[i]? = some m := by
    rw [hrec, if_pos rfl, List.getElem?_append_left (by simpa using hlt)]
    exact getElem?_set_at _ i e m hi
  have hmk : m.Typ = Scheduled := by rw [hm]; rfl
  have hmsf : m.ScheduledFor = some (Time.ofDay date.dayNo) := by rw [hm]; rfl
  have hidne : cl.ID ≠ "" := hclf.2.2.2.1
  rw [← hm, ← hs1]
  have hrecD : s1.record date.dayNo = (s.record date.dayNo).set i m ++ [cl] := by
    rw [hrec, if_pos rfl]
  simp only [App.ScheduleDayIndex, loadDay_eq hio1, dayNo_dateOnly, if_neg (index_ok _ i m hi1),
    Int.toNat_ofNat, hi1, if_pos hmk, hmsf, dateOnly_ofDay, dayNo_ofDay]
  simp only [hrecD, hfind, hrest, hupd, thenReturn, ne_eq, hidne, not_false_eq_true, if_true, hdel]
  refine ⟨trivial, fun k => ?_⟩
  by_cases hkd : k = date.dayNo
  · simp [record_writeFile, hkd]
  · simp [record_writeFile, hkd, record_stamp, hrec]
theorem collectDays_ok {s : FSStore} (h : s.Healthy) (last : Time) (fuel : Nat) (d : Time) :
    ∃ entries, collectDays s last fuel d = .ok entries := by
  induction fuel generalizing d with
  | zero => exact ⟨[], rfl⟩
  | succ n ih =>
    obtain ⟨rest, hrest⟩ := ih (d.Add nanosPerDay)
    unfold collectDays
    by_cases hd : d.After last = true
    · exact ⟨[], by simp [hd]⟩
    · rw [if_neg hd, loadDay_eq h]
      simp only [hrest]
      exact ⟨_, rfl⟩

theorem refresh_healthy (a : App) (h : a.Store.Healthy) :
    (a.Refresh).1 = none ∧ (a.Refresh).2.Store = a.Store := by
  unfold App.Refresh
  obtain ⟨entries, he⟩ := collectDays_ok h a.dateRange.End
    ((a.dateRange.End.ns - a.dateRange.Start.ns) / nanosPerDay + 1).toNat a.dateRange.Start
  simp [he]

theorem stamp_completedOk (s : FSStore) (b : Bullet) (h : CompletedOk b) :
    CompletedOk (stamp s b).1 := by
  have hf := stamp_fields s b
  unfold CompletedOk at *
  rw [hf.1, hf.2.2.2.2.1]
  exact h

theorem stampAll_spec (s : FSStore) (items : List Bullet) :
    (stampAll s items).2.files = s.files ∧ (stampAll s items).2.readErr = s.readErr ∧
      (stampAll s items).2.writeErr = s.writeErr ∧
      ((∀ b ∈ items, CompletedOk b) → ∀ b ∈ (stampAll s items).1, CompletedOk b) := by
  induction items generalizing s with
  | nil => simp [stampAll]
  | cons x rest ih =>
    have hx := stamp_files s x
    have hr := ih (stamp s x).2
    simp only [stampAll]
    refine ⟨hr.1.trans hx.1, hr.2.1.trans hx.2.1, hr.2.2.1.trans hx.2.2, ?_⟩
    intro h b hb
    rcases List.mem_cons.1 hb with hb | hb
    · rw [hb]
      exact stamp_completedOk s x (h x (List.mem_cons_self _ _))
    · exact hr.2.2.2 (fun y hy => h y (List.mem_cons_of_mem _ hy)) b hb

theorem storeOk_writeFile {s : FSStore} (h : StoreOk s) (k : Int) (items : List Bullet)
    (hi : ∀ b ∈ items, CompletedOk b) : StoreOk (s.writeFile k items) := by
  intro j b hb
  rw [record_writeFile] at hb
  split at hb
  · exact hi b hb
  · exact h j b hb

theorem storeOk_of_files {s s' : FSStore} (h : StoreOk s) (hf : s'.files = s.files) :
    StoreOk s' := by
  intro k b hb
  apply h k b
  unfold FSStore.record at *
  rw [← hf]
  exact hb

theorem storeOk_timeNow {s : FSStore} (h : StoreOk s) : StoreOk (timeNow s).2 := h

theorem storeOk_saveDay {s : FSStore} (h : StoreOk s) (date : Time) (items : List Bullet)
    (hi : ∀ b ∈ items, CompletedOk b) : StoreOk (s.SaveDay date items).2 := by
  unfold FSStore.SaveDay
  split
  · exact h
  · have hs := stampAll_spec s items
    exact storeOk_writeFile (storeOk_of_files h hs.1) _ _ (hs.2.2.2 hi)

theorem storeOk_append {s : FSStore} (h : StoreOk s) (date : Time) (b : Bullet)
    (hb : CompletedOk b) : StoreOk (s.Append date b).2 := by
  unfold FSStore.Append
  split
  · exact h
  · have h1 : StoreOk (stamp s b).2 := storeOk_of_files h (stamp_files s b).1
    apply storeOk_writeFile h1
    intro x hx
    rcases List.mem_append.1 hx with hx | hx
    · exact h1 _ x hx
    · rw [List.mem_singleton.1 hx]
      exact stamp_completedOk s b hb

theorem loadDay_mem {s : FSStore} (h : StoreOk s) (date : Time) (items : List Bullet)
    (hl : s.LoadDay date = .ok items) : ∀ b ∈ items, CompletedOk b := by
  unfold FSStore.LoadDay at hl
  split at hl
  · cases hl
  · intro b hb
    apply h date.dayNo b
    unfold FSStore.record
    split at hl
    · cases hl
      simp at hb
    · next its hf =>
      cases hl
      simp [hf, hb]

theorem replaceFirst_mem (b : Bullet) (items : List Bullet) :
    ∀ x ∈ replaceFirst b items, x = b ∨ x ∈ items := by
  induction items with
  | nil => simp [replaceFirst]
  | cons y rest ih =>
    intro x hx
    unfold replaceFirst at hx
    split at hx
    · rcases List.mem_cons.1 hx with hx | hx
      · exact Or.inl hx
      · exact Or.inr (List.mem_cons_of_mem _ hx)
    · rcases List.mem_cons.1 hx with hx | hx
      · exact Or.inr (hx ▸ List.mem_cons_self _ _)
      · rcases ih x hx with h | h
        · exact Or.inl h
        · exact Or.inr (List.mem_cons_of_mem _ h)

theorem storeOk_update {s : FSStore} (h : StoreOk s) (date : Time) (b : Bullet)
    (hb : CompletedOk b) : StoreOk (s.Update date b).2 := by
  unfold FSStore.Update
  split
  · exact h
  · next items hl =>
    apply storeOk_saveDay h
    intro x hx
    rcases replaceFirst_mem b items x hx with hx | hx
    · rw [hx]; exact hb
    · exact loadDay_mem h date items hl x hx

theorem storeOk_delete {s : FSStore} (h : StoreOk s) (date : Time) (id : String) :
    StoreOk (s.Delete date id).2 := by
  unfold FSStore.Delete
  split
  · exact h
  · next items hl =>
    apply storeOk_saveDay h
    intro x hx
    exact loadDay_mem h date items hl x (List.mem_of_mem_filter hx)

theorem collectDays_itemsOk {s : FSStore} (h : StoreOk s) (last : Time) (fuel : Nat) (d : Time)
    (entries : List Entry) (hc : collectDays s last fuel d = .ok entries) : ItemsOk entries := by
  induction fuel generalizing d entries with
  | zero =>
    simp only [collectDays] at hc
    cases hc
    intro e he
    simp at he
  | succ n ih =>
    unfold collectDays at hc
    split at hc
    · cases hc
      intro e he
      simp at he
    · split at hc
      · cases hc
      · next items hl =>
        split at hc
        · cases hc
        · next rest hr =>
          cases hc
          intro e he
          rcases List.mem_append.1 he with he | he
          · obtain ⟨it, hit, rfl⟩ := List.mem_map.1 he
            exact loadDay_mem h d items hl it hit
          · exact ih _ rest hr e he

theorem inv_refresh {a : App} (h : Inv a) : Inv (a.Refresh).2 := by
  unfold App.Refresh
  simp only []
  split
  · exact h
  · next entries hc => exact ⟨h.1, collectDays_itemsOk h.1 _ _ _ entries hc⟩

theorem inv_thenRefresh {a : App} (h : Inv a) (r : Option Err × FSStore) (hr : StoreOk r.2) :
    Inv (thenRefresh a r).2 := by
  unfold thenRefresh
  split
  · exact ⟨hr, h.2⟩
  · exact inv_refresh ⟨hr, h.2⟩

theorem inv_thenReturn {a : App} (h : Inv a) (r : Option Err × FSStore) (hr : StoreOk r.2) :
    Inv (thenReturn a r).2 := ⟨hr, h.2⟩

theorem visible_ok (L : Strings) {a : App} (h : Inv a) (i : Nat) (e : Entry)
    (hv : (a.Visible L)[i]? = some e) : CompletedOk e.Item :=
  h.2 e (List.mem_of_mem_filter (List.getElem?_mem hv))

theorem findClone_typ (L : Strings) (text : String) (items : List Bullet) :
    (findClone L text items).2 = Task ∨ (findClone L text items).2 = Event := by
  induction items with
  | nil => exact Or.inl rfl
  | cons x rest ih =>
    unfold findClone
    split
    · next hx => exact hx.2
    · exact ih

theorem completedOk_restored (b : Bullet) (t : BulletType) (ht : t = Task ∨ t = Event) :
    CompletedOk { b with Typ := t, CompletedAt := none, ScheduledFor := none } := by
  unfold CompletedOk
  rcases ht with h | h <;> simp [h, Task, Event, Done]

theorem completedOk_clone (b : Bullet) (ht : ¬ (b.Typ ≠ Task ∧ b.Typ ≠ Event)) :
    CompletedOk { b with ID := "", CompletedAt := none, ScheduledFor := none,
                         CreatedAt := Time.zero } := by
  unfold CompletedOk
  have : b.Typ = Task ∨ b.Typ = Event := by tauto
  rcases this with h | h <;> simp [h, Task, Event, Done]

theorem completedOk_marked (b : Bullet) (t : BulletType) (sf : Option Time)
    (ht : t = Migrated ∨ t = Scheduled) :
    CompletedOk { b with Typ := t, CompletedAt := none, ScheduledFor := sf } := by
  unfold CompletedOk
  rcases ht with h | h <;> simp [h, Migrated, Scheduled, Done]
theorem inv_add (a : App) (text : String) (h : Inv a) : Inv (a.Add text).2.2 := by
  have hb : CompletedOk
      { ID := "", Typ := Task, Text := text, Tags := [], CreatedAt := (timeNow a.Store).1,
        ScheduledFor := none, CompletedAt := none, Highlight := "" } := by
    simp [CompletedOk, Task, Done]
  have hs := storeOk_append (storeOk_timeNow h.1) a.CurrentDate _ hb
  unfold App.Add
  simp only []
  split
  · next e s heq =>
    rw [heq] at hs
    exact ⟨hs, h.2⟩
  · next s heq =>
    rw [heq] at hs
    have hr := inv_refresh (a := { a with Store := s }) ⟨hs, h.2⟩
    split
    · next e a1 hq => rw [hq] at hr; exact hr
    · next a1 hq => rw [hq] at hr; exact hr

theorem inv_updateText (L : Strings) (a : App) (index : Int) (text : String) (h : Inv a) :
    Inv (a.UpdateText L index text).2 := by
  unfold App.UpdateText
  simp only []
  split
  · exact h
  · split
    · exact h
    · next e hv =>
      apply inv_thenRefresh h
      apply storeOk_update h.1
      exact visible_ok L h _ e hv

theorem inv_updateTags (L : Strings) (a : App) (index : Int) (tags : List String) (h : Inv a) :
    Inv (a.UpdateTagsIndex L index tags).2 := by
  unfold App.UpdateTagsIndex
  simp only []
  split
  · exact h
  · split
    · exact h
    · next e hv =>
      apply inv_thenRefresh h
      apply storeOk_update h.1
      exact visible_ok L h _ e hv

theorem inv_deleteIndex (L : Strings) (a : App) (index : Int) (h : Inv a) :
    Inv (a.DeleteIndex L index).2 := by
  unfold App.DeleteIndex
  simp only []
  split
  · exact h
  · split
    · exact h
    · exact inv_thenRefresh h _ (storeOk_delete h.1 _ _)

theorem completedOk_done (b : Bullet) (now : Time) :
    CompletedOk { b with Typ := Done, CompletedAt := some now } := by
  simp [CompletedOk]

theorem completedOk_task (b : Bullet) :
    CompletedOk { b with Typ := Task, CompletedAt := none } := by
  simp [CompletedOk, Task, Done]

theorem inv_completeIndex (L : Strings) (a : App) (index : Int) (h : Inv a) :
    Inv (a.CompleteIndex L index).2 := by
  unfold App.CompleteIndex
  simp only []
  split
  · exact h
  · split
    · exact h
    · split
      · exact h
      · split
        · exact inv_thenRefresh h _
            (storeOk_update (storeOk_timeNow h.1) _ _ (completedOk_done _ _))
        · split
          · exact inv_thenRefresh h _ (storeOk_update h.1 _ _ (completedOk_task _))
          · exact h

theorem inv_completeDayIndex (a : App) (date : Time) (index : Int) (h : Inv a) :
    Inv (a.CompleteDayIndex date index).2 := by
  unfold App.CompleteDayIndex
  simp only []
  split
  · exact h
  · split
    · exact h
    · split
      · exact h
      · split
        · exact h
        · split
          · exact inv_thenReturn h _
              (storeOk_update (storeOk_timeNow h.1) _ _ (completedOk_done _ _))
          · split
            · exact inv_thenReturn h _ (storeOk_update h.1 _ _ (completedOk_task _))
            · exact h

theorem inv_deleteDayIndex (a : App) (date : Time) (index : Int) (h : Inv a) :
    Inv (a.DeleteDayIndex date index).2 := by
  unfold App.DeleteDayIndex
  split
  · exact h
  · split
    · exact h
    · split
      · exact h
      · exact inv_thenReturn h _ (storeOk_delete h.1 _ _)

theorem inv_updateDayIndexText (a : App) (date : Time) (index : Int) (text : String) (h : Inv a) :
    Inv (a.UpdateDayIndexText date index text).2 := by
  unfold App.UpdateDayIndexText
  split
  · exact h
  · next items hl =>
    split
    · exact h
    · split
      · exact h
      · next it hit =>
        apply inv_thenReturn h
        apply storeOk_update h.1
        exact loadDay_mem h.1 _ items hl it (List.getElem?_mem hit)

theorem inv_changeTypeIndex (L : Strings) (a : App) (index : Int) (t : BulletType) (h : Inv a) :
    Inv (a.ChangeTypeIndex L index t).2 := by
  unfold App.ChangeTypeIndex
  simp only []
  split
  · exact h
  · split
    · exact h
    · next e hv =>
      by_cases hD : t = Done
      · have hS : t ≠ Scheduled := by rw [hD]; decide
        simp only [if_pos hD, if_pos hS]
        apply inv_thenRefresh h
        apply storeOk_update (storeOk_timeNow h.1)
        simp [CompletedOk, hD]
      · simp only [if_neg hD]
        apply inv_thenRefresh h
        apply storeOk_update h.1
        split <;> simp [CompletedOk, hD]
theorem inv_migrateDayIndex (L : Strings) (a : App) (date : Time) (index : Int) (h : Inv a) :
    Inv (a.MigrateDayIndex L date index).2 := by
  unfold App.MigrateDayIndex
  simp only []
  split
  · exact h
  · split
    · exact h
    · split
      · exact h
      · next orig _ =>
        split
        · split
          · exact h
          · next titems _ =>
            have hu := storeOk_update h.1 (dateOnly date) _
              (completedOk_restored orig _ (findClone_typ L orig.Text titems))
            split
            · next err s hq =>
              rw [hq] at hu
              exact ⟨hu, h.2⟩
            · next s hq =>
              rw [hq] at hu
              split
              · exact inv_thenReturn h _ (storeOk_delete hu _ _)
              · exact ⟨hu, h.2⟩
        · split
          · exact h
          · next hk =>
            have hu := storeOk_update h.1 (dateOnly date) _
              (completedOk_marked orig Migrated (some ((dateOnly date).AddDays 1)) (Or.inl rfl))
            split
            · next err s hq =>
              rw [hq] at hu
              exact ⟨hu, h.2⟩
            · next s hq =>
              rw [hq] at hu
              exact inv_thenReturn h _ (storeOk_append hu _ _ (completedOk_clone orig hk))

theorem inv_scheduleDayIndex (L : Strings) (a : App) (date : Time) (index : Int) (target : Time)
    (h : Inv a) : Inv (a.ScheduleDayIndex L date index target).2 := by
  unfold App.ScheduleDayIndex
  simp only []
  split
  · exact h
  · split
    · exact h
    · split
      · exact h
      · next orig _ =>
        split
        · split
          · exact h
          · split
            · exact h
            · next titems _ =>
              have hu := storeOk_update h.1 (dateOnly date) _
                (completedOk_restored orig _ (findClone_typ L orig.Text titems))
              split
              · next err s hq =>
                rw [hq] at hu
                exact ⟨hu, h.2⟩
              · next s hq =>
                rw [hq] at hu
                split
                · exact inv_thenReturn h _ (storeOk_delete hu _ _)
                · exact ⟨hu, h.2⟩
        · split
          · exact h
          · next hk =>
            have hu := storeOk_update h.1 (dateOnly date) _
              (completedOk_marked orig Scheduled (some (dateOnly target)) (Or.inr rfl))
            split
            · next err s hq =>
              rw [hq] at hu
              exact ⟨hu, h.2⟩
            · next s hq =>
              rw [hq] at hu
              exact inv_thenReturn h _ (storeOk_append hu _ _ (completedOk_clone orig hk))

theorem inv_migrateIndex (L : Strings) (a : App) (index : Int) (h : Inv a) :
    Inv (a.MigrateIndex L index).2 := by
  unfold App.MigrateIndex
  simp only []
  split
  · exact h
  · split
    · exact h
    · next e _ =>
      split
      · split
        · exact h
        · next items _ =>
          have hu := storeOk_update h.1 e.Date _
            (completedOk_restored e.Item _ (findClone_typ L e.Item.Text items))
          split
          · next err s hq =>
            rw [hq] at hu
            exact ⟨hu, h.2⟩
          · next s hq =>
            rw [hq] at hu
            split
            · exact inv_thenRefresh h _ (storeOk_delete hu _ _)
            · exact inv_refresh ⟨hu, h.2⟩
      · split
        · exact h
        · next hk =>
          have hu := storeOk_update h.1 e.Date _
            (completedOk_marked e.Item Migrated (some (e.Date.Add nanosPerDay)) (Or.inl rfl))
          split
          · next err s hq =>
            rw [hq] at hu
            exact ⟨hu, h.2⟩
          · next s hq =>
            rw [hq] at hu
            exact inv_thenRefresh h _ (storeOk_append hu _ _ (completedOk_clone e.Item hk))

theorem inv_scheduleIndex (L : Strings) (a : App) (index : Int) (date : Time) (h : Inv a) :
    Inv (a.ScheduleIndex L index date).2 := by
  unfold App.ScheduleIndex
  simp only []
  split
  · exact h
  · split
    · exact h
    · next e _ =>
      split
      · split
        · exact h
        · split
          · exact h
          · next items _ =>
            have hu := storeOk_update h.1 e.Date _
              (completedOk_restored e.Item _ (findClone_typ L e.Item.Text items))
            split
            · next err s hq =>
              rw [hq] at hu
              exact ⟨hu, h.2⟩
            · next s hq =>
              rw [hq] at hu
              split
              · exact inv_thenRefresh h _ (storeOk_delete hu _ _)
              · exact inv_refresh ⟨hu, h.2⟩
      · split
        · exact h
        · next hk =>
          have hu := storeOk_update h.1 e.Date _
            (completedOk_marked e.Item Scheduled (some date) (Or.inr rfl))
          split
          · next err s hq =>
            rw [hq] at hu
            exact ⟨hu, h.2⟩
          · next s hq =>
            rw [hq] at hu
            exact inv_thenRefresh h _ (storeOk_append hu _ _ (completedOk_clone e.Item hk))

theorem storeOk_oneDay (t : Time) (items : List Bullet) (h : ∀ b ∈ items, CompletedOk b) :
    StoreOk (oneDay t items) := by
  intro k b hb
  unfold FSStore.record oneDay storeOf at hb
  by_cases hk : k = t.dayNo
  · simp only [hk, if_true, Option.getD_some] at hb
    exact h b hb
  · simp [hk] at hb

/-! ## Lemmas on the civil calendar -/

theorem yearOfEra_eq (doe n : Int) (hn0 : 0 ≤ n) (hn : n ≤ 399) (h1 : marchYearStart n ≤ doe)
    (h2 : doe < marchYearStart (n + 1) ∨ (n = 399 ∧ doe ≤ 146096)) :
    (doe - doe / 1460 + doe / 36524 - doe / 146096) / 365 = n := by
  unfold marchYearStart at *
  have hc : n / 100 = 0 ∨ n / 100 = 1 ∨ n / 100 = 2 ∨ n / 100 = 3 := by omega
  have hs : n % 4 = 0 ∨ n % 4 = 1 ∨ n % 4 = 2 ∨ n % 4 = 3 := by omega
  have h3 : doe / 36524 - doe / 146096 = n / 100 := by
    rcases hc with h | h | h | h <;> omega
  have hj : doe / 1460 = n / 4 ∨ doe / 1460 = n / 4 + 1 := by
    rcases hc with hc | hc | hc | hc <;> rcases hs with h | h | h | h <;> omega
  have h5 : doe - doe / 1460 + doe / 36524 - doe / 146096 = doe - doe / 1460 + n / 100 := by
    omega
  rw [h5]
  rcases hc with hc | hc | hc | hc <;> rcases hs with h | h | h | h <;>
    rcases hj with hj | hj <;> rw [hj] <;> omega

theorem marchYear_exists (doe : Int) (h0 : 0 ≤ doe) (h1 : doe ≤ 146096) :
    ∃ n : Int, MarchValid n (doe - marchYearStart n) := by
  obtain ⟨c, hc⟩ : ∃ c : Int, c = min (doe / 36524) 3 := ⟨_, rfl⟩
  obtain ⟨q, hq⟩ : ∃ q : Int, q = min ((doe - 36524 * c) / 1461) 24 := ⟨_, rfl⟩
  obtain ⟨s, hs⟩ : ∃ s : Int, s = min ((doe - 36524 * c - 1461 * q) / 365) 3 := ⟨_, rfl⟩
  have hc' : c = 0 ∨ c = 1 ∨ c = 2 ∨ c = 3 := by omega
  have hq0 : 0 ≤ q ∧ q ≤ 24 := by omega
  have hs' : s = 0 ∨ s = 1 ∨ s = 2 ∨ s = 3 := by omega
  refine ⟨100 * c + 4 * q + s, by omega, by omega, ?_, ?_⟩
  · unfold marchYearStart
    rcases hc' with h | h | h | h <;> rcases hs' with h' | h' | h' | h' <;> omega
  · unfold marchYearStart
    rcases hc' with h | h | h | h <;> rcases hs' with h' | h' | h' | h' <;> omega

theorem marchValid_le (n t : Int) (h : MarchValid n t) :
    0 ≤ marchYearStart n + t ∧ marchYearStart n + t ≤ 146096 ∧ t ≤ 365 := by
  unfold MarchValid marchYearStart at *
  omega

theorem civilFromDays_marchDay (era n t : Int) (h : MarchValid n t) :
    civilFromDays (marchDay era n t) = marchCivil era n t := by
  have hb := marchValid_le n t h
  have hz : (marchDay era n t + 306) / 146097 = era := by
    unfold marchDay; omega
  have hdoe : marchDay era n t + 306 - era * 146097 = marchYearStart n + t := by
    unfold marchDay; omega
  have hy := yearOfEra_eq (marchYearStart n + t) n h.1 h.2.1 (by have := h.2.2.1; omega) h.2.2.2
  unfold civilFromDays
  simp only [hz, hdoe, hy]
  have ht : marchYearStart n + t - (365 * n + n / 4 - n / 100) = t := by
    unfold marchYearStart; omega
  simp only [ht, marchCivil]

theorem exists_marchDay (k : Int) : ∃ era n t, MarchValid n t ∧ k = marchDay era n t := by
  obtain ⟨n, hn⟩ := marchYear_exists (k + 306 - (k + 306) / 146097 * 146097) (by omega) (by omega)
  exact ⟨(k + 306) / 146097, n, _, hn, by unfold marchDay; omega⟩

theorem daysFromCivil_month (y m d era n mp : Int) (hn0 : 0 ≤ n) (hn : n ≤ 399)
    (hm0 : 0 ≤ mp) (hm : mp ≤ 11) (h : 12 * y + m - 3 = 12 * (n + 400 * era) + mp) :
    daysFromCivil y m d = marchDay era n ((153 * mp + 2) / 5 + d - 1) := by
  unfold daysFromCivil marchDay marchYearStart
  simp only []
  by_cases h2 : (m - 1) % 12 + 1 ≤ 2
  · have h3 : ¬ ((m - 1) % 12 + 1 > 2) := by omega
    have h4 : (m - 1) % 12 + 1 + 9 = mp := by omega
    have h5 : (y + (m - 1) / 12 - 1) / 400 = era := by omega
    have h6 : y + (m - 1) / 12 - 1 - era * 400 = n := by omega
    simp only [h2, if_true, h3, if_false, h4, h5, h6]
    omega
  · have h3 : (m - 1) % 12 + 1 > 2 := by omega
    have h4 : (m - 1) % 12 + 1 - 3 = mp := by omega
    have h5 : (y + (m - 1) / 12) / 400 = era := by omega
    have h6 : y + (m - 1) / 12 - era * 400 = n := by omega
    simp only [h2, if_false, h3, if_true, h4, h5, h6]
    omega

theorem marchCivil_month (n era t : Int) (ht0 : 0 ≤ t) (ht : t ≤ 365) :
    ∃ mp y m, marchCivil era n t = (y, m, t - (153 * mp + 2) / 5 + 1) ∧
      mp = (5 * t + 2) / 153 ∧ 0 ≤ mp ∧ mp ≤ 11 ∧ (153 * mp + 2) / 5 ≤ t ∧
      t < (153 * (mp + 1) + 2) / 5 ∧ 1 ≤ m ∧ m ≤ 12 ∧
      12 * y + m - 3 = 12 * (n + 400 * era) + mp := by
  refine ⟨(5 * t + 2) / 153, _, _, rfl, rfl, by omega, by omega, by omega, by omega, ?_, ?_, ?_⟩
  · split <;> omega
  · split <;> omega
  · by_cases h : (5 * t + 2) / 153 < 10
    · have h3 : ¬ ((5 * t + 2) / 153 + 3 ≤ 2) := by omega
      simp only [h, if_true, h3, if_false]
      omega
    · have h3 : (5 * t + 2) / 153 - 9 ≤ 2 := by omega
      simp only [h, if_false, h3, if_true]
      omega

theorem month_between (mp t : Int) (h1 : (153 * mp + 2) / 5 ≤ t)
    (h2 : t < (153 * (mp + 1) + 2) / 5) : (5 * t + 2) / 153 = mp := by
  omega

theorem civilFromDays_march (era n t : Int) (hv : MarchValid n t) :
    ∃ mp y m, civilFromDays (marchDay era n t) = (y, m, t - (153 * mp + 2) / 5 + 1) ∧
      mp = (5 * t + 2) / 153 ∧ 0 ≤ mp ∧ mp ≤ 11 ∧ (153 * mp + 2) / 5 ≤ t ∧
      t < (153 * (mp + 1) + 2) / 5 ∧ 1 ≤ m ∧ m ≤ 12 ∧
      12 * y + m - 3 = 12 * (n + 400 * era) + mp := by
  rw [civilFromDays_marchDay era n t hv]
  exact marchCivil_month n era t hv.2.2.1 (marchValid_le n t hv).2.2

theorem marchValid_mono (n t u : Int) (hv : MarchValid n t) (h0 : 0 ≤ u) (h : u ≤ t) :
    MarchValid n u := by
  refine ⟨hv.1, hv.2.1, h0, ?_⟩
  rcases hv.2.2.2 with h1 | h1
  · left; omega
  · right; exact ⟨h1.1, by omega⟩

theorem marchValid_short (n u : Int) (hn0 : 0 ≤ n) (hn : n ≤ 399) (h0 : 0 ≤ u) (h : u ≤ 364) :
    MarchValid n u := by
  refine ⟨hn0, hn, h0, ?_⟩
  unfold marchYearStart
  omega

theorem daysFromCivil_day (y m d e : Int) :
    daysFromCivil y m (d + e) = daysFromCivil y m d + e := by
  unfold daysFromCivil
  simp only []
  omega

theorem daysFromCivil_civilFromDays (k : Int) :
    daysFromCivil (civilFromDays k).1 (civilFromDays k).2.1 (civilFromDays k).2.2 = k := by
  obtain ⟨era, n, t, hv, hk⟩ := exists_marchDay k
  obtain ⟨mp, y, m, hc, -, hm0, hm, -, -, -, -, hA⟩ := civilFromDays_march era n t hv
  rw [hk, hc]
  simp only []
  rw [daysFromCivil_month y m _ era n mp hv.1 hv.2.1 hm0 hm hA]
  congr 1
  omega

theorem civil_monthStart (k : Int) :
    civilFromDays (daysFromCivil (civilFromDays k).1 (civilFromDays k).2.1 1)
        = ((civilFromDays k).1, (civilFromDays k).2.1, 1) ∧
      daysFromCivil (civilFromDays k).1 (civilFromDays k).2.1 1 = k - ((civilFromDays k).2.2 - 1) ∧
      1 ≤ (civilFromDays k).2.1 ∧ (civilFromDays k).2.1 ≤ 12 ∧ 1 ≤ (civilFromDays k).2.2 := by
  obtain ⟨era, n, t, hv, hk⟩ := exists_marchDay k
  obtain ⟨mp, y, m, hc, -, hm0, hm, hlo, hhi, h1, h12, hA⟩ := civilFromDays_march era n t hv
  have hf0 : 0 ≤ (153 * mp + 2) / 5 := by omega
  have hv1 : MarchValid n ((153 * mp + 2) / 5) := marchValid_mono n t _ hv hf0 hlo
  obtain ⟨mp1, y1, m1, hc1, hmp1, -, -, -, -, h1a, h1b, hA1⟩ := civilFromDays_march era n _ hv1
  have hs : mp1 = mp := by omega
  subst hs
  have hy : y1 = y ∧ m1 = m := by omega
  obtain ⟨rfl, rfl⟩ := hy
  rw [hk, hc]
  simp only []
  rw [daysFromCivil_month y1 m1 1 era n mp1 hv.1 hv.2.1 hm0 hm hA]
  have he : (153 * mp1 + 2) / 5 + 1 - 1 = (153 * mp1 + 2) / 5 := by omega
  rw [he, hc1]
  refine ⟨?_, ?_, h1, h12, ?_⟩
  · have : (153 * mp1 + 2) / 5 - (153 * mp1 + 2) / 5 + 1 = 1 := by omega
    rw [this]
  · unfold marchDay; omega
  · omega

theorem civil_monthEnd (k : Int) :
    k ≤ daysFromCivil (civilFromDays k).1 ((civilFromDays k).2.1 + 1) 0 ∧
      (civilFromDays (daysFromCivil (civilFromDays k).1 ((civilFromDays k).2.1 + 1) 0)).1
        = (civilFromDays k).1 ∧
      (civilFromDays (daysFromCivil (civilFromDays k).1 ((civilFromDays k).2.1 + 1) 0)).2.1
        = (civilFromDays k).2.1 ∧
      civilFromDays (daysFromCivil (civilFromDays k).1 ((civilFromDays k).2.1 + 1) 0 + 1)
        = (if (civilFromDays k).2.1 = 12 then ((civilFromDays k).1 + 1, 1, 1)
           else ((civilFromDays k).1, (civilFromDays k).2.1 + 1, 1)) := by
  obtain ⟨era, n, t, hv, hk⟩ := exists_marchDay k
  obtain ⟨mp, y, m, hc, -, hm0, hm, hlo, hhi, h1, h12, hA⟩ := civilFromDays_march era n t hv
  have hb := marchValid_le n t hv
  have hn0 := hv.1
  rw [hk, hc]
  simp only []
  by_cases hmp : mp ≤ 10
  · -- the next month starts in the same March-based year
    have hE : daysFromCivil y (m + 1) 0 = marchDay era n ((153 * (mp + 1) + 2) / 5 - 1) := by
      rw [daysFromCivil_month y (m + 1) 0 era n (mp + 1) hv.1 hv.2.1 (by omega) (by omega)
        (by omega)]
      congr 1
      omega
    have hvE : MarchValid n ((153 * (mp + 1) + 2) / 5 - 1) :=
      marchValid_short n _ hv.1 hv.2.1 (by omega) (by omega)
    have hvN : MarchValid n ((153 * (mp + 1) + 2) / 5) :=
      marchValid_short n _ hv.1 hv.2.1 (by omega) (by omega)
    obtain ⟨mpE, yE, mE, hcE, hmpE, -, -, -, -, hE1, hE12, hAE⟩ := civilFromDays_march era n _ hvE
    obtain ⟨mpN, yN, mN, hcN, hmpN, -, -, -, -, hN1, hN12, hAN⟩ := civilFromDays_march era n _ hvN
    have hsE : mpE = mp := by omega
    have hsN : mpN = mp + 1 := by omega
    have hN : marchDay era n ((153 * (mp + 1) + 2) / 5 - 1) + 1
        = marchDay era n ((153 * (mp + 1) + 2) / 5) := by
      unfold marchDay; omega
    rw [hE, hN, hcE, hcN]
    refine ⟨by unfold marchDay; omega, by simp only []; omega, by simp only []; omega, ?_⟩
    have hd : (153 * (mp + 1) + 2) / 5 - (153 * mpN + 2) / 5 + 1 = 1 := by
      rw [hsN]; omega
    rw [hd]
    split
    · have h3 : yN = y + 1 ∧ mN = 1 := by omega
      rw [h3.1, h3.2]
    · have h3 : yN = y ∧ mN = m + 1 := by omega
      rw [h3.1, h3.2]
  · -- February: the next month opens the next March-based year
    have hmp11 : mp = 11 := by omega
    subst hmp11
    have hym : m = 2 := by omega
    subst hym
    by_cases hn : n < 399
    · have hE : daysFromCivil y (2 + 1) 0
          = marchDay era n (marchYearStart (n + 1) - marchYearStart n - 1) := by
        rw [daysFromCivil_month y (2 + 1) 0 era (n + 1) 0 (by omega) (by omega) (by omega)
          (by omega) (by omega)]
        unfold marchDay; omega
      have hlen : 364 ≤ marchYearStart (n + 1) - marchYearStart n - 1 ∧
          marchYearStart (n + 1) - marchYearStart n - 1 ≤ 365 := by
        unfold marchYearStart; omega
      have hvE : MarchValid n (marchYearStart (n + 1) - marchYearStart n - 1) :=
        ⟨hv.1, hv.2.1, by omega, Or.inl (by omega)⟩
      have hvN : MarchValid (n + 1) 0 := marchValid_short (n + 1) 0 (by omega) (by omega)
        (by omega) (by omega)
      obtain ⟨mpE, yE, mE, hcE, hmpE, -, -, -, -, hE1, hE12, hAE⟩ :=
        civilFromDays_march era n _ hvE
      obtain ⟨mpN, yN, mN, hcN, hmpN, -, -, -, -, hN1, hN12, hAN⟩ :=
        civilFromDays_march era (n + 1) 0 hvN
      have hsE : mpE = 11 := by omega
      have hsN : mpN = 0 := by omega
      have hN : marchDay era n (marchYearStart (n + 1) - marchYearStart n - 1) + 1
          = marchDay era (n + 1) 0 := by
        unfold marchDay; omega
      have hkE : t ≤ marchYearStart (n + 1) - marchYearStart n - 1 := by
        rcases hv.2.2.2 with h | h <;> omega
      rw [hE, hN, hcE, hcN]
      refine ⟨by unfold marchDay; omega, by simp only []; omega, by simp only []; omega, ?_⟩
      have h3 : yN = y ∧ mN = 2 + 1 := by omega
      rw [h3.1, h3.2, hsN]
      simp
    · have hn399 : n = 399 := by have := hv.2.1; omega
      subst hn399
      have hE : daysFromCivil y (2 + 1) 0 = marchDay era 399 365 := by
        rw [daysFromCivil_month y (2 + 1) 0 (era + 1) 0 0 (by omega) (by omega) (by omega)
          (by omega) (by omega)]
        unfold marchDay marchYearStart; omega
      have hvE : MarchValid 399 365 :=
        ⟨by omega, by omega, by omega, Or.inr ⟨rfl, by unfold marchYearStart; omega⟩⟩
      have hvN : MarchValid 0 0 := marchValid_short 0 0 (by omega) (by omega)
        (by omega) (by omega)
      obtain ⟨mpE, yE, mE, hcE, hmpE, -, -, -, -, hE1, hE12, hAE⟩ :=
        civilFromDays_march era 399 _ hvE
      obtain ⟨mpN, yN, mN, hcN, hmpN, -, -, -, -, hN1, hN12, hAN⟩ :=
        civilFromDays_march (era + 1) 0 0 hvN
      have hsE : mpE = 11 := by omega
      have hsN : mpN = 0 := by omega
      have hN : marchDay era 399 365 + 1 = marchDay (era + 1) 0 0 := by
        unfold marchDay marchYearStart; omega
      rw [hE, hN, hcE, hcN]
      refine ⟨by unfold marchDay; omega, by simp only []; omega, by simp only []; omega, ?_⟩
      have h3 : yN = y ∧ mN = 2 + 1 := by omega
      rw [h3.1, h3.2, hsN]
      simp

/-! ## Lemmas on the date window -/

theorem ns_split (t : Time) : t.ns = t.dayNo * nanosPerDay + t.ns % nanosPerDay := by
  unfold Time.dayNo nanosPerDay
  omega

theorem date_civil (t : Time) :
    Time.Date (civilFromDays t.dayNo).1 (civilFromDays t.dayNo).2.1 (civilFromDays t.dayNo).2.2
      = dateOnly t := by
  unfold Time.Date dateOnly
  rw [daysFromCivil_civilFromDays]

theorem addDate_days (t : Time) (n : Int) : t.AddDate 0 0 n = t.AddDays n := by
  have h := daysFromCivil_civilFromDays t.dayNo
  have hs := ns_split t
  unfold Time.AddDate Time.AddDays
  simp only [add_zero]
  rw [daysFromCivil_day, h]
  congr 1
  rw [add_mul]
  omega

theorem ofDay_ns_mod (k : Int) : (Time.ofDay k).ns % nanosPerDay = 0 := by
  simp [Time.ofDay]

theorem ofDay_addDays (k n : Int) : (Time.ofDay k).AddDays n = Time.ofDay (k + n) := by
  simp [Time.AddDays, Time.ofDay, add_mul]

theorem dateRange_day (a : App) (h1 : a.Period ≠ PeriodWeek) (h2 : a.Period ≠ PeriodMonth) :
    a.dateRange = ⟨Time.ofDay a.CurrentDate.dayNo, Time.ofDay a.CurrentDate.dayNo⟩ := by
  unfold App.dateRange
  simp only [if_neg h1, if_neg h2]
  rfl

theorem dateRange_week (a : App) (h : a.Period = PeriodWeek) :
    a.dateRange = ⟨Time.ofDay (a.CurrentDate.dayNo - a.CurrentDate.dayNo % 7),
      Time.ofDay (a.CurrentDate.dayNo - a.CurrentDate.dayNo % 7 + 6)⟩ := by
  unfold App.dateRange
  simp only [if_pos h, dateOnly_addDays, ofDay_addDays, Time.Weekday, dayNo_dateOnly]
  have e : a.CurrentDate.dayNo
      + -((if (a.CurrentDate.dayNo + 1) % 7 = 0 then 7 else (a.CurrentDate.dayNo + 1) % 7) - 1)
      = a.CurrentDate.dayNo - a.CurrentDate.dayNo % 7 := by
    split <;> omega
  rw [e]

theorem dateRange_month (a : App) (h : a.Period = PeriodMonth) :
    a.dateRange = ⟨Time.ofDay (daysFromCivil (civilFromDays a.CurrentDate.dayNo).1
        (civilFromDays a.CurrentDate.dayNo).2.1 1),
      Time.ofDay (daysFromCivil (civilFromDays a.CurrentDate.dayNo).1
        ((civilFromDays a.CurrentDate.dayNo).2.1 + 1) 0)⟩ := by
  have hw : a.Period ≠ PeriodWeek := by rw [h]; decide
  have hs := (civil_monthStart a.CurrentDate.dayNo).1
  unfold App.dateRange
  simp only [if_neg hw, if_pos h, dayNo_dateOnly, Time.Date, Time.AddDate, dayNo_ofDay, hs,
    ofDay_ns_mod, add_zero]
  rfl

theorem dateRange_midnight (a : App) :
    a.dateRange = ⟨Time.ofDay a.dateRange.Start.dayNo, Time.ofDay a.dateRange.End.dayNo⟩ ∧
      a.dateRange.Start.dayNo ≤ a.CurrentDate.dayNo ∧
      a.CurrentDate.dayNo ≤ a.dateRange.End.dayNo := by
  by_cases hw : a.Period = PeriodWeek
  · rw [dateRange_week a hw]
    simp only [dayNo_ofDay]
    exact ⟨trivial, by omega, by omega⟩
  · by_cases hm : a.Period = PeriodMonth
    · have h1 := civil_monthStart a.CurrentDate.dayNo
      have h2 := civil_monthEnd a.CurrentDate.dayNo
      rw [dateRange_month a hm]
      simp only [dayNo_ofDay]
      exact ⟨trivial, by omega, h2.1⟩
    · rw [dateRange_day a hw hm]
      simp only [dayNo_ofDay]
      exact ⟨trivial, le_refl _, le_refl _⟩

/-! ## Lemmas on `Refresh` -/

theorem loadDay_cases (s : FSStore) (d : Time) :
    s.LoadDay d = if s.readErr d.dayNo then .error (.read d.dayNo)
      else .ok (s.record d.dayNo) := by
  unfold FSStore.LoadDay FSStore.record
  split
  · rfl
  · cases s.files d.dayNo <;> rfl

theorem ofDay_add (k : Int) : (Time.ofDay k).Add nanosPerDay = Time.ofDay (k + 1) := by
  simp [Time.Add, Time.ofDay, add_mul]

theorem ofDay_after (S E : Int) : (Time.ofDay S).After (Time.ofDay E) = decide (E < S) := by
  simp only [Time.After, Time.ofDay, nanosPerDay]
  congr 1
  apply propext
  constructor <;> intro h <;> omega

theorem mem_windowDays (S : Int) (n : Nat) (k : Int) :
    k ∈ windowDays S n ↔ S ≤ k ∧ k < S + n := by
  induction n generalizing S with
  | zero => simp [windowDays]
  | succ n ih =>
    simp only [windowDays, List.mem_cons, ih]
    constructor
    · rintro (h | h) <;> omega
    · intro h
      by_cases hk : k = S
      · exact Or.inl hk
      · exact Or.inr (by omega)

theorem collectDays_spec (s : FSStore) (E : Int) (n : Nat) (S : Int) (entries : List Entry)
    (hn : (E - S + 1).toNat ≤ n)
    (hc : collectDays s (Time.ofDay E) n (Time.ofDay S) = .ok entries) :
    entries = collectSpec s S E := by
  induction n generalizing S entries with
  | zero =>
    have h0 : (E - S + 1).toNat = 0 := by omega
    simp only [collectDays] at hc
    cases hc
    simp [collectSpec, h0, windowDays]
  | succ n ih =>
    unfold collectDays at hc
    rw [ofDay_after] at hc
    by_cases hlt : E < S
    · have h0 : (E - S + 1).toNat = 0 := by omega
      simp only [hlt, decide_True, if_true] at hc
      cases hc
      simp [collectSpec, h0, windowDays]
    · simp only [hlt, decide_False, Bool.false_eq_true, if_false, loadDay_cases,
        dayNo_ofDay, ofDay_add, dateOnly_ofDay] at hc
      obtain ⟨m, hm⟩ : ∃ m : Nat, (E - S + 1).toNat = m + 1 := ⟨(E - S).toNat, by omega⟩
      have hm1 : (E - (S + 1) + 1).toNat = m := by omega
      split at hc
      · cases hc
      · next items hl =>
        split at hl
        · cases hl
        · cases hl
          split at hc
          · cases hc
          · next rest hr =>
            cases hc
            have := ih (S + 1) rest (by omega) hr
            simp only [collectSpec, hm, hm1, windowDays, List.flatMap_cons] at this ⊢
            rw [this]

theorem collectDays_succeeds (s : FSStore) (E : Int) (n : Nat) (S : Int)
    (h : ∀ k, S ≤ k → k ≤ E → s.readErr k = false) :
    ∃ entries, collectDays s (Time.ofDay E) n (Time.ofDay S) = .ok entries := by
  induction n generalizing S with
  | zero => exact ⟨[], rfl⟩
  | succ n ih =>
    unfold collectDays
    rw [ofDay_after]
    by_cases hlt : E < S
    · exact ⟨[], by simp [hlt]⟩
    · obtain ⟨rest, hrest⟩ := ih (S + 1) (fun k h1 h2 => h k (by omega) h2)
      have hr := h S (le_refl _) (by omega)
      simp only [hlt, decide_False, Bool.false_eq_true, if_false, loadDay_cases,
        dayNo_ofDay, ofDay_add, hr, hrest]
      exact ⟨_, rfl⟩

theorem refresh_fuel (a : App) (S E : Int)
    (hr : a.dateRange = ⟨Time.ofDay S, Time.ofDay E⟩) :
    ((a.dateRange.End.ns - a.dateRange.Start.ns) / nanosPerDay + 1).toNat = (E - S + 1).toNat := by
  rw [hr]
  simp only [Time.ofDay, nanosPerDay]
  congr 1
  omega

theorem refresh_ok (a : App) (S E : Int) (entries : List Entry)
    (hr : a.dateRange = ⟨Time.ofDay S, Time.ofDay E⟩)
    (hc : collectDays a.Store (Time.ofDay E) (E - S + 1).toNat (Time.ofDay S) = .ok entries) :
    a.Refresh = (none, { a with Items := entries }) := by
  have hf := refresh_fuel a S E hr
  unfold App.Refresh
  simp only [hf]
  simp only [hr, hc]

theorem refresh_error (a : App) (S E : Int) (e : Err)
    (hr : a.dateRange = ⟨Time.ofDay S, Time.ofDay E⟩)
    (hc : collectDays a.Store (Time.ofDay E) (E - S + 1).toNat (Time.ofDay S) = .error e) :
    a.Refresh = (some e, a) := by
  have hf := refresh_fuel a S E hr
  unfold App.Refresh
  simp only [hf]
  simp only [hr, hc]

/-! ## Lemmas on the filters -/

theorem matchEntry_iff (L : Strings) (a : App) (e : Entry) :
    a.matchEntry L e = true ↔ passesSpec L a e := by
  unfold App.matchEntry passesSpec
  by_cases h1 : a.TextFilter = "" <;> by_cases h2 : a.TypeFilter.length = 0 <;>
    by_cases h3 : a.TagFilter.length = 0 <;> simp [h1, h2, h3]

theorem boolMap_get_iff {κ : Type} [DecidableEq κ] (m : BoolMap κ) (k : κ)
    (h : ∀ p ∈ m, p.2 = true) : m.get k = true ↔ ∃ p ∈ m, p.1 = k := by
  induction m with
  | nil => simp [BoolMap.get]
  | cons x rest ih =>
    obtain ⟨k0, v⟩ := x
    have hv : v = true := h (k0, v) (List.mem_cons_self _ _)
    have ih1 := ih (fun p hp => h p (List.mem_cons_of_mem _ hp))
    unfold BoolMap.get
    by_cases hk : k0 = k
    · simp [hk, hv]
    · simp [hk, ih1]

theorem filter_sublist_of_imp {α : Type} (p q : α → Bool) (l : List α)
    (h : ∀ x, p x = true → q x = true) : (l.filter p).Sublist (l.filter q) := by
  induction l with
  | nil => simp
  | cons x rest ih =>
    by_cases hp : p x = true
    · simp only [List.filter_cons, hp, h x hp, if_true]
      exact ih.cons₂ x
    · by_cases hq : q x = true
      · simp only [List.filter_cons, hp, hq, if_true]
        exact ih.cons x
      · simp only [List.filter_cons, hp, hq]
        exact ih

/-! ## Lemmas on what the store writes -/

theorem stamp_createdAt (s : FSStore) (b : Bullet) :
    (stamp s b).1.CreatedAt =
      if b.CreatedAt.IsZero = true then s.clock (s.clockUsed + if b.ID = "" then 1 else 0)
      else b.CreatedAt := by
  unfold stamp generateID timeNow
  by_cases h1 : b.ID = "" <;> by_cases h2 : b.CreatedAt.IsZero = true <;> simp [h1, h2]

theorem stamp_oracle (s : FSStore) (b : Bullet) :
    (stamp s b).2.clock = s.clock ∧ (stamp s b).2.entropy = s.entropy ∧
      s.clockUsed ≤ (stamp s b).2.clockUsed := by
  unfold stamp generateID timeNow
  by_cases h1 : b.ID = "" <;> by_cases h2 : b.CreatedAt.IsZero = true <;> simp [h1, h2]
  omega

theorem normalizes_stamp (s s0 : FSStore) (b : Bullet) (hc : s0.clock = s.clock)
    (he : s0.entropy = s.entropy) (hle : s.clockUsed ≤ s0.clockUsed) :
    Normalizes s b (stamp s0 b).1 := by
  have hf := stamp_fields s0 b
  refine ⟨hf.1, hf.2.1, hf.2.2.1, hf.2.2.2.1, hf.2.2.2.2.1, hf.2.2.2.2.2, ?_, ?_⟩
  · rw [stamp_id]
    by_cases h1 : b.ID = ""
    · simp only [h1, if_true]
      exact ⟨generateID_ne_empty s0, s0, hc, he, hle, rfl⟩
    · simp only [h1, if_false]
  · rw [stamp_createdAt]
    by_cases h2 : b.CreatedAt.IsZero = true
    · simp only [h2, if_true]
      exact ⟨s0.clockUsed + if b.ID = "" then 1 else 0, by omega, by rw [hc]⟩
    · simp only [h2]
      simp

theorem normalizes_eq (s : FSStore) (b b1 : Bullet) (h : Normalizes s b b1) (h1 : b.ID ≠ "")
    (h2 : b.CreatedAt.IsZero = false) : b1 = b := by
  obtain ⟨a1, a2, a3, a4, a5, a6, a7, a8⟩ := h
  simp only [h1, if_false] at a7
  simp only [h2, Bool.false_eq_true, if_false] at a8
  cases b
  cases b1
  simp_all

theorem stampAll_length (s : FSStore) (items : List Bullet) :
    (stampAll s items).1.length = items.length := by
  induction items generalizing s with
  | nil => rfl
  | cons x rest ih => simp [stampAll, ih]

theorem stampAll_get (s : FSStore) (items : List Bullet) (k : Nat) (b : Bullet)
    (h : items[k]? = some b) :
    ∃ s0 : FSStore, (stampAll s items).1[k]? = some (stamp s0 b).1 ∧ s0.clock = s.clock ∧
      s0.entropy = s.entropy ∧ s.clockUsed ≤ s0.clockUsed := by
  induction items generalizing s k with
  | nil => simp at h
  | cons x rest ih =>
    cases k with
    | zero =>
      simp at h
      subst h
      exact ⟨s, by simp [stampAll], rfl, rfl, le_refl _⟩
    | succ k =>
      simp at h
      obtain ⟨s0, h0, hc, he, hle⟩ := ih (stamp s x).2 k h
      have ho := stamp_oracle s x
      exact ⟨s0, by simpa [stampAll] using h0, hc.trans ho.1, he.trans ho.2.1,
        le_trans ho.2.2 hle⟩

theorem stamp_writeFile (s : FSStore) (k : Int) (old : List Bullet) (b : Bullet) :
    stamp (s.writeFile k old) b = ((stamp s b).1, (stamp s b).2.writeFile k old) := by
  unfold stamp generateID timeNow FSStore.writeFile
  by_cases h1 : b.ID = "" <;> by_cases h2 : b.CreatedAt.IsZero = true <;> simp [h1, h2]

theorem stampAll_writeFile (s : FSStore) (k : Int) (old : List Bullet) (items : List Bullet) :
    stampAll (s.writeFile k old) items
      = ((stampAll s items).1, (stampAll s items).2.writeFile k old) := by
  induction items generalizing s with
  | nil => rfl
  | cons x rest ih =>
    simp only [stampAll, stamp_writeFile, ih]

theorem files_writeFile (s : FSStore) (k j : Int) (items : List Bullet) (h : j ≠ k) :
    (s.writeFile k items).files j = s.files j := by
  simp [FSStore.writeFile, h]

theorem loadDay_writeFile (s : FSStore) (date : Time) (items : List Bullet)
    (h : s.readErr date.dayNo = false) :
    (s.writeFile date.dayNo items).LoadDay date = .ok items := by
  simp [FSStore.LoadDay, FSStore.writeFile, h]

theorem loadDay_ok (s : FSStore) (date : Time) (items : List Bullet)
    (h : s.LoadDay date = .ok items) :
    s.readErr date.dayNo = false ∧ items = s.record date.dayNo := by
  rw [loadDay_cases] at h
  split at h
  · cases h
  · next hr =>
    cases h
    exact ⟨by simpa using hr, rfl⟩

theorem saveDay_result (s : FSStore) (date : Time) (items : List Bullet) :
    s.SaveDay date items =
      if s.writeErr date.dayNo = true then (some (.write date.dayNo), s)
      else (none, (stampAll s items).2.writeFile date.dayNo (stampAll s items).1) := by
  unfold FSStore.SaveDay
  split <;> rfl

theorem append_result (s : FSStore) (date : Time) (b : Bullet) :
    s.Append date b =
      if s.writeErr date.dayNo = true then (some (.write date.dayNo), s)
      else (none, (stamp s b).2.writeFile date.dayNo
        (s.record date.dayNo ++ [(stamp s b).1])) := by
  unfold FSStore.Append
  split
  · rfl
  · simp only [record_stamp]

theorem filter_id_eraseIdx (l : List Bullet) (i : Nat) (e : Bullet) (hd : DistinctIDs l)
    (hi : l[i]? = some e) : (l.filter fun it => it.ID ≠ e.ID) = l.eraseIdx i := by
  induction l generalizing i with
  | nil => simp at hi
  | cons x rest ih =>
    have hd1 : x.ID ∉ rest.map (·.ID) ∧ DistinctIDs rest := by
      simpa [DistinctIDs] using hd
    cases i with
    | zero =>
      simp at hi
      subst hi
      have : ∀ y ∈ rest, y.ID ≠ x.ID := by
        intro y hy hxy
        exact hd1.1 (List.mem_map.2 ⟨y, hy, hxy⟩)
      simp only [List.filter_cons, ne_eq, not_true_eq_false, decide_False, Bool.false_eq_true,
        if_false, List.eraseIdx_cons_zero]
      apply List.filter_eq_self.2
      intro y hy
      simpa using this y hy
    | succ i =>
      simp at hi
      have hx : x.ID ≠ e.ID := by
        intro hxe
        exact hd1.1 (List.mem_map.2 ⟨e, List.getElem?_mem hi, hxe.symm⟩)
      have hr := ih i hd1.2 hi
      simp only [ne_eq, decide_not] at hr
      simp [List.filter_cons, hx, hr]

theorem filter_id_none (l : List Bullet) (x : String) (h : ∀ e ∈ l, e.ID ≠ x) :
    (l.filter fun it => it.ID ≠ x) = l := by
  apply List.filter_eq_self.2
  intro y hy
  simpa using h y hy

/-! ## Properties of entries preserved by the lifecycle operations -/

theorem stampAll_all {P : Bullet → Prop} (hP : Lifecycle P) (s : FSStore)
    (items : List Bullet) (h : ∀ b ∈ items, P b) : ∀ b ∈ (stampAll s items).1, P b := by
  induction items generalizing s with
  | nil => simp [stampAll]
  | cons x rest ih =>
    simp only [stampAll]
    intro b hb
    rcases List.mem_cons.1 hb with hb | hb
    · rw [hb]
      exact hP.stamped s x (h x (List.mem_cons_self _ _))
    · exact ih (stamp s x).2 (fun y hy => h y (List.mem_cons_of_mem _ hy)) b hb

theorem storeAll_writeFile {P : Bullet → Prop} {s : FSStore} (h : StoreAll P s) (k : Int)
    (items : List Bullet) (hi : ∀ b ∈ items, P b) : StoreAll P (s.writeFile k items) := by
  intro j b hb
  rw [record_writeFile] at hb
  split at hb
  · exact hi b hb
  · exact h j b hb

theorem storeAll_of_files {P : Bullet → Prop} {s s1 : FSStore} (h : StoreAll P s)
    (hf : s1.files = s.files) : StoreAll P s1 := by
  intro k b hb
  apply h k b
  unfold FSStore.record at *
  rw [← hf]
  exact hb

theorem storeAll_timeNow {P : Bullet → Prop} {s : FSStore} (h : StoreAll P s) :
    StoreAll P (timeNow s).2 := h

theorem storeAll_saveDay {P : Bullet → Prop} (hP : Lifecycle P) {s : FSStore}
    (h : StoreAll P s) (date : Time) (items : List Bullet) (hi : ∀ b ∈ items, P b) :
    StoreAll P (s.SaveDay date items).2 := by
  rw [saveDay_result]
  split
  · exact h
  · exact storeAll_writeFile (storeAll_of_files h (stampAll_spec s items).1) _ _
      (stampAll_all hP s items hi)

theorem storeAll_append {P : Bullet → Prop} (hP : Lifecycle P) {s : FSStore}
    (h : StoreAll P s) (date : Time) (b : Bullet) (hb : P b) :
    StoreAll P (s.Append date b).2 := by
  rw [append_result]
  split
  · exact h
  · apply storeAll_writeFile (storeAll_of_files h (stamp_files s b).1)
    intro x hx
    rcases List.mem_append.1 hx with hx | hx
    · exact h _ x hx
    · rw [List.mem_singleton.1 hx]
      exact hP.stamped s b hb

theorem loadDay_all {P : Bullet → Prop} {s : FSStore} (h : StoreAll P s) (date : Time)
    (items : List Bullet) (hl : s.LoadDay date = .ok items) : ∀ b ∈ items, P b := by
  obtain ⟨-, rfl⟩ := loadDay_ok s date items hl
  exact h date.dayNo

theorem storeAll_update {P : Bullet → Prop} (hP : Lifecycle P) {s : FSStore}
    (h : StoreAll P s) (date : Time) (b : Bullet) (hb : P b) :
    StoreAll P (s.Update date b).2 := by
  unfold FSStore.Update
  split
  · exact h
  · next items hl =>
    apply storeAll_saveDay hP h
    intro x hx
    rcases replaceFirst_mem b items x hx with hx | hx
    · rw [hx]; exact hb
    · exact loadDay_all h date items hl x hx

theorem storeAll_delete {P : Bullet → Prop} (hP : Lifecycle P) {s : FSStore}
    (h : StoreAll P s) (date : Time) (id : String) : StoreAll P (s.Delete date id).2 := by
  unfold FSStore.Delete
  split
  · exact h
  · next items hl =>
    apply storeAll_saveDay hP h
    intro x hx
    exact loadDay_all h date items hl x (List.mem_of_mem_filter hx)

theorem collectDays_all {P : Bullet → Prop} {s : FSStore} (h : StoreAll P s) (last : Time)
    (fuel : Nat) (d : Time) (entries : List Entry)
    (hc : collectDays s last fuel d = .ok entries) : ItemsAll P entries := by
  induction fuel generalizing d entries with
  | zero =>
    simp only [collectDays] at hc
    cases hc
    intro e he
    simp at he
  | succ n ih =>
    unfold collectDays at hc
    split at hc
    · cases hc
      intro e he
      simp at he
    · split at hc
      · cases hc
      · next items hl =>
        split at hc
        · cases hc
        · next rest hr =>
          cases hc
          intro e he
          rcases List.mem_append.1 he with he | he
          · obtain ⟨it, hit, rfl⟩ := List.mem_map.1 he
            exact loadDay_all h d items hl it hit
          · exact ih _ rest hr e he

theorem all_refresh {P : Bullet → Prop} {a : App} (h : InvAll P a) : InvAll P (a.Refresh).2 := by
  unfold App.Refresh
  simp only []
  split
  · exact h
  · next entries hc => exact ⟨h.1, collectDays_all h.1 _ _ _ entries hc⟩

theorem all_thenRefresh {P : Bullet → Prop} {a : App} (h : InvAll P a)
    (r : Option Err × FSStore) (hr : StoreAll P r.2) : InvAll P (thenRefresh a r).2 := by
  unfold thenRefresh
  split
  · exact ⟨hr, h.2⟩
  · exact all_refresh ⟨hr, h.2⟩

theorem all_thenReturn {P : Bullet → Prop} {a : App} (h : InvAll P a)
    (r : Option Err × FSStore) (hr : StoreAll P r.2) : InvAll P (thenReturn a r).2 :=
  ⟨hr, h.2⟩

theorem visible_all {P : Bullet → Prop} (L : Strings) {a : App} (h : InvAll P a) (i : Nat)
    (e : Entry) (hv : (a.Visible L)[i]? = some e) : P e.Item :=
  h.2 e (List.mem_of_mem_filter (List.getElem?_mem hv))

theorem all_add {P : Bullet → Prop} (hP : Lifecycle P) (a : App) (text : String)
    (h : InvAll P a) : InvAll P (a.Add text).2.2 := by
  have hs := storeAll_append hP (storeAll_timeNow h.1) a.CurrentDate _
    (hP.fresh text (timeNow a.Store).1)
  unfold App.Add
  simp only []
  split
  · next e s heq =>
    rw [heq] at hs
    exact ⟨hs, h.2⟩
  · next s heq =>
    rw [heq] at hs
    have hr := all_refresh (a := { a with Store := s }) ⟨hs, h.2⟩
    split
    · next e a1 hq => rw [hq] at hr; exact hr
    · next a1 hq => rw [hq] at hr; exact hr

theorem all_updateText {P : Bullet → Prop} (hP : Lifecycle P) (L : Strings) (a : App)
    (index : Int) (text : String) (h : InvAll P a) : InvAll P (a.UpdateText L index text).2 := by
  unfold App.UpdateText
  simp only []
  split
  · exact h
  · split
    · exact h
    · next e hv =>
      apply all_thenRefresh h
      apply storeAll_update hP h.1
      exact hP.text _ _ (visible_all L h _ e hv)

theorem all_updateTags {P : Bullet → Prop} (hP : Lifecycle P) (L : Strings) (a : App)
    (index : Int) (tags : List String) (h : InvAll P a) :
    InvAll P (a.UpdateTagsIndex L index tags).2 := by
  unfold App.UpdateTagsIndex
  simp only []
  split
  · exact h
  · split
    · exact h
    · next e hv =>
      apply all_thenRefresh h
      apply storeAll_update hP h.1
      exact hP.tags _ _ (visible_all L h _ e hv)

theorem all_deleteIndex {P : Bullet → Prop} (hP : Lifecycle P) (L : Strings) (a : App)
    (index : Int) (h : InvAll P a) : InvAll P (a.DeleteIndex L index).2 := by
  unfold App.DeleteIndex
  simp only []
  split
  · exact h
  · split
    · exact h
    · exact all_thenRefresh h _ (storeAll_delete hP h.1 _ _)

theorem all_completeIndex {P : Bullet → Prop} (hP : Lifecycle P) (L : Strings) (a : App)
    (index : Int) (h : InvAll P a) : InvAll P (a.CompleteIndex L index).2 := by
  unfold App.CompleteIndex
  simp only []
  split
  · exact h
  · split
    · exact h
    · next e hv =>
      have he := visible_all L h _ e hv
      split
      · exact h
      · split
        · next ht =>
          exact all_thenRefresh h _
            (storeAll_update hP (storeAll_timeNow h.1) _ _ (hP.done _ _ he ht))
        · split
          · next ht =>
            exact all_thenRefresh h _ (storeAll_update hP h.1 _ _ (hP.task _ he ht))
          · exact h

theorem all_completeDayIndex {P : Bullet → Prop} (hP : Lifecycle P) (a : App) (date : Time)
    (index : Int) (h : InvAll P a) : InvAll P (a.CompleteDayIndex date index).2 := by
  unfold App.CompleteDayIndex
  simp only []
  split
  · exact h
  · next items hl =>
    split
    · exact h
    · split
      · exact h
      · next it hit =>
        have he := loadDay_all h.1 _ items hl it (List.getElem?_mem hit)
        split
        · exact h
        · split
          · next ht =>
            exact all_thenReturn h _
              (storeAll_update hP (storeAll_timeNow h.1) _ _ (hP.done _ _ he ht))
          · split
            · next ht =>
              exact all_thenReturn h _ (storeAll_update hP h.1 _ _ (hP.task _ he ht))
            · exact h

theorem all_deleteDayIndex {P : Bullet → Prop} (hP : Lifecycle P) (a : App) (date : Time)
    (index : Int) (h : InvAll P a) : InvAll P (a.DeleteDayIndex date index).2 := by
  unfold App.DeleteDayIndex
  split
  · exact h
  · split
    · exact h
    · split
      · exact h
      · exact all_thenReturn h _ (storeAll_delete hP h.1 _ _)

theorem all_updateDayIndexText {P : Bullet → Prop} (hP : Lifecycle P) (a : App) (date : Time)
    (index : Int) (text : String) (h : InvAll P a) :
    InvAll P (a.UpdateDayIndexText date index text).2 := by
  unfold App.UpdateDayIndexText
  split
  · exact h
  · next items hl =>
    split
    · exact h
    · split
      · exact h
      · next it hit =>
        apply all_thenReturn h
        apply storeAll_update hP h.1
        exact hP.text _ _ (loadDay_all h.1 _ items hl it (List.getElem?_mem hit))

theorem all_changeTypeIndex {P : Bullet → Prop} (hP : Lifecycle P) (L : Strings) (a : App)
    (index : Int) (t : BulletType)
    (hre : ∀ (b : Bullet) (now : Time), P b → P (retyped b t now)) (h : InvAll P a) :
    InvAll P (a.ChangeTypeIndex L index t).2 := by
  unfold App.ChangeTypeIndex
  simp only []
  split
  · exact h
  · split
    · exact h
    · next e hv =>
      have he := visible_all L h _ e hv
      by_cases hD : t = Done
      · have hS : t ≠ Scheduled := by rw [hD]; decide
        simp only [if_pos hD, if_pos hS]
        apply all_thenRefresh h
        apply storeAll_update hP (storeAll_timeNow h.1)
        have := hre e.Item (timeNow a.Store).1 he
        simpa [retyped, hD, hS] using this
      · simp only [if_neg hD]
        apply all_thenRefresh h
        apply storeAll_update hP h.1
        have := hre e.Item Time.zero he
        by_cases hS : t = Scheduled
        · simpa [retyped, hD, hS] using this
        · simpa [retyped, hD, hS] using this

theorem all_migrateDayIndex {P : Bullet → Prop} (hP : Lifecycle P) (L : Strings) (a : App)
    (date : Time) (index : Int) (h : InvAll P a) :
    InvAll P (a.MigrateDayIndex L date index).2 := by
  unfold App.MigrateDayIndex
  simp only []
  split
  · exact h
  · split
    · exact h
    · split
      · exact h
      · next orig _ =>
        split
        · split
          · exact h
          · next titems _ =>
            have hu := storeAll_update hP h.1 (dateOnly date) _
              (hP.restored orig _ (findClone_typ L orig.Text titems))
            split
            · next err s hq =>
              rw [hq] at hu
              exact ⟨hu, h.2⟩
            · next s hq =>
              rw [hq] at hu
              split
              · exact all_thenReturn h _ (storeAll_delete hP hu _ _)
              · exact ⟨hu, h.2⟩
        · split
          · exact h
          · next hk =>
            have hu := storeAll_update hP h.1 (dateOnly date) _
              (hP.marked orig Migrated ((dateOnly date).AddDays 1) (Or.inl rfl))
            split
            · next err s hq =>
              rw [hq] at hu
              exact ⟨hu, h.2⟩
            · next s hq =>
              rw [hq] at hu
              exact all_thenReturn h _ (storeAll_append hP hu _ _ (hP.clone orig hk))

theorem all_scheduleDayIndex {P : Bullet → Prop} (hP : Lifecycle P) (L : Strings) (a : App)
    (date : Time) (index : Int) (target : Time) (h : InvAll P a) :
    InvAll P (a.ScheduleDayIndex L date index target).2 := by
  unfold App.ScheduleDayIndex
  simp only []
  split
  · exact h
  · split
    · exact h
    · split
      · exact h
      · next orig _ =>
        split
        · split
          · exact h
          · split
            · exact h
            · next titems _ =>
              have hu := storeAll_update hP h.1 (dateOnly date) _
                (hP.restored orig _ (findClone_typ L orig.Text titems))
              split
              · next err s hq =>
                rw [hq] at hu
                exact ⟨hu, h.2⟩
              · next s hq =>
                rw [hq] at hu
                split
                · exact all_thenReturn h _ (storeAll_delete hP hu _ _)
                · exact ⟨hu, h.2⟩
        · split
          · exact h
          · next hk =>
            have hu := storeAll_update hP h.1 (dateOnly date) _
              (hP.marked orig Scheduled (dateOnly target) (Or.inr rfl))
            split
            · next err s hq =>
              rw [hq] at hu
              exact ⟨hu, h.2⟩
            · next s hq =>
              rw [hq] at hu
              exact all_thenReturn h _ (storeAll_append hP hu _ _ (hP.clone orig hk))

theorem all_migrateIndex {P : Bullet → Prop} (hP : Lifecycle P) (L : Strings) (a : App)
    (index : Int) (h : InvAll P a) : InvAll P (a.MigrateIndex L index).2 := by
  unfold App.MigrateIndex
  simp only []
  split
  · exact h
  · split
    · exact h
    · next e _ =>
      split
      · split
        · exact h
        · next items _ =>
          have hu := storeAll_update hP h.1 e.Date _
            (hP.restored e.Item _ (findClone_typ L e.Item.Text items))
          split
          · next err s hq =>
            rw [hq] at hu
            exact ⟨hu, h.2⟩
          · next s hq =>
            rw [hq] at hu
            split
            · exact all_thenRefresh h _ (storeAll_delete hP hu _ _)
            · exact all_refresh ⟨hu, h.2⟩
      · split
        · exact h
        · next hk =>
          have hu := storeAll_update hP h.1 e.Date _
            (hP.marked e.Item Migrated (e.Date.Add nanosPerDay) (Or.inl rfl))
          split
          · next err s hq =>
            rw [hq] at hu
            exact ⟨hu, h.2⟩
          · next s hq =>
            rw [hq] at hu
            exact all_thenRefresh h _ (storeAll_append hP hu _ _ (hP.clone e.Item hk))

theorem all_scheduleIndex {P : Bullet → Prop} (hP : Lifecycle P) (L : Strings) (a : App)
    (index : Int) (date : Time) (h : InvAll P a) :
    InvAll P (a.ScheduleIndex L index date).2 := by
  unfold App.ScheduleIndex
  simp only []
  split
  · exact h
  · split
    · exact h
    · next e _ =>
      split
      · split
        · exact h
        · split
          · exact h
          · next items _ =>
            have hu := storeAll_update hP h.1 e.Date _
              (hP.restored e.Item _ (findClone_typ L e.Item.Text items))
            split
            · next err s hq =>
              rw [hq] at hu
              exact ⟨hu, h.2⟩
            · next s hq =>
              rw [hq] at hu
              split
              · exact all_thenRefresh h _ (storeAll_delete hP hu _ _)
              · exact all_refresh ⟨hu, h.2⟩
      · split
        · exact h
        · next hk =>
          have hu := storeAll_update hP h.1 e.Date _
            (hP.marked e.Item Scheduled date (Or.inr rfl))
          split
          · next err s hq =>
            rw [hq] at hu
            exact ⟨hu, h.2⟩
          · next s hq =>
            rw [hq] at hu
            exact all_thenRefresh h _ (storeAll_append hP hu _ _ (hP.clone e.Item hk))

theorem all_step {P : Bullet → Prop} (hP : Lifecycle P) (L : Strings) (a : App) (op : Op)
    (hre : RetypeKeeps P op) (h : InvAll P a) : InvAll P (a.step L op) := by
  cases op with
  | Add text => exact all_add hP a text h
  | UpdateText index text => exact all_updateText hP L a index text h
  | UpdateTagsIndex index tags => exact all_updateTags hP L a index tags h
  | DeleteIndex index => exact all_deleteIndex hP L a index h
  | CompleteIndex index => exact all_completeIndex hP L a index h
  | MigrateIndex index => exact all_migrateIndex hP L a index h
  | ScheduleIndex index date => exact all_scheduleIndex hP L a index date h
  | ChangeTypeIndex index t => exact all_changeTypeIndex hP L a index t hre h
  | DeleteDayIndex date index => exact all_deleteDayIndex hP a date index h
  | UpdateDayIndexText date index text => exact all_updateDayIndexText hP a date index text h
  | CompleteDayIndex date index => exact all_completeDayIndex hP a date index h
  | MigrateDayIndex date index => exact all_migrateDayIndex hP L a date index h
  | ScheduleDayIndex date index target => exact all_scheduleDayIndex hP L a date index target h

theorem lifecycle_scheduledOk : Lifecycle ScheduledOk where
  stamped s b h := by
    have hf := stamp_fields s b
    unfold ScheduledOk at *
    rw [hf.1, hf.2.2.2.1]
    exact h
  text b text h := h
  tags b tags h := h
  fresh text now := by simp [ScheduledOk, Task, Migrated, Scheduled]
  done b now h ht := by
    unfold ScheduledOk at *
    rw [ht] at h
    simp only [Task, Migrated, Scheduled, Done] at h ⊢
    simpa using h
  task b h ht := by
    unfold ScheduledOk at *
    rw [ht] at h
    simp only [Task, Migrated, Scheduled, Done] at h ⊢
    simpa using h
  restored b t ht := by
    unfold ScheduledOk
    rcases ht with h | h <;> simp [h, Task, Event, Migrated, Scheduled]
  marked b t sf ht := by
    unfold ScheduledOk
    rcases ht with h | h <;> simp [h, Migrated, Scheduled]
  clone b ht := by
    unfold ScheduledOk
    have : b.Typ = Task ∨ b.Typ = Event := by tauto
    rcases this with h | h <;> simp [h, Task, Event, Migrated, Scheduled]

theorem lifecycle_scheduledImp : Lifecycle ScheduledImp where
  stamped s b h := by
    have hf := stamp_fields s b
    unfold ScheduledImp at *
    rw [hf.1, hf.2.2.2.1]
    exact h
  text b text h := h
  tags b tags h := h
  fresh text now := by simp [ScheduledImp]
  done b now h ht := by
    unfold ScheduledImp at *
    rw [ht] at h
    simp only [Task, Migrated, Scheduled, Done] at h ⊢
    simpa using h
  task b h ht := by
    unfold ScheduledImp at *
    rw [ht] at h
    simp only [Task, Migrated, Scheduled, Done] at h ⊢
    simpa using h
  restored b t ht := by simp [ScheduledImp]
  marked b t sf ht := by
    unfold ScheduledImp
    intro _
    exact ht
  clone b ht := by simp [ScheduledImp]

theorem retype_scheduledImp (b : Bullet) (t : BulletType) (now : Time) :
    ScheduledImp (retyped b t now) := by
  unfold ScheduledImp retyped
  by_cases hS : t = Scheduled
  · intro _
    exact Or.inr hS
  · simp [hS]

theorem retype_scheduledOk (b : Bullet) (t : BulletType) (now : Time)
    (ht : ¬ (t = Migrated ∨ t = Scheduled)) : ScheduledOk (retyped b t now) := by
  unfold ScheduledOk retyped
  have hS : t ≠ Scheduled := fun h => ht (Or.inr h)
  simp only [if_neg hS]
  constructor
  · intro h
    simp at h
  · intro h
    exact absurd h ht

theorem storeAll_oneDay {P : Bullet → Prop} (t : Time) (items : List Bullet)
    (h : ∀ b ∈ items, P b) : StoreAll P (oneDay t items) := by
  intro k b hb
  unfold FSStore.record oneDay storeOf at hb
  by_cases hk : k = t.dayNo
  · simp only [hk, if_true, Option.getD_some] at hb
    exact h b hb
  · simp [hk] at hb

/-! ## Migration by day index, forward direction -/

/-- Forward migration on a store whose day files end in a newline and whose times
can be encoded.
Let `e` be the entry at index `i` of the record of day `D`
(the day of `date`), of type Task or Event, where the ids of `D` are pairwise
distinct and every entry of `D` has a non-empty
id and a non-zero `CreatedAt`.  When no file operation fails, `MigrateDayIndex`
returns no error; the record of `D` is the old one with entry `i` replaced by `e`
with type Migrated, `ScheduledFor` midnight of `D+1` and no `CompletedAt`; the
record of `D+1` is the old one followed by one entry with the type, text and tags of
`e`, a non-empty id and neither `ScheduledFor` nor `CompletedAt`. -/
theorem decoded_migrate_forward (L : Strings) (a : App) (date : Time) (i : Nat) (e : Bullet)
    (hio : a.Store.Healthy)
    (hi : (a.Store.record date.dayNo)[i]? = some e)
    (hk : e.Typ = Task ∨ e.Typ = Event)
    (hd : DistinctIDs (a.Store.record date.dayNo))
    (hst : Stamped (a.Store.record date.dayNo)) :
    (a.MigrateDayIndex L date i).1 = none ∧
    (a.MigrateDayIndex L date i).2.Store.record date.dayNo =
      (a.Store.record date.dayNo).set i
        { e with Typ := Migrated, ScheduledFor := some (Time.ofDay (date.dayNo + 1)),
                 CompletedAt := none } ∧
    ∃ c, (a.MigrateDayIndex L date i).2.Store.record (date.dayNo + 1) =
          a.Store.record (date.dayNo + 1) ++ [c] ∧
      c.Typ = e.Typ ∧ c.Text = e.Text ∧ c.Tags = e.Tags ∧ c.ID ≠ "" ∧
      c.ScheduledFor = none ∧ c.CompletedAt = none := by
  rw [forward_migrate_eq L a date i e hio hi hk hd hst]
  refine ⟨rfl, ?_, storedClone a.Store date.dayNo i e
      (forwarded e Migrated (Time.ofDay (date.dayNo + 1))), ?_, ?_⟩
  · simp [record_afterForward, forwarded]
  · simp [record_afterForward]
  · have h := storedClone_fields a.Store date.dayNo i e
      (forwarded e Migrated (Time.ofDay (date.dayNo + 1)))
    exact ⟨h.1, h.2.1, h.2.2.1, h.2.2.2.1, h.2.2.2.2.1, h.2.2.2.2.2.1⟩

/-! ## Migration by day index, undo -/

/-- Migration and undo on a store whose day files end in a newline and whose times
can be encoded.
Let `e` be a Task without `ScheduledFor` and `CompletedAt` at
index `i` of the record of day `D`, and let day `D+1` hold no Task or Event whose text
equals that of `e` under `EqualFold`.  Assume that the entries of `D` have
non-empty, pairwise distinct ids and a non-zero `CreatedAt`, that the entries of `D+1`
have a non-empty id and a non-zero `CreatedAt`, that the id generated for the clone
does not occur on `D+1`, that `EqualFold` is reflexive and that no file operation
fails.  Then `MigrateDayIndex` called twice returns no error either time and leaves
the record of every day, `D` and `D+1` included, equal to what it was. -/
theorem decoded_migrate_inverse (L : Strings) (hL : ∀ s, L.EqualFold s s = true)
    (a : App) (date : Time) (i : Nat) (e : Bullet)
    (hio : a.Store.Healthy)
    (hi : (a.Store.record date.dayNo)[i]? = some e)
    (hk : e.Typ = Task) (hs : e.ScheduledFor = none) (hc : e.CompletedAt = none)
    (hno : ∀ b ∈ a.Store.record (date.dayNo + 1),
      (b.Typ = Task ∨ b.Typ = Event) → L.EqualFold b.Text e.Text = false)
    (hst : Stamped (a.Store.record date.dayNo))
    (hd : DistinctIDs (a.Store.record date.dayNo))
    (hstT : Stamped (a.Store.record (date.dayNo + 1)))
    (hfresh : (generateID a.Store).1 ∉ (a.Store.record (date.dayNo + 1)).map (·.ID)) :
    (a.MigrateDayIndex L date i).1 = none ∧
    ((a.MigrateDayIndex L date i).2.MigrateDayIndex L date i).1 = none ∧
    ∀ k, ((a.MigrateDayIndex L date i).2.MigrateDayIndex L date i).2.Store.record k =
      a.Store.record k := by
  have he : e ∈ a.Store.record date.dayNo := List.getElem?_mem hi
  have hne : date.dayNo ≠ date.dayNo + 1 := by omega
  rw [forward_migrate_eq L a date i e hio hi (Or.inl hk) hd hst]
  have hT : undoTarget (forwarded e Migrated (Time.ofDay (date.dayNo + 1))) date.dayNo =
      date.dayNo + 1 := by
    simp [undoTarget, forwarded, dayNo_ofDay]
  have hrD : (afterForward a.Store date.dayNo i e
      (forwarded e Migrated (Time.ofDay (date.dayNo + 1))) (date.dayNo + 1)).record date.dayNo =
      (a.Store.record date.dayNo).set i (forwarded e Migrated (Time.ofDay (date.dayNo + 1))) := by
    simp [record_afterForward, hne]
  have hrT : (afterForward a.Store date.dayNo i e
      (forwarded e Migrated (Time.ofDay (date.dayNo + 1))) (date.dayNo + 1)).record
        (date.dayNo + 1) =
      a.Store.record (date.dayNo + 1) ++
        [storedClone a.Store date.dayNo i e
          (forwarded e Migrated (Time.ofDay (date.dayNo + 1)))] := by
    simp [record_afterForward]
  have hcl := storedClone_fields a.Store date.dayNo i e
    (forwarded e Migrated (Time.ofDay (date.dayNo + 1)))
  have hfind : findClone L e.Text
      (a.Store.record (date.dayNo + 1) ++
        [storedClone a.Store date.dayNo i e
          (forwarded e Migrated (Time.ofDay (date.dayNo + 1)))]) =
      ((generateID a.Store).1, Task) := by
    rw [findClone_append L e.Text _ _ hno]
    simp [findClone, hcl.1, hcl.2.1, hL, hk, storedClone_id]
  have h2 := undo_migrate_eq L
    { a with Store := (afterForward a.Store date.dayNo i e
        (forwarded e Migrated (Time.ofDay (date.dayNo + 1))) (date.dayNo + 1)) }
    date i (forwarded e Migrated (Time.ofDay (date.dayNo + 1)))
    (healthy_afterForward hio _ _ _ _ _)
    (by
      show (FSStore.record _ _)[i]? = _
      rw [hrD]
      exact getElem?_set_at _ i e _ hi)
    rfl
    (by
      show Stamped (FSStore.record _ _)
      rw [hrD]
      exact stamped_set hst i _ (hst e he).1 (hst e he).2)
    (by
      show DistinctIDs (FSStore.record _ _)
      rw [hrD]
      exact distinct_set hd i e _ hi rfl)
    (by
      show Stamped (List.filter _ (FSStore.record _ _))
      rw [hT, hrT]
      have : (forwarded e Migrated (Time.ofDay (date.dayNo + 1))).Text = e.Text := rfl
      rw [this, hfind, ← storedClone_id a.Store date.dayNo i e
        (forwarded e Migrated (Time.ofDay (date.dayNo + 1)))]
      rw [filter_append_fresh _ _ (by rw [storedClone_id]; exact hfresh)]
      exact hstT)
  rw [h2]
  refine ⟨rfl, rfl, fun k => ?_⟩
  show (afterUndo _ _ _ _ _ _).record k = _
  rw [record_afterUndo, hT, hrT, hrD]
  have : (forwarded e Migrated (Time.ofDay (date.dayNo + 1))).Text = e.Text := rfl
  rw [this, hfind]
  have hrest : ({ forwarded e Migrated (Time.ofDay (date.dayNo + 1)) with
      Typ := Task, CompletedAt := none, ScheduledFor := none } : Bullet) = e := by
    cases e
    simp_all [forwarded]
  simp only [hrest, List.set_set, set_self _ i e hi]
  by_cases hkT : k = date.dayNo + 1
  · subst hkT
    have hk' : ¬ (date.dayNo + 1 = date.dayNo) := by omega
    simp only [generateID_ne_empty, ne_eq, not_false_eq_true, and_self, if_true, hk', if_false,
      hrT]
    rw [← storedClone_id a.Store date.dayNo i e
      (forwarded e Migrated (Time.ofDay (date.dayNo + 1)))]
    exact filter_append_fresh _ _ (by rw [storedClone_id]; exact hfresh)
  · by_cases hkD : k = date.dayNo
    · subst hkD
      simp only [hkT, false_and, if_false, if_true]
      convert set_self _ i e hi using 2
    · simp [hkT, hkD, record_afterForward]

/-- C3, as amended.  Let `a0` be a Migrated entry at index `i` of the record of day
`D`, let `T` be the day of its `ScheduledFor` if present and `D+1` otherwise, and let
`c` be the first entry of `T` whose text equals that of `a0` under `EqualFold` and
whose type is Task or Event.  Assume in addition that the entries of `D` and those of
`T` have non-empty, pairwise distinct ids and a non-zero `CreatedAt`, and that no file
operation fails.  Then `MigrateDayIndex` returns no error; `a0` is replaced in place by
`a0` with the type of `c` (Task when there is no `c`) and neither `ScheduledFor` nor
`CompletedAt`; the record of `T` (after that rewrite when `T = D`) loses exactly `c`
and is unchanged when there is no `c`; every other record is unchanged. -/
theorem migrateDayIndex_undo (L : Strings) (a : App) (date : Time) (i : Nat) (a0 : Bullet)
    (hio : a.Store.Healthy)
    (hi : (a.Store.record date.dayNo)[i]? = some a0)
    (hk : a0.Typ = Migrated)
    (hst : Stamped (a.Store.record date.dayNo))
    (hd : DistinctIDs (a.Store.record date.dayNo))
    (hstT : Stamped (a.Store.record (undoTarget a0 date.dayNo)))
    (hdT : DistinctIDs (a.Store.record (undoTarget a0 date.dayNo))) :
    (a.MigrateDayIndex L date i).1 = none ∧
    ∀ k, (a.MigrateDayIndex L date i).2.Store.record k =
      match firstClone L a0.Text (a.Store.record (undoTarget a0 date.dayNo)) with
      | some c =>
        if k = undoTarget a0 date.dayNo then
          (if k = date.dayNo then (a.Store.record date.dayNo).set i (restoredAs a0 (some c))
            else a.Store.record k).erase c
        else
          if k = date.dayNo then (a.Store.record date.dayNo).set i (restoredAs a0 (some c))
          else a.Store.record k
      | none =>
        if k = date.dayNo then (a.Store.record date.dayNo).set i (restoredAs a0 none)
        else a.Store.record k := by
  rw [undo_migrate_eq L a date i a0 hio hi hk hst hd (stamped_filter hstT _)]
  refine ⟨rfl, fun k => ?_⟩
  simp only [record_afterUndo]
  rw [findClone_eq]
  cases hfc : firstClone L a0.Text (a.Store.record (undoTarget a0 date.dayNo)) with
  | none => simp [restoredAs]
  | some c =>
    obtain ⟨hcm, hct, _⟩ := firstClone_spec L _ _ c hfc
    have hcid : c.ID ≠ "" := (hstT c hcm).1
    have hca : c ≠ a0 := by
      intro h
      rw [h, hk] at hct
      revert hct
      decide
    by_cases hkT : k = undoTarget a0 date.dayNo
    · simp only [hkT, hcid, ne_eq, not_false_eq_true, and_self, if_true, restoredAs]
      by_cases hTD : undoTarget a0 date.dayNo = date.dayNo
      · simp only [hTD, if_true]
        apply filter_id_eq_erase
        · exact distinct_set hd i a0 _ hi rfl
        · exact mem_set_of_ne _ i a0 _ c hi (hTD ▸ hcm) hca
      · simp only [hTD, if_false]
        exact filter_id_eq_erase _ c hdT hcm
    · simp [hkT, restoredAs]
/-- Witness for C3: the anchor of "Buy milk" on 2024-01-01 and its
clone on 2024-01-02. -/
theorem migrateDayIndex_undo_witness :
    ((appOf (twoDays jan1 [forwarded (milk "m1") Migrated jan2] jan2 [milk "m2"])).MigrateDayIndex
      asciiStrings jan1 (0 : Nat)).1 = none ∧
    ∀ k, ((appOf (twoDays jan1 [forwarded (milk "m1") Migrated jan2] jan2
        [milk "m2"])).MigrateDayIndex asciiStrings jan1 (0 : Nat)).2.Store.record k =
      match firstClone asciiStrings (forwarded (milk "m1") Migrated jan2).Text
        ((appOf (twoDays jan1 [forwarded (milk "m1") Migrated jan2] jan2 [milk "m2"])).Store.record
          (undoTarget (forwarded (milk "m1") Migrated jan2) jan1.dayNo)) with
      | some c =>
        if k = undoTarget (forwarded (milk "m1") Migrated jan2) jan1.dayNo then
          (if k = jan1.dayNo then
              ((appOf (twoDays jan1 [forwarded (milk "m1") Migrated jan2] jan2
                [milk "m2"])).Store.record jan1.dayNo).set 0
                (restoredAs (forwarded (milk "m1") Migrated jan2) (some c))
            else (appOf (twoDays jan1 [forwarded (milk "m1") Migrated jan2] jan2
                [milk "m2"])).Store.record k).erase c
        else
          if k = jan1.dayNo then
            ((appOf (twoDays jan1 [forwarded (milk "m1") Migrated jan2] jan2
              [milk "m2"])).Store.record jan1.dayNo).set 0
              (restoredAs (forwarded (milk "m1") Migrated jan2) (some c))
          else (appOf (twoDays jan1 [forwarded (milk "m1") Migrated jan2] jan2
              [milk "m2"])).Store.record k
      | none =>
        if k = jan1.dayNo then
          ((appOf (twoDays jan1 [forwarded (milk "m1") Migrated jan2] jan2
            [milk "m2"])).Store.record jan1.dayNo).set 0
            (restoredAs (forwarded (milk "m1") Migrated jan2) none)
        else (appOf (twoDays jan1 [forwarded (milk "m1") Migrated jan2] jan2
            [milk "m2"])).Store.record k :=
  migrateDayIndex_undo asciiStrings
    (appOf (twoDays jan1 [forwarded (milk "m1") Migrated jan2] jan2 [milk "m2"])) jan1 0
    (forwarded (milk "m1") Migrated jan2)
    (fun _ => ⟨rfl, rfl⟩) (by decide) rfl (by decide) (by decide) (by decide) (by decide)

/-- C3 fails as stated, which asks nothing of the ids.  The anchor of "Buy milk" is at
2024-01-01 with `ScheduledFor` 2024-01-02.  (1) The first candidate on 2024-01-02 has
an empty id: the anchor is restored but the candidate is not removed.  (2) The first
candidate shares its id `b` with a note stored after it: both are removed.  (3) On
2024-01-01 the anchor at index 1 shares its id with the note at index 0: the note is
overwritten and the entry at index 1 stays Migrated.  (4) The anchor records its own
day, 2024-01-01, on which the candidate is stored too: that record loses the
candidate and, besides, has the anchor rewritten. -/
theorem migrateDayIndex_undo_ids :
    (firstClone asciiStrings "Buy milk" [milk ""] = some (milk "") ∧
      ((appOf (twoDays jan1 [forwarded (milk "m1") Migrated jan2] jan2 [milk ""])).MigrateDayIndex
        asciiStrings jan1 0).2.Store.record jan2.dayNo = [milk ""] ∧
      ((appOf (twoDays jan1 [forwarded (milk "m1") Migrated jan2] jan2 [milk ""])).MigrateDayIndex
        asciiStrings jan1 0).2.Store.record jan2.dayNo ≠
        ((appOf (twoDays jan1 [forwarded (milk "m1") Migrated jan2] jan2 [milk ""])).Store.record
          jan2.dayNo).erase (milk "")) ∧
    (firstClone asciiStrings "Buy milk" [milk "b", memo "b"] = some (milk "b") ∧
      ((appOf (twoDays jan1 [forwarded (milk "m1") Migrated jan2] jan2
        [milk "b", memo "b"])).MigrateDayIndex asciiStrings jan1 0).2.Store.record jan2.dayNo = []) ∧
    (((appOf (twoDays jan1 [memo "a", forwarded (milk "a") Migrated jan2] jan2
        [milk "m2"])).MigrateDayIndex asciiStrings jan1 1).2.Store.record jan1.dayNo =
      [milk "a", forwarded (milk "a") Migrated jan2]) ∧
    (undoTarget (forwarded (milk "m1") Migrated jan1) jan1.dayNo = jan1.dayNo ∧
      ((appOf (oneDay jan1 [forwarded (milk "m1") Migrated jan1, milk "m2"])).MigrateDayIndex
        asciiStrings jan1 0).2.Store.record jan1.dayNo = [milk "m1"] ∧
      ((appOf (oneDay jan1 [forwarded (milk "m1") Migrated jan1, milk "m2"])).Store.record
        jan1.dayNo).erase (milk "m2") = [forwarded (milk "m1") Migrated jan1]) := by
  decide

/-! ## Scheduling by day index -/

/-- Forward scheduling on a store whose day files end in a newline and whose times
can be encoded.
Let `e` be the entry at index `i` of the record of day `D`, of
type Task or Event, and let `target` be any date (the day `T` of `target` may be `D`
or earlier).  Assume that the entries of `D` have non-empty, pairwise
distinct ids and a non-zero `CreatedAt`, and that no file operation fails.  Then
`ScheduleDayIndex` returns no error; entry `i` of `D` becomes `e` with type Scheduled,
`ScheduledFor` midnight of `T` and no `CompletedAt`; the record of `T` is its previous
content (after that rewrite when `T = D`) followed by one new entry with the type,
text and tags of `e`, a non-empty id and neither `ScheduledFor` nor `CompletedAt`;
all other records are unchanged. -/
theorem decoded_schedule_forward (L : Strings) (a : App) (date target : Time) (i : Nat)
    (e : Bullet)
    (hio : a.Store.Healthy)
    (hi : (a.Store.record date.dayNo)[i]? = some e)
    (hk : e.Typ = Task ∨ e.Typ = Event)
    (hd : DistinctIDs (a.Store.record date.dayNo))
    (hst : Stamped (a.Store.record date.dayNo)) :
    (a.ScheduleDayIndex L date i target).1 = none ∧
    ∃ c, c.Typ = e.Typ ∧ c.Text = e.Text ∧ c.Tags = e.Tags ∧ c.ID ≠ "" ∧
      c.ScheduledFor = none ∧ c.CompletedAt = none ∧
      ∀ k, (a.ScheduleDayIndex L date i target).2.Store.record k =
        (if k = date.dayNo then
            (a.Store.record date.dayNo).set i
              { e with Typ := Scheduled, ScheduledFor := some (Time.ofDay target.dayNo),
                       CompletedAt := none }
          else a.Store.record k) ++ (if k = target.dayNo then [c] else []) := by
  rw [forward_schedule_eq L a date target i e hio hi hk hd hst]
  have h := storedClone_fields a.Store date.dayNo i e
    (forwarded e Scheduled (Time.ofDay target.dayNo))
  refine ⟨rfl, storedClone a.Store date.dayNo i e
    (forwarded e Scheduled (Time.ofDay target.dayNo)),
    h.1, h.2.1, h.2.2.1, h.2.2.2.1, h.2.2.2.2.1, h.2.2.2.2.2.1, fun k => ?_⟩
  simp [record_afterForward, forwarded]
/-- Scheduling and undo on a store whose day files end in a newline and whose times
can be encoded.
Let `e` be a Task or Event without `ScheduledFor` and
`CompletedAt` at index `i` of the record of day `D`, let `T` be the day of `target`,
and let `T` hold no Task or Event, other than `e` itself, whose text equals that of `e`
under `EqualFold`.  Assume that the entries of `D` have non-empty, pairwise
distinct ids and a non-zero `CreatedAt`, that the entries of `T` have a non-empty id
and a non-zero `CreatedAt`, that the id generated for the clone does not occur on `T`,
that `EqualFold` is reflexive and that no file operation fails.  Then
`ScheduleDayIndex` with `target` followed by `ScheduleDayIndex` with any `target'`
returns no error either time and leaves the record of every day equal to what it
was; the second call does not use `target'`. -/
theorem decoded_schedule_inverse (L : Strings) (hL : ∀ s, L.EqualFold s s = true)
    (a : App) (date target target' : Time) (i : Nat) (e : Bullet)
    (hio : a.Store.Healthy)
    (hi : (a.Store.record date.dayNo)[i]? = some e)
    (hk : e.Typ = Task ∨ e.Typ = Event) (hs : e.ScheduledFor = none) (hc : e.CompletedAt = none)
    (hother : ∀ b ∈ (if target.dayNo = date.dayNo then (a.Store.record target.dayNo).eraseIdx i
        else a.Store.record target.dayNo),
      (b.Typ = Task ∨ b.Typ = Event) → L.EqualFold b.Text e.Text = false)
    (hst : Stamped (a.Store.record date.dayNo))
    (hd : DistinctIDs (a.Store.record date.dayNo))
    (hstT : Stamped (a.Store.record target.dayNo))
    (hfresh : (generateID a.Store).1 ∉ (a.Store.record target.dayNo).map (·.ID)) :
    (a.ScheduleDayIndex L date i target).1 = none ∧
    ((a.ScheduleDayIndex L date i target).2.ScheduleDayIndex L date i target').1 = none ∧
    ∀ k, ((a.ScheduleDayIndex L date i target).2.ScheduleDayIndex L date i target').2.Store.record k =
      a.Store.record k := by
  have he : e ∈ a.Store.record date.dayNo := List.getElem?_mem hi
  have hno : ∀ (j : Nat) (b : Bullet), (a.Store.record target.dayNo)[j]? = some b →
      (target.dayNo = date.dayNo → j ≠ i) →
      (b.Typ = Task ∨ b.Typ = Event) → L.EqualFold b.Text e.Text = false := by
    intro j b hj hji hbk
    apply hother b _ hbk
    by_cases hTD : target.dayNo = date.dayNo
    · rw [if_pos hTD]
      exact List.mem_eraseIdx_iff_getElem?.2 ⟨j, hji hTD, hj⟩
    · rw [if_neg hTD]
      exact List.getElem?_mem hj
  rw [forward_schedule_eq L a date target i e hio hi hk hd hst]
  by_cases hTD : target.dayNo = date.dayNo
  · rw [hTD]
    rw [hTD] at hno hfresh
    have h := undo_schedule_sameDay L hL a.Store a date target' i e hio hi hk hs hc
      (fun j b hj hji => hno j b hj (fun _ => hji)) hst hd hfresh
    exact ⟨rfl, h.1, h.2⟩
  · obtain ⟨m, hm⟩ : ∃ m, m = forwarded e Scheduled (Time.ofDay target.dayNo) := ⟨_, rfl⟩
    obtain ⟨cl, hcl⟩ : ∃ cl, cl = storedClone a.Store date.dayNo i e m := ⟨_, rfl⟩
    obtain ⟨s1, hs1⟩ : ∃ s1, s1 = afterForward a.Store date.dayNo i e m target.dayNo := ⟨_, rfl⟩
    have hio1 : s1.Healthy := hs1 ▸ healthy_afterForward hio _ _ _ _ _
    have hDT : ¬ date.dayNo = target.dayNo := fun h => hTD h.symm
    have hrD : s1.record date.dayNo = (a.Store.record date.dayNo).set i m := by
      rw [hs1, record_afterForward]
      simp [hDT]
    have hrT : s1.record target.dayNo = a.Store.record target.dayNo ++ [cl] := by
      rw [hs1, record_afterForward, hcl]
      simp [hTD]
    have hclf := storedClone_fields a.Store date.dayNo i e m
    rw [← hcl] at hclf
    have hclid : cl.ID = (generateID a.Store).1 := by rw [hcl, storedClone_id]
    have hmt : m.Text = e.Text := by rw [hm]; rfl
    have hfind : findClone L m.Text (a.Store.record target.dayNo ++ [cl]) = (cl.ID, e.Typ) := by
      rw [hmt, findClone_append L e.Text _ _ (fun b hb hbk => by
        obtain ⟨j, hj⟩ := List.mem_iff_getElem?.1 hb
        exact hno j b hj (fun h => absurd h hTD) hbk)]
      simp [findClone, hclf.1, hclf.2.1, hL, hk]
    have hfil : ((a.Store.record target.dayNo ++ [cl]).filter fun it => it.ID ≠ cl.ID) =
        a.Store.record target.dayNo :=
      filter_append_fresh _ _ (by rw [hclid]; exact hfresh)
    have hrest : ({ m with Typ := e.Typ, CompletedAt := none, ScheduledFor := none } : Bullet) = e := by
      rw [hm]
      cases e
      simp_all [forwarded]
    have hmsf : m.ScheduledFor = some (Time.ofDay target.dayNo) := by rw [hm]; rfl
    rw [← hm, ← hs1]
    have h2 := undo_schedule_eq L { a with Store := s1 } date target' i m
      (Time.ofDay target.dayNo) hio1
      (by
        show (s1.record _)[i]? = _
        rw [hrD]
        exact getElem?_set_at _ i e m hi)
      (by rw [hm]; rfl) hmsf
      (by
        show Stamped (s1.record _)
        rw [hrD]
        refine stamped_set hst i m ?_ ?_
        · rw [hm]; exact (hst e he).1
        · rw [hm]; exact (hst e he).2)
      (by
        show DistinctIDs (s1.record _)
        rw [hrD]
        exact distinct_set hd i e m hi (by rw [hm]; rfl))
      (by
        show Stamped (List.filter _ (s1.record _))
        rw [dayNo_ofDay, hrT, hfind, hfil]
        exact hstT)
    rw [h2]
    refine ⟨rfl, rfl, fun k => ?_⟩
    show (afterUndo L s1 _ _ _ _).record k = _
    rw [record_afterUndo, dayNo_ofDay, hrT, hrD, hfind]
    simp only [hrest, List.set_set, set_self _ i e hi]
    by_cases hkT : k = target.dayNo
    · subst hkT
      simp only [hclf.2.2.2.1, ne_eq, not_false_eq_true, and_self, if_true, hTD, if_false, hrT,
        hfil]
    · by_cases hkD : k = date.dayNo
      · subst hkD
        simp only [hkT, false_and, if_false, if_true]
      · simp only [hkT, false_and, if_false, hkD]
        rw [hs1, record_afterForward]
        simp [hkT, hkD]

/-! ## The complete toggle by day index -/

/-- C6, as amended.  Let `e` be the entry at index `i` of the record of day `D`, where
the entries of `D` have non-empty, pairwise distinct ids and a non-zero `CreatedAt`,
and let no file operation fail.  If `e` is a Task, `CompleteDayIndex` returns no
error and replaces `e` by `e` with type Done and `CompletedAt` the current clock
reading; if `e` is Done, it replaces `e` by `e` with type Task and no `CompletedAt`.
All other fields of `e`, all other entries of `D`, their order, and the records of
all other days are unchanged. -/
theorem completeDayIndex_step (a : App) (date : Time) (i : Nat) (e : Bullet)
    (hio : a.Store.Healthy) (hi : (a.Store.record date.dayNo)[i]? = some e)
    (hst : Stamped (a.Store.record date.dayNo)) (hd : DistinctIDs (a.Store.record date.dayNo)) :
    (e.Typ = Task →
      (a.CompleteDayIndex date i).1 = none ∧
      ∀ k, (a.CompleteDayIndex date i).2.Store.record k =
        if k = date.dayNo then
          (a.Store.record date.dayNo).set i
            { e with Typ := Done, CompletedAt := some (a.Store.clock a.Store.clockUsed) }
        else a.Store.record k) ∧
    (e.Typ = Done →
      (a.CompleteDayIndex date i).1 = none ∧
      ∀ k, (a.CompleteDayIndex date i).2.Store.record k =
        if k = date.dayNo then
          (a.Store.record date.dayNo).set i { e with Typ := Task, CompletedAt := none }
        else a.Store.record k) := by
  constructor
  · intro hk
    rw [complete_task_eq a date i e hio hi hk hst hd]
    exact ⟨rfl, fun k => by simp [record_writeFile, record_timeNow, markDone]⟩
  · intro hk
    rw [complete_done_eq a date i e hio hi hk hst hd]
    exact ⟨rfl, fun k => by simp [record_writeFile, markTask]⟩

/-- Witness for C6, on the task "Buy milk" at index 0 of 2024-01-01. -/
theorem completeDayIndex_step_witness :
    ((milk "m1").Typ = Task →
      ((appOf (oneDay jan1 [milk "m1"])).CompleteDayIndex jan1 (0 : Nat)).1 = none ∧
      ∀ k, ((appOf (oneDay jan1 [milk "m1"])).CompleteDayIndex jan1 (0 : Nat)).2.Store.record k =
        if k = jan1.dayNo then
          ((appOf (oneDay jan1 [milk "m1"])).Store.record jan1.dayNo).set 0
            { milk "m1" with
              Typ := Done,
              CompletedAt := some ((appOf (oneDay jan1 [milk "m1"])).Store.clock
                (appOf (oneDay jan1 [milk "m1"])).Store.clockUsed) }
        else (appOf (oneDay jan1 [milk "m1"])).Store.record k) ∧
    ((milk "m1").Typ = Done →
      ((appOf (oneDay jan1 [milk "m1"])).CompleteDayIndex jan1 (0 : Nat)).1 = none ∧
      ∀ k, ((appOf (oneDay jan1 [milk "m1"])).CompleteDayIndex jan1 (0 : Nat)).2.Store.record k =
        if k = jan1.dayNo then
          ((appOf (oneDay jan1 [milk "m1"])).Store.record jan1.dayNo).set 0
            { milk "m1" with Typ := Task, CompletedAt := none }
        else (appOf (oneDay jan1 [milk "m1"])).Store.record k) :=
  completeDayIndex_step (appOf (oneDay jan1 [milk "m1"])) jan1 0 (milk "m1")
    (fun _ => ⟨rfl, rfl⟩) (by decide) (by decide) (by decide)

/-- C6 fails as stated, which asks nothing of the ids.  First input: the record of
2024-01-01 is the single task "Buy milk" with an empty id; completing it also gives
it a generated id.  Second input: the record is the note "Call Ann" followed by the
task "Buy milk", both with id `a`; completing index 1 overwrites the note at index
0 and leaves the task at index 1 as it was. -/
theorem completeDayIndex_step_ids :
    (((appOf (oneDay jan1 [milk ""])).CompleteDayIndex jan1 0).2.Store.record jan1.dayNo =
        [markDone (milk "1704070800000000001-0000000000000001") ⟨jan1.ns + 3600000000000⟩] ∧
      ((appOf (oneDay jan1 [milk ""])).CompleteDayIndex jan1 0).2.Store.record jan1.dayNo ≠
        [markDone (milk "") ⟨jan1.ns + 3600000000000⟩]) ∧
    (((appOf (oneDay jan1 [memo "a", milk "a"])).CompleteDayIndex jan1 1).2.Store.record jan1.dayNo =
        [markDone (milk "a") ⟨jan1.ns + 3600000000000⟩, milk "a"] ∧
      ((appOf (oneDay jan1 [memo "a", milk "a"])).CompleteDayIndex jan1 1).2.Store.record jan1.dayNo ≠
        [memo "a", markDone (milk "a") ⟨jan1.ns + 3600000000000⟩]) := by
  decide

/-- C7, as amended.  Let `e` be a Task without `CompletedAt` at index `i` of the
record of day `D`, where the entries of `D` have non-empty, pairwise distinct ids
and a non-zero `CreatedAt`, and let no file operation fail.  Two successive calls of
`CompleteDayIndex` return no error and leave the record of every day, `D` included,
equal to what it was. -/
theorem completeDayIndex_twice (a : App) (date : Time) (i : Nat) (e : Bullet)
    (hio : a.Store.Healthy) (hi : (a.Store.record date.dayNo)[i]? = some e)
    (hk : e.Typ = Task) (hc : e.CompletedAt = none)
    (hst : Stamped (a.Store.record date.dayNo)) (hd : DistinctIDs (a.Store.record date.dayNo)) :
    (a.CompleteDayIndex date i).1 = none ∧
    ((a.CompleteDayIndex date i).2.CompleteDayIndex date i).1 = none ∧
    ∀ k, ((a.CompleteDayIndex date i).2.CompleteDayIndex date i).2.Store.record k =
      a.Store.record k := by
  have he : e ∈ a.Store.record date.dayNo := List.getElem?_mem hi
  rw [complete_task_eq a date i e hio hi hk hst hd]
  have h2 := complete_done_eq
    { a with Store := ((timeNow a.Store).2.writeFile date.dayNo
        ((a.Store.record date.dayNo).set i (markDone e (a.Store.clock a.Store.clockUsed)))) }
    date i (markDone e (a.Store.clock a.Store.clockUsed))
    (healthy_writeFile (healthy_timeNow hio) _ _)
    (by simpa [record_writeFile] using getElem?_set_at _ i e (markDone e _) hi)
    rfl
    (by simpa [record_writeFile] using stamped_set hst i (markDone e _) (hst e he).1 (hst e he).2)
    (by simpa [record_writeFile] using distinct_set hd i e (markDone e _) hi rfl)
  rw [h2]
  refine ⟨rfl, rfl, fun k => ?_⟩
  have hee : markTask (markDone e (a.Store.clock a.Store.clockUsed)) = e := by
    cases e; simp_all [markTask, markDone]
  by_cases hkd : k = date.dayNo
  · subst hkd
    simp [record_writeFile, record_timeNow, hee, set_self _ i e hi]
  · simp [record_writeFile, record_timeNow, hkd]

/-- Witness for C7, on the task "Buy milk" at index 0 of 2024-01-01. -/
theorem completeDayIndex_twice_witness :
    ((appOf (oneDay jan1 [milk "m1"])).CompleteDayIndex jan1 (0 : Nat)).1 = none ∧
    (((appOf (oneDay jan1 [milk "m1"])).CompleteDayIndex jan1 (0 : Nat)).2.CompleteDayIndex
      jan1 (0 : Nat)).1 = none ∧
    ∀ k, (((appOf (oneDay jan1 [milk "m1"])).CompleteDayIndex jan1 (0 : Nat)).2.CompleteDayIndex
      jan1 (0 : Nat)).2.Store.record k = (appOf (oneDay jan1 [milk "m1"])).Store.record k :=
  completeDayIndex_twice (appOf (oneDay jan1 [milk "m1"])) jan1 0 (milk "m1")
    (fun _ => ⟨rfl, rfl⟩) (by decide) rfl rfl (by decide) (by decide)

/-- C7 fails as stated, which asks nothing of the ids.  First input: the single task
"Buy milk" with an empty id; after two calls it is a task again but carries a
generated id.  Second input: the note "Call Ann" followed by the task "Buy milk",
both with id `a`; two calls at index 1 leave a completed copy of the task where the
note was. -/
theorem completeDayIndex_twice_ids :
    ((milk "").Typ = Task ∧ (milk "").CompletedAt = none ∧
      (((appOf (oneDay jan1 [milk ""])).CompleteDayIndex jan1 0).2.CompleteDayIndex
          jan1 0).2.Store.record jan1.dayNo =
        [milk "1704070800000000001-0000000000000001"] ∧
      (((appOf (oneDay jan1 [milk ""])).CompleteDayIndex jan1 0).2.CompleteDayIndex
          jan1 0).2.Store.record jan1.dayNo ≠
        (appOf (oneDay jan1 [milk ""])).Store.record jan1.dayNo) ∧
    ((((appOf (oneDay jan1 [memo "a", milk "a"])).CompleteDayIndex jan1 1).2.CompleteDayIndex
          jan1 1).2.Store.record jan1.dayNo =
        [markDone (milk "a") ⟨jan1.ns + 3600000000001⟩, milk "a"] ∧
      (((appOf (oneDay jan1 [memo "a", milk "a"])).CompleteDayIndex jan1 1).2.CompleteDayIndex
          jan1 1).2.Store.record jan1.dayNo ≠
        (appOf (oneDay jan1 [memo "a", milk "a"])).Store.record jan1.dayNo) := by
  decide

/-! ## Toggles outside their source states -/

/-- C8.  For an index in range, each toggle returns no error and leaves the whole
application state, hence the record of every day, as it was when the selected entry
is outside the toggle's source states: `CompleteDayIndex` and `CompleteIndex` on a
type other than Task and Done, `MigrateDayIndex` and `MigrateIndex` on a type other
than Task, Event and Migrated, `ScheduleDayIndex` and `ScheduleIndex` on a type other
than Task, Event and Scheduled.  For the day-index variants the entry is the one at
index `i` of what `LoadDay` returns, for the others the one at index `i` of
`Visible()`. -/
theorem toggles_noop (L : Strings) (a : App) :
    (∀ (date : Time) (i : Nat) (items : List Bullet) (it : Bullet),
      a.Store.LoadDay (dateOnly date) = .ok items → items[i]? = some it →
      it.Typ ≠ Task → it.Typ ≠ Done → a.CompleteDayIndex date i = (none, a)) ∧
    (∀ (i : Nat) (ent : Entry), (a.Visible L)[i]? = some ent →
      ent.Item.Typ ≠ Task → ent.Item.Typ ≠ Done → a.CompleteIndex L i = (none, a)) ∧
    (∀ (date : Time) (i : Nat) (items : List Bullet) (it : Bullet),
      a.Store.LoadDay (dateOnly date) = .ok items → items[i]? = some it →
      it.Typ ≠ Task → it.Typ ≠ Event → it.Typ ≠ Migrated →
      a.MigrateDayIndex L date i = (none, a)) ∧
    (∀ (i : Nat) (ent : Entry), (a.Visible L)[i]? = some ent →
      ent.Item.Typ ≠ Task → ent.Item.Typ ≠ Event → ent.Item.Typ ≠ Migrated →
      a.MigrateIndex L i = (none, a)) ∧
    (∀ (date target : Time) (i : Nat) (items : List Bullet) (it : Bullet),
      a.Store.LoadDay (dateOnly date) = .ok items → items[i]? = some it →
      it.Typ ≠ Task → it.Typ ≠ Event → it.Typ ≠ Scheduled →
      a.ScheduleDayIndex L date i target = (none, a)) ∧
    (∀ (target : Time) (i : Nat) (ent : Entry), (a.Visible L)[i]? = some ent →
      ent.Item.Typ ≠ Task → ent.Item.Typ ≠ Event → ent.Item.Typ ≠ Scheduled →
      a.ScheduleIndex L i target = (none, a)) := by
  refine ⟨?_, ?_, ?_, ?_, ?_, ?_⟩
  · intro date i items it hl hi h1 h2
    simp only [App.CompleteDayIndex, hl, if_neg (index_ok _ i it hi), Int.toNat_ofNat, hi,
      if_neg h1, if_neg h2, ite_self]
  · intro i ent hi h1 h2
    simp only [App.CompleteIndex, if_neg (index_ok _ i ent hi), Int.toNat_ofNat, hi,
      if_neg h1, if_neg h2, ite_self]
  · intro date i items it hl hi h1 h2 h3
    simp only [App.MigrateDayIndex, hl, if_neg (index_ok _ i it hi), Int.toNat_ofNat, hi,
      if_neg h3, ne_eq, h1, h2, not_false_eq_true, and_self, if_true]
  · intro i ent hi h1 h2 h3
    simp only [App.MigrateIndex, if_neg (index_ok _ i ent hi), Int.toNat_ofNat, hi,
      if_neg h3, ne_eq, h1, h2, not_false_eq_true, and_self, if_true]
  · intro date target i items it hl hi h1 h2 h3
    simp only [App.ScheduleDayIndex, hl, if_neg (index_ok _ i it hi), Int.toNat_ofNat, hi,
      if_neg h3, ne_eq, h1, h2, not_false_eq_true, and_self, if_true]
  · intro target i ent hi h1 h2 h3
    simp only [App.ScheduleIndex, if_neg (index_ok _ i ent hi), Int.toNat_ofNat, hi,
      if_neg h3, ne_eq, h1, h2, not_false_eq_true, and_self, if_true]

/-- Witness for C8: completing the note "Call Ann" at index 0 of 2024-01-01,
twice, changes nothing. -/
theorem toggles_noop_witness :
    ((appOf (oneDay jan1 [memo "n1"])).CompleteDayIndex jan1 (0 : Nat)) =
      (none, appOf (oneDay jan1 [memo "n1"])) ∧
    ((appOf (oneDay jan1 [memo "n1"])).CompleteDayIndex jan1 (0 : Nat)).2.CompleteDayIndex jan1
      (0 : Nat) = (none, appOf (oneDay jan1 [memo "n1"])) := by
  have h := (toggles_noop asciiStrings (appOf (oneDay jan1 [memo "n1"]))).1 jan1 0
    [memo "n1"] (memo "n1") rfl rfl (by decide) (by decide)
  exact ⟨h, by rw [h]; exact h⟩
/-! ## Retyping by visible index -/

/-- C9, as amended.  Let `ent` be the entry at index `i` of `Visible()`.  Assume in
addition that the cached entry is what the store holds, that is `ent.Item` is the
entry at some index `j` of the record of the day of `ent.Date`, that the entries of
that day have non-empty, pairwise distinct ids and a non-zero `CreatedAt`, and that no
file operation fails.  Then `ChangeTypeIndex` with any type `t` returns no error and
replaces the stored entry, in place, by the entry with type `t`, with `CompletedAt`
the current clock reading when `t` is Done and absent otherwise, with `ScheduledFor`
kept when `t` is Scheduled and absent otherwise, and with the same id, text, tags and
`CreatedAt`; no other entry of any day is created, removed or modified. -/
theorem changeTypeIndex_retype (L : Strings) (a : App) (i j : Nat) (ent : Entry) (t : BulletType)
    (hio : a.Store.Healthy)
    (hv : (a.Visible L)[i]? = some ent)
    (hj : (a.Store.record ent.Date.dayNo)[j]? = some ent.Item)
    (hst : Stamped (a.Store.record ent.Date.dayNo))
    (hd : DistinctIDs (a.Store.record ent.Date.dayNo)) :
    (a.ChangeTypeIndex L i t).1 = none ∧
    ∀ k, (a.ChangeTypeIndex L i t).2.Store.record k =
      if k = ent.Date.dayNo then
        (a.Store.record ent.Date.dayNo).set j
          { ent.Item with
            Typ := t,
            CompletedAt := if t = Done then some (a.Store.clock a.Store.clockUsed) else none,
            ScheduledFor := if t = Scheduled then ent.Item.ScheduledFor else none }
      else a.Store.record k := by
  have he : ent.Item ∈ a.Store.record ent.Date.dayNo := List.getElem?_mem hj
  simp only [App.ChangeTypeIndex, if_neg (index_ok _ i ent hv), Int.toNat_ofNat, hv]
  by_cases hD : t = Done
  · have hS : t ≠ Scheduled := by rw [hD]; decide
    have hu := update_eq (healthy_timeNow hio) ent.Date
      (retyped ent.Item t (a.Store.clock a.Store.clockUsed)) ent.Item j
      (by simpa [record_timeNow] using hj) rfl (by simpa [record_timeNow] using hst)
      (by simpa [record_timeNow] using hd) (hst _ he).2
    simp only [retyped, if_pos hD, if_neg hS, record_timeNow] at hu
    simp only [if_pos hD, ne_eq, hS, not_false_eq_true, if_true, if_false]
    rw [show (timeNow a.Store).1 = a.Store.clock a.Store.clockUsed from rfl, hu]
    have hr := refresh_healthy { a with Store := ((timeNow a.Store).2.writeFile ent.Date.dayNo
      ((a.Store.record ent.Date.dayNo).set j
        { ent.Item with Typ := t, CompletedAt := some (a.Store.clock a.Store.clockUsed),
                        ScheduledFor := none })) }
      (healthy_writeFile (healthy_timeNow hio) _ _)
    simp only [thenRefresh]
    refine ⟨hr.1, fun k => ?_⟩
    rw [hr.2]
    simp [record_writeFile, record_timeNow]
  · have hu := update_eq hio ent.Date
      (retyped ent.Item t (a.Store.clock a.Store.clockUsed)) ent.Item j hj rfl hst hd (hst _ he).2
    simp only [retyped, if_neg hD] at hu
    by_cases hS : t = Scheduled
    · have hS' : ¬ (t ≠ Scheduled) := fun h => h hS
      simp only [if_pos hS] at hu
      simp only [if_neg hD, if_neg hS']
      rw [hu]
      have hr := refresh_healthy { a with Store := (a.Store.writeFile ent.Date.dayNo
        ((a.Store.record ent.Date.dayNo).set j
          { ent.Item with Typ := t, CompletedAt := none })) }
        (healthy_writeFile hio _ _)
      simp only [thenRefresh]
      refine ⟨hr.1, fun k => ?_⟩
      rw [hr.2]
      simp [record_writeFile, hS, hD]
    · have hS' : t ≠ Scheduled := hS
      simp only [if_neg hS] at hu
      simp only [if_neg hD, if_pos hS']
      rw [hu]
      have hr := refresh_healthy { a with Store := (a.Store.writeFile ent.Date.dayNo
        ((a.Store.record ent.Date.dayNo).set j
          { ent.Item with Typ := t, CompletedAt := none, ScheduledFor := none })) }
        (healthy_writeFile hio _ _)
      simp only [thenRefresh]
      refine ⟨hr.1, fun k => ?_⟩
      rw [hr.2]
      simp [record_writeFile, hS, hD]

/-- Witness for C9: after a refresh, the task "Buy milk" at visible
index 0 is retyped to Done. -/
theorem changeTypeIndex_retype_witness :
    (((appOf (oneDay jan1 [milk "m1"])).Refresh).2.ChangeTypeIndex asciiStrings (0 : Nat) Done).1 =
      none ∧
    ∀ k, (((appOf (oneDay jan1 [milk "m1"])).Refresh).2.ChangeTypeIndex asciiStrings (0 : Nat)
        Done).2.Store.record k =
      if k = (Entry.mk jan1 (milk "m1")).Date.dayNo then
        (((appOf (oneDay jan1 [milk "m1"])).Refresh).2.Store.record
            (Entry.mk jan1 (milk "m1")).Date.dayNo).set 0
          { (Entry.mk jan1 (milk "m1")).Item with
            Typ := Done,
            CompletedAt := if Done = Done then
                some (((appOf (oneDay jan1 [milk "m1"])).Refresh).2.Store.clock
                  ((appOf (oneDay jan1 [milk "m1"])).Refresh).2.Store.clockUsed)
              else none,
            ScheduledFor := if Done = Scheduled then (Entry.mk jan1 (milk "m1")).Item.ScheduledFor
              else none }
      else ((appOf (oneDay jan1 [milk "m1"])).Refresh).2.Store.record k :=
  changeTypeIndex_retype asciiStrings ((appOf (oneDay jan1 [milk "m1"])).Refresh).2 0 0
    (Entry.mk jan1 (milk "m1")) Done (fun _ => ⟨rfl, rfl⟩) (by decide) (by decide) (by decide)
    (by decide)

/-- C9 fails as stated, which asks nothing of the ids nor of the cached `Items`.  (1) The
task "Buy milk" has an empty id and `Items` is fresh: retyped to Note, the stored entry
carries a generated id.  (2) The task at visible index 1 shares the id `a` with the
note at index 0 and `Items` is fresh: retyping overwrites the note and leaves the task
as it was.  (3) `Items` still holds the task with the text "Buy milk" while the store
holds it with the text "Buy bread": retyping writes the cached text back. -/
theorem changeTypeIndex_retype_inputs :
    ((((appOf (oneDay jan1 [milk ""])).Refresh).2.Visible asciiStrings = [⟨jan1, milk ""⟩] ∧
      (((appOf (oneDay jan1 [milk ""])).Refresh).2.ChangeTypeIndex asciiStrings 0
        Note).2.Store.record jan1.dayNo =
        [{ milk "1704070800000000000-0000000000000001" with Typ := Note }] ∧
      (((appOf (oneDay jan1 [milk ""])).Refresh).2.ChangeTypeIndex asciiStrings 0
        Note).2.Store.record jan1.dayNo ≠ [{ milk "" with Typ := Note }])) ∧
    ((((appOf (oneDay jan1 [memo "a", milk "a"])).Refresh).2.Visible asciiStrings =
        [⟨jan1, memo "a"⟩, ⟨jan1, milk "a"⟩] ∧
      (((appOf (oneDay jan1 [memo "a", milk "a"])).Refresh).2.ChangeTypeIndex asciiStrings 1
        Note).2.Store.record jan1.dayNo = [{ milk "a" with Typ := Note }, milk "a"])) ∧
    ((App.Visible asciiStrings
        { appOf (oneDay jan1 [{ milk "m1" with Text := "Buy bread" }]) with
          Items := [⟨jan1, milk "m1"⟩] } = [⟨jan1, milk "m1"⟩] ∧
      (App.ChangeTypeIndex asciiStrings
        { appOf (oneDay jan1 [{ milk "m1" with Text := "Buy bread" }]) with
          Items := [⟨jan1, milk "m1"⟩] } 0 Note).2.Store.record jan1.dayNo =
        [{ milk "m1" with Typ := Note }])) := by
  decide

/-! ## The invariant `CompletedAt` present iff type Done -/

/-- C10, as amended.  If every entry of every day record has a `CompletedAt` exactly
when its type is Done and, in addition to what the claim asks, so has every entry
cached in `Items`, then the same holds of every day record, and of `Items`, in the
state left behind by any of the thirteen lifecycle operations called with any
arguments, whether the call returns an error or not, whatever the file faults, the
ids and the clock. -/
theorem completedAt_iff_done_preserved (L : Strings) (a : App) (op : Op)
    (hs : StoreOk a.Store) (hi : ItemsOk a.Items) :
    StoreOk (a.step L op).Store ∧ ItemsOk (a.step L op).Items := by
  have h : Inv a := ⟨hs, hi⟩
  cases op with
  | Add text => exact inv_add a text h
  | UpdateText index text => exact inv_updateText L a index text h
  | UpdateTagsIndex index tags => exact inv_updateTags L a index tags h
  | DeleteIndex index => exact inv_deleteIndex L a index h
  | CompleteIndex index => exact inv_completeIndex L a index h
  | MigrateIndex index => exact inv_migrateIndex L a index h
  | ScheduleIndex index date => exact inv_scheduleIndex L a index date h
  | ChangeTypeIndex index t => exact inv_changeTypeIndex L a index t h
  | DeleteDayIndex date index => exact inv_deleteDayIndex a date index h
  | UpdateDayIndexText date index text => exact inv_updateDayIndexText a date index text h
  | CompleteDayIndex date index => exact inv_completeDayIndex a date index h
  | MigrateDayIndex date index => exact inv_migrateDayIndex L a date index h
  | ScheduleDayIndex date index target => exact inv_scheduleDayIndex L a date index target h

/-- Witness for C10: the task "Buy milk" at index 0 of
2024-01-01 is completed in an application with an empty cache. -/
theorem completedAt_iff_done_preserved_witness :
    StoreOk ((appOf (oneDay jan1 [milk "m1"])).step asciiStrings (.CompleteDayIndex jan1 0)).Store ∧
    ItemsOk ((appOf (oneDay jan1 [milk "m1"])).step asciiStrings (.CompleteDayIndex jan1 0)).Items :=
  completedAt_iff_done_preserved asciiStrings (appOf (oneDay jan1 [milk "m1"]))
    (.CompleteDayIndex jan1 0) (storeOk_oneDay jan1 [milk "m1"] (by decide))
    (fun _ h => absurd h (List.not_mem_nil _))

/-- C10 fails as stated, which constrains the day records only.  The store holds the
task "Buy milk" without `CompletedAt`, while the cached `Items` hold a copy of it with
a `CompletedAt`.  `UpdateText` at visible index 0 writes the cached copy back: the
stored task now has a `CompletedAt`. -/
theorem completedAt_iff_done_stale_cache :
    StoreOk (App.mk (oneDay jan1 [milk "m1"]) jan1 PeriodDay
      [⟨jan1, { milk "m1" with CompletedAt := some jan1 }⟩] "" [] []).Store ∧
    ((App.mk (oneDay jan1 [milk "m1"]) jan1 PeriodDay
      [⟨jan1, { milk "m1" with CompletedAt := some jan1 }⟩] "" [] []).step asciiStrings
        (.UpdateText 0 "Buy bread")).Store.record jan1.dayNo =
      [{ milk "m1" with Text := "Buy bread", CompletedAt := some jan1 }] ∧
    ¬ StoreOk ((App.mk (oneDay jan1 [milk "m1"]) jan1 PeriodDay
      [⟨jan1, { milk "m1" with CompletedAt := some jan1 }⟩] "" [] []).step asciiStrings
        (.UpdateText 0 "Buy bread")).Store := by
  refine ⟨storeOk_oneDay jan1 [milk "m1"] (by decide), by decide, fun h => ?_⟩
  exact absurd (h jan1.dayNo { milk "m1" with Text := "Buy bread", CompletedAt := some jan1 }
    (by decide)) (by decide)

/-! ## The invariant `ScheduledFor` present iff type Migrated or Scheduled -/

/-- C11, as amended.  Let every entry of every day record and, in addition to what the
claim asks, every entry cached in `Items` have a `ScheduledFor` exactly when its type
is Migrated or Scheduled.  In the state left behind by any of the thirteen lifecycle
operations called with any arguments, whether the call returns an error or not, every
entry of every day record, and of `Items`, that has a `ScheduledFor` has type Migrated
or Scheduled; and unless the call is a retype to Migrated or to Scheduled, every such
entry of type Migrated or Scheduled has a `ScheduledFor` as well. -/
theorem scheduledFor_iff_forwarded_preserved (L : Strings) (a : App) (op : Op)
    (hs : StoreAll ScheduledOk a.Store) (hi : ItemsAll ScheduledOk a.Items) :
    (StoreAll ScheduledImp (a.step L op).Store ∧ ItemsAll ScheduledImp (a.step L op).Items) ∧
    (¬ op.retypesToForwarded →
      StoreAll ScheduledOk (a.step L op).Store ∧ ItemsAll ScheduledOk (a.step L op).Items) := by
  constructor
  · have h1 : InvAll ScheduledImp a :=
      ⟨fun k b hb => (hs k b hb).1, fun e he => (hi e he).1⟩
    have hre : RetypeKeeps ScheduledImp op := by
      cases op <;> first
        | exact trivial
        | exact fun b now _ => retype_scheduledImp b _ now
    exact all_step lifecycle_scheduledImp L a op hre h1
  · intro hop
    have hre : RetypeKeeps ScheduledOk op := by
      cases op <;> first
        | exact trivial
        | exact fun b now _ => retype_scheduledOk b _ now hop
    exact all_step lifecycle_scheduledOk L a op hre ⟨hs, hi⟩

/-- Witness for C11: the task "Buy milk" at index 0 of 2024-01-01, held by the store
and by the cache, is migrated by day index. -/
theorem scheduledFor_iff_forwarded_preserved_witness :
    (StoreAll ScheduledImp (cachedOne.step asciiStrings (.MigrateDayIndex jan1 0)).Store ∧
      ItemsAll ScheduledImp (cachedOne.step asciiStrings (.MigrateDayIndex jan1 0)).Items) ∧
    (StoreAll ScheduledOk (cachedOne.step asciiStrings (.MigrateDayIndex jan1 0)).Store ∧
      ItemsAll ScheduledOk (cachedOne.step asciiStrings (.MigrateDayIndex jan1 0)).Items) :=
  ⟨(scheduledFor_iff_forwarded_preserved asciiStrings cachedOne (.MigrateDayIndex jan1 0)
      (storeAll_oneDay jan1 [milk "m1"] (by decide)) (by decide)).1,
    (scheduledFor_iff_forwarded_preserved asciiStrings cachedOne (.MigrateDayIndex jan1 0)
      (storeAll_oneDay jan1 [milk "m1"] (by decide)) (by decide)).2 (fun h => h)⟩

/-- C11 fails as stated, in two ways.  First, with the store and a fresh cache holding
the task "Buy milk", which has no `ScheduledFor`, `ChangeTypeIndex` to Migrated at
visible index 0 leaves a stored entry of type Migrated without `ScheduledFor`.
Second, with the same store and a cached copy of the task that carries a
`ScheduledFor`, `UpdateText` at visible index 0 writes the cached copy back: the
stored task now has a `ScheduledFor`. -/
theorem scheduledFor_iff_forwarded_retype :
    (StoreAll ScheduledOk cachedOne.Store ∧ ItemsAll ScheduledOk cachedOne.Items ∧
      (cachedOne.step asciiStrings (.ChangeTypeIndex 0 Migrated)).Store.record jan1.dayNo
        = [{ milk "m1" with Typ := Migrated }] ∧
      ¬ StoreAll ScheduledOk (cachedOne.step asciiStrings (.ChangeTypeIndex 0 Migrated)).Store) ∧
    (StoreAll ScheduledOk (App.mk (oneDay jan1 [milk "m1"]) jan1 PeriodDay
        [⟨jan1, { milk "m1" with ScheduledFor := some jan2 }⟩] "" [] []).Store ∧
      ((App.mk (oneDay jan1 [milk "m1"]) jan1 PeriodDay
        [⟨jan1, { milk "m1" with ScheduledFor := some jan2 }⟩] "" [] []).step asciiStrings
          (.UpdateText 0 "Buy bread")).Store.record jan1.dayNo
        = [{ milk "m1" with Text := "Buy bread", ScheduledFor := some jan2 }] ∧
      ¬ StoreAll ScheduledImp ((App.mk (oneDay jan1 [milk "m1"]) jan1 PeriodDay
        [⟨jan1, { milk "m1" with ScheduledFor := some jan2 }⟩] "" [] []).step asciiStrings
          (.UpdateText 0 "Buy bread")).Store) := by
  refine ⟨⟨storeAll_oneDay jan1 [milk "m1"] (by decide), by decide, by decide, fun h => ?_⟩,
    ⟨storeAll_oneDay jan1 [milk "m1"] (by decide), by decide, fun h => ?_⟩⟩
  · exact absurd (h jan1.dayNo { milk "m1" with Typ := Migrated } (by decide)) (by decide)
  · exact absurd (h jan1.dayNo { milk "m1" with Text := "Buy bread", ScheduledFor := some jan2 }
      (by decide)) (by decide)

/-! ## Indices out of range -/

/-- C12.  For every index `i` below 0 or at least the length of `Visible()`, each of
`UpdateText`, `DeleteIndex`, `CompleteIndex`, `MigrateIndex`, `ScheduleIndex`,
`ChangeTypeIndex` and `UpdateTagsIndex` returns no error and leaves the whole
application state, hence every day record, as it was.  For every date whose `LoadDay`
succeeds and every `i` below 0 or at least the length of what it returns, the same
holds of `DeleteDayIndex`, `UpdateDayIndexText`, `CompleteDayIndex`, `MigrateDayIndex`
and `ScheduleDayIndex`; when that `LoadDay` fails they return its error and leave the
state as it was. -/
theorem index_out_of_range_noop (L : Strings) (a : App) (i : Int) :
    (i < 0 ∨ i ≥ (a.Visible L).length →
      (∀ text, a.UpdateText L i text = (none, a)) ∧
      a.DeleteIndex L i = (none, a) ∧
      a.CompleteIndex L i = (none, a) ∧
      a.MigrateIndex L i = (none, a) ∧
      (∀ date, a.ScheduleIndex L i date = (none, a)) ∧
      (∀ t, a.ChangeTypeIndex L i t = (none, a)) ∧
      (∀ tags, a.UpdateTagsIndex L i tags = (none, a))) ∧
    (∀ (date : Time) (items : List Bullet),
      a.Store.LoadDay (dateOnly date) = .ok items → i < 0 ∨ i ≥ items.length →
      a.DeleteDayIndex date i = (none, a) ∧
      (∀ text, a.UpdateDayIndexText date i text = (none, a)) ∧
      a.CompleteDayIndex date i = (none, a) ∧
      a.MigrateDayIndex L date i = (none, a) ∧
      (∀ target, a.ScheduleDayIndex L date i target = (none, a))) ∧
    (∀ (date : Time) (err : Err),
      a.Store.LoadDay (dateOnly date) = .error err →
      a.DeleteDayIndex date i = (some err, a) ∧
      (∀ text, a.UpdateDayIndexText date i text = (some err, a)) ∧
      a.CompleteDayIndex date i = (some err, a) ∧
      a.MigrateDayIndex L date i = (some err, a) ∧
      (∀ target, a.ScheduleDayIndex L date i target = (some err, a))) := by
  refine ⟨?_, ?_, ?_⟩
  · intro h
    refine ⟨?_, ?_, ?_, ?_, ?_, ?_, ?_⟩
    · intro text
      simp only [App.UpdateText, if_pos h]
    · simp only [App.DeleteIndex, if_pos h]
    · simp only [App.CompleteIndex, if_pos h]
    · simp only [App.MigrateIndex, if_pos h]
    · intro date
      simp only [App.ScheduleIndex, if_pos h]
    · intro t
      simp only [App.ChangeTypeIndex, if_pos h]
    · intro tags
      simp only [App.UpdateTagsIndex, if_pos h]
  · intro date items hl h
    refine ⟨?_, ?_, ?_, ?_, ?_⟩
    · simp only [App.DeleteDayIndex, hl, if_pos h]
    · intro text
      simp only [App.UpdateDayIndexText, hl, if_pos h]
    · simp only [App.CompleteDayIndex, hl, if_pos h]
    · simp only [App.MigrateDayIndex, hl, if_pos h]
    · intro target
      simp only [App.ScheduleDayIndex, hl, if_pos h]
  · intro date err hl
    refine ⟨?_, ?_, ?_, ?_, ?_⟩
    · simp only [App.DeleteDayIndex, hl]
    · intro text
      simp only [App.UpdateDayIndexText, hl]
    · simp only [App.CompleteDayIndex, hl]
    · simp only [App.MigrateDayIndex, hl]
    · intro target
      simp only [App.ScheduleDayIndex, hl]

/-- Witness for C12: with one visible entry and one stored entry on 2024-01-01,
index 1 deletes nothing by visible index, and index -1 deletes nothing by day index. -/
theorem index_out_of_range_noop_witness :
    cachedOne.DeleteIndex asciiStrings 1 = (none, cachedOne) ∧
    cachedOne.DeleteDayIndex jan1 (-1) = (none, cachedOne) :=
  ⟨((index_out_of_range_noop asciiStrings cachedOne 1).1 (by decide)).2.1,
    ((index_out_of_range_noop asciiStrings cachedOne (-1)).2.1 jan1 [milk "m1"] rfl
      (by decide)).1⟩

/-! ## The filters -/

/-- C13.  `Visible()` is the sublist of `Items`, in the order of `Items`, of exactly
the entries that pass the three tests of the specification; an entry is in
`Visible()` if and only if it is in `Items` and passes them.  This holds of every
application state.  In a filter map all of whose stored values are true, as the
setters build them, the map reads true at a key exactly when the key is present. -/
theorem visible_filter (L : Strings) (a : App) :
    a.Visible L = a.Items.filter (fun e => decide (passesSpec L a e)) ∧
    (a.Visible L).Sublist a.Items ∧
    (∀ e, e ∈ a.Visible L ↔ e ∈ a.Items ∧ passesSpec L a e) ∧
    ((∀ p ∈ a.TypeFilter, p.2 = true) →
      ∀ k, a.TypeFilter.get k = true ↔ ∃ p ∈ a.TypeFilter, p.1 = k) ∧
    ((∀ p ∈ a.TagFilter, p.2 = true) →
      ∀ k, a.TagFilter.get k = true ↔ ∃ p ∈ a.TagFilter, p.1 = k) := by
  have h : a.Visible L = a.Items.filter (fun e => decide (passesSpec L a e)) := by
    unfold App.Visible
    apply List.filter_congr
    intro e _
    by_cases hp : passesSpec L a e
    · simp [hp, (matchEntry_iff L a e).2 hp]
    · have : ¬ a.matchEntry L e = true := fun hm => hp ((matchEntry_iff L a e).1 hm)
      simp [hp, this]
  refine ⟨h, ?_, ?_, ?_, ?_⟩
  · exact List.filter_sublist _
  · intro e
    rw [h, List.mem_filter]
    simp
  · intro hv k
    exact boolMap_get_iff a.TypeFilter k hv
  · intro hv k
    exact boolMap_get_iff a.TagFilter k hv

/-- Witness for C13: with the tag filter `home`, of the three cached entries only
the task tagged `#Home` is visible. -/
theorem visible_filter_witness :
    ({ cachedApp with TagFilter := [("home", true)] }).Visible asciiStrings
      = [⟨jan1, taggedMilk⟩] :=
  (visible_filter asciiStrings { cachedApp with TagFilter := [("home", true)] }).1.trans
    (by decide)

/-- C14.  Let `s` and `t` be application states with the same `Items`.  If `t`
differs from `s` only in a non-empty text filter where `s` has the empty one, or only
in a non-empty type filter where `s` has the empty one, or only in a non-empty tag
filter where `s` has the empty one, then `Visible()` of `t` is a sublist of
`Visible()` of `s`, and is at most as long. -/
theorem visible_monotone (L : Strings) (s : App) :
    (∀ q : String, s.TextFilter = "" → q ≠ "" →
      (({ s with TextFilter := q }).Visible L).Sublist (s.Visible L) ∧
      (({ s with TextFilter := q }).Visible L).length ≤ (s.Visible L).length) ∧
    (∀ m : BoolMap BulletType, s.TypeFilter.length = 0 → m.length > 0 →
      (({ s with TypeFilter := m }).Visible L).Sublist (s.Visible L) ∧
      (({ s with TypeFilter := m }).Visible L).length ≤ (s.Visible L).length) ∧
    (∀ m : BoolMap String, s.TagFilter.length = 0 → m.length > 0 →
      (({ s with TagFilter := m }).Visible L).Sublist (s.Visible L) ∧
      (({ s with TagFilter := m }).Visible L).length ≤ (s.Visible L).length) := by
  refine ⟨?_, ?_, ?_⟩
  · intro q hs _
    have h : (({ s with TextFilter := q }).Visible L).Sublist (s.Visible L) := by
      unfold App.Visible
      apply filter_sublist_of_imp
      intro e he
      rw [matchEntry_iff] at he ⊢
      exact ⟨Or.inl hs, he.2⟩
    exact ⟨h, h.length_le⟩
  · intro m hs _
    have h : (({ s with TypeFilter := m }).Visible L).Sublist (s.Visible L) := by
      unfold App.Visible
      apply filter_sublist_of_imp
      intro e he
      rw [matchEntry_iff] at he ⊢
      exact ⟨he.1, Or.inl hs, he.2.2⟩
    exact ⟨h, h.length_le⟩
  · intro m hs _
    have h : (({ s with TagFilter := m }).Visible L).Sublist (s.Visible L) := by
      unfold App.Visible
      apply filter_sublist_of_imp
      intro e he
      rw [matchEntry_iff] at he ⊢
      exact ⟨he.1, he.2.1, Or.inl hs⟩
    exact ⟨h, h.length_le⟩

/-- Witness for C14: setting the type filter to Note on the unfiltered cache of
three entries leaves a sublist of the three, of length at most three. -/
theorem visible_monotone_witness :
    (({ cachedApp with TypeFilter := [(Note, true)] }).Visible asciiStrings).Sublist
      (cachedApp.Visible asciiStrings) ∧
    (({ cachedApp with TypeFilter := [(Note, true)] }).Visible asciiStrings).length
      ≤ (cachedApp.Visible asciiStrings).length :=
  (visible_monotone asciiStrings cachedApp).2.1 [(Note, true)] rfl (by decide)

/-! ## The date window -/

/-- What `Refresh` collects in a zone without offset change.
Let the window of the application run from day `S` to day `E`.  If no day
file from `S` to `E` fails to be read, `Refresh` returns no error, whether or not
those days have a file.  Whenever `Refresh` returns no error it changes nothing but
`Items`, which become the concatenation, over the days from `S` to `E` in ascending
order, of the day's record in stored order, each entry paired with the midnight of
its day; a day without a file has the empty record and contributes nothing; every
collected entry belongs to a day of the window and to the record of that day. -/
theorem decoded_refresh_collects (a : App) :
    ((∀ k, a.dateRange.Start.dayNo ≤ k → k ≤ a.dateRange.End.dayNo →
        a.Store.readErr k = false) → (a.Refresh).1 = none) ∧
    ((a.Refresh).1 = none →
      (a.Refresh).2 = { a with Items := (collectSpec a.Store a.dateRange.Start.dayNo
        a.dateRange.End.dayNo) } ∧
      (∀ k, a.Store.files k = none → a.Store.record k = []) ∧
      (∀ e ∈ (a.Refresh).2.Items, a.dateRange.Start.dayNo ≤ e.Date.dayNo ∧
        e.Date.dayNo ≤ a.dateRange.End.dayNo ∧ e.Date = dateOnly e.Date ∧
        e.Item ∈ a.Store.record e.Date.dayNo)) := by
  have hm := (dateRange_midnight a).1
  constructor
  · intro h
    obtain ⟨entries, he⟩ := collectDays_succeeds a.Store a.dateRange.End.dayNo
      (a.dateRange.End.dayNo - a.dateRange.Start.dayNo + 1).toNat a.dateRange.Start.dayNo h
    rw [refresh_ok a _ _ entries hm he]
  · intro h
    cases he : collectDays a.Store (Time.ofDay a.dateRange.End.dayNo)
      (a.dateRange.End.dayNo - a.dateRange.Start.dayNo + 1).toNat
      (Time.ofDay a.dateRange.Start.dayNo) with
    | error e =>
      rw [refresh_error a _ _ e hm he] at h
      cases h
    | ok entries =>
      rw [refresh_ok a _ _ entries hm he]
      have hs := collectDays_spec a.Store _ _ _ entries (le_refl _) he
      subst hs
      refine ⟨rfl, ?_, ?_⟩
      · intro k hk
        simp [FSStore.record, hk]
      · intro e hmem
        simp only [collectSpec, List.mem_flatMap, List.mem_map] at hmem
        obtain ⟨k, hk, it, hit, rfl⟩ := hmem
        rw [mem_windowDays] at hk
        simp only [dayNo_ofDay, dateOnly_ofDay]
        exact ⟨hk.1, by omega, trivial, hit⟩

/-! ## The store operations -/

/-- Appending to a day file that ends in a newline.
After a successful `Append(date, e)` the record of the day is the previous
record followed by exactly one entry `e1`, and `LoadDay(date)`, when it succeeded
before, returns its previous result followed by `e1`.  The entry `e1` equals `e`
field for field, except that its id is a generated non-empty id when that of `e` was
empty and its `CreatedAt` is the reading of the clock taken right then when that of
`e` was zero.  The files of all other days are unchanged.  A day file is modelled as
the list of the entries its lines decode to. -/
theorem decoded_append_roundTrip (s : FSStore) (date : Time) (e : Bullet)
    (h : (s.Append date e).1 = none) :
    ∃ e1, Normalizes s e e1 ∧
      (e.CreatedAt.IsZero = true →
        e1.CreatedAt = s.clock (s.clockUsed + if e.ID = "" then 1 else 0)) ∧
      (s.Append date e).2.record date.dayNo = s.record date.dayNo ++ [e1] ∧
      (∀ items, s.LoadDay date = .ok items →
        (s.Append date e).2.LoadDay date = .ok (items ++ [e1])) ∧
      (∀ k, k ≠ date.dayNo → (s.Append date e).2.files k = s.files k) := by
  rw [append_result] at h ⊢
  by_cases hw : s.writeErr date.dayNo = true
  · rw [if_pos hw] at h
    cases h
  · rw [if_neg hw]
    refine ⟨(stamp s e).1, normalizes_stamp s s e rfl rfl (le_refl _), ?_, ?_, ?_, ?_⟩
    · intro hz
      rw [stamp_createdAt, if_pos hz]
    · rw [record_writeFile]
      simp
    · intro items hl
      obtain ⟨hr, rfl⟩ := loadDay_ok s date items hl
      apply loadDay_writeFile
      rw [(stamp_files s e).2.1]
      exact hr
    · intro k hk
      rw [files_writeFile _ _ _ _ hk, (stamp_files s e).1]

/-- C18.  After a successful `SaveDay(date, items)` the record of the day, which is
what `LoadDay(date)` returns when the file can be read, has the length of `items`;
its `k`-th entry equals `items[k]` field for field, except that an empty id is
replaced by a generated non-empty id and a zero `CreatedAt` by a reading of the clock
taken during the call; an entry that had an id and a `CreatedAt` is stored unchanged
at its position; the result does not depend on what the day file held before; the
files of all other days are unchanged. -/
theorem saveDay_normalizes (s : FSStore) (date : Time) (items : List Bullet)
    (h : (s.SaveDay date items).1 = none) :
    ∃ out, (s.SaveDay date items).2.record date.dayNo = out ∧
      (s.readErr date.dayNo = false → (s.SaveDay date items).2.LoadDay date = .ok out) ∧
      out.length = items.length ∧
      (∀ (k : Nat) (b : Bullet), items[k]? = some b → ∃ b1, out[k]? = some b1 ∧ Normalizes s b b1) ∧
      (∀ (k : Nat) (b : Bullet), items[k]? = some b → b.ID ≠ "" → b.CreatedAt.IsZero = false →
        out[k]? = some b) ∧
      (∀ old, ((s.writeFile date.dayNo old).SaveDay date items).2.record date.dayNo = out) ∧
      (∀ k, k ≠ date.dayNo → (s.SaveDay date items).2.files k = s.files k) := by
  have hw : ¬ s.writeErr date.dayNo = true := by
    intro hw
    rw [saveDay_result, if_pos hw] at h
    cases h
  have hsp := stampAll_spec s items
  have hpt : ∀ (k : Nat) (b : Bullet), items[k]? = some b →
      ∃ b1, (stampAll s items).1[k]? = some b1 ∧ Normalizes s b b1 := by
    intro k b hk
    obtain ⟨s0, h0, hc, he, hle⟩ := stampAll_get s items k b hk
    exact ⟨_, h0, normalizes_stamp s s0 b hc he hle⟩
  refine ⟨(stampAll s items).1, ?_, ?_, stampAll_length s items, hpt, ?_, ?_, ?_⟩
  · rw [saveDay_result, if_neg hw, record_writeFile]
    simp
  · intro hr
    rw [saveDay_result, if_neg hw]
    apply loadDay_writeFile
    rw [hsp.2.1]
    exact hr
  · intro k b hk h1 h2
    obtain ⟨b1, hb1, hn⟩ := hpt k b hk
    rw [hb1, normalizes_eq s b b1 hn h1 h2]
  · intro old
    have hw2 : ¬ (s.writeFile date.dayNo old).writeErr date.dayNo = true := hw
    rw [saveDay_result, if_neg hw2, record_writeFile, stampAll_writeFile]
    simp
  · intro k hk
    rw [saveDay_result, if_neg hw, files_writeFile _ _ _ _ hk, hsp.1]

/-- Witness for C18: saving the task "Buy milk" without id and creation time,
followed by a stamped task, over a day that held a note, leaves two entries: the
first with a generated id and the time of the clock, the second as given. -/
theorem saveDay_normalizes_witness :
    (∃ out, ((oneDay jan1 [memo "n1"]).SaveDay jan1 [bareMilk, milk "m2"]).2.record jan1.dayNo
        = out ∧
      ((oneDay jan1 [memo "n1"]).readErr jan1.dayNo = false →
        ((oneDay jan1 [memo "n1"]).SaveDay jan1 [bareMilk, milk "m2"]).2.LoadDay jan1
          = .ok out) ∧
      out.length = [bareMilk, milk "m2"].length ∧
      (∀ (k : Nat) (b : Bullet), [bareMilk, milk "m2"][k]? = some b →
        ∃ b1, out[k]? = some b1 ∧ Normalizes (oneDay jan1 [memo "n1"]) b b1) ∧
      (∀ (k : Nat) (b : Bullet), [bareMilk, milk "m2"][k]? = some b → b.ID ≠ "" → b.CreatedAt.IsZero = false →
        out[k]? = some b) ∧
      (∀ old, (((oneDay jan1 [memo "n1"]).writeFile jan1.dayNo old).SaveDay jan1
        [bareMilk, milk "m2"]).2.record jan1.dayNo = out) ∧
      (∀ k, k ≠ jan1.dayNo →
        ((oneDay jan1 [memo "n1"]).SaveDay jan1 [bareMilk, milk "m2"]).2.files k
          = (oneDay jan1 [memo "n1"]).files k)) ∧
    ((oneDay jan1 [memo "n1"]).SaveDay jan1 [bareMilk, milk "m2"]).2.record jan1.dayNo =
      [{ ID := "1704070800000000000-0000000000000001", Typ := Task, Text := "Buy milk",
         Tags := [], CreatedAt := ⟨jan1.ns + 3600000000001⟩, ScheduledFor := none,
         CompletedAt := none, Highlight := "" }, milk "m2"] :=
  ⟨saveDay_normalizes (oneDay jan1 [memo "n1"]) jan1 [bareMilk, milk "m2"] (by decide),
    by decide⟩

/-- C20, as amended.  Let the stored entries of the day have pairwise distinct
non-empty ids and, in addition to what the claim asks, a non-zero `CreatedAt`.
`Delete(date, x)` succeeds exactly when the day file can be read and written, whether
or not an id matches.  After a successful call the record, which is what
`LoadDay(date)` returns, is the previous record without the entry whose id is `x`,
the remaining entries in their previous order; if no stored entry has the id `x`, the
record is what it was. -/
theorem delete_by_id (s : FSStore) (date : Time) (x : String)
    (hst : Stamped (s.record date.dayNo)) (hd : DistinctIDs (s.record date.dayNo)) :
    ((s.Delete date x).1 = none ↔
      s.readErr date.dayNo = false ∧ s.writeErr date.dayNo = false) ∧
    ((s.Delete date x).1 = none →
      (s.Delete date x).2.LoadDay date = .ok ((s.Delete date x).2.record date.dayNo) ∧
      (s.Delete date x).2.record date.dayNo
        = (s.record date.dayNo).filter (fun it => it.ID ≠ x) ∧
      (∀ (i : Nat) (e : Bullet), (s.record date.dayNo)[i]? = some e → e.ID = x →
        (s.Delete date x).2.record date.dayNo = (s.record date.dayNo).eraseIdx i) ∧
      ((∀ e ∈ s.record date.dayNo, e.ID ≠ x) →
        (s.Delete date x).2.record date.dayNo = s.record date.dayNo)) := by
  have hf : Stamped ((s.record date.dayNo).filter fun it => it.ID ≠ x) := stamped_filter hst _
  have hu : s.Delete date x =
      if s.readErr date.dayNo = true then (some (.read date.dayNo), s)
      else if s.writeErr date.dayNo = true then (some (.write date.dayNo), s)
      else (none, s.writeFile date.dayNo ((s.record date.dayNo).filter fun it => it.ID ≠ x)) := by
    unfold FSStore.Delete
    rw [loadDay_cases]
    by_cases hr : s.readErr date.dayNo = true
    · simp only [hr, if_true]
    · have hr1 : s.readErr date.dayNo = false := by simpa using hr
      simp only [hr1, Bool.false_eq_true, if_false]
      rw [saveDay_result, stampAll_eq_self s _ hf]
  constructor
  · rw [hu]
    by_cases hr : s.readErr date.dayNo = true <;> by_cases hw : s.writeErr date.dayNo = true <;>
      simp [hr, hw]
  · intro h
    have hr : ¬ s.readErr date.dayNo = true := by
      intro hr
      rw [hu, if_pos hr] at h
      cases h
    have hw : ¬ s.writeErr date.dayNo = true := by
      intro hw
      rw [hu, if_neg hr, if_pos hw] at h
      cases h
    have hrec : (s.Delete date x).2.record date.dayNo
        = (s.record date.dayNo).filter (fun it => it.ID ≠ x) := by
      rw [hu, if_neg hr, if_neg hw, record_writeFile]
      simp
    refine ⟨?_, hrec, ?_, ?_⟩
    · rw [hrec, hu, if_neg hr, if_neg hw]
      exact loadDay_writeFile s date _ (by simpa using hr)
    · intro i e hi hid
      rw [hrec, ← hid]
      exact filter_id_eraseIdx _ i e hd hi
    · intro hno
      rw [hrec]
      exact filter_id_none _ x hno

/-- Witness for C20: deleting the id "n1" from a day holding the stamped task "m1"
and the stamped note "n1" leaves the task. -/
theorem delete_by_id_witness :
    ((oneDay jan1 [milk "m1", memo "n1"]).Delete jan1 "n1").2.record jan1.dayNo
      = [milk "m1"] :=
  (((delete_by_id (oneDay jan1 [milk "m1", memo "n1"]) jan1 "n1" (by decide) (by decide)).2
    (by decide)).2.2.1 1 (memo "n1") rfl rfl).trans (by decide)

/-- C20 fails as stated.  The day holds a task without `CreatedAt` and a note; their
ids "m1" and "n1" are distinct and non-empty.  Deleting "n1" succeeds, but what is
left is not the previous record without the note: the task now has a `CreatedAt`.
Deleting the absent id "zz" succeeds too and changes the record in the same way. -/
theorem delete_by_id_zero_createdAt :
    DistinctIDs ((oneDay jan1 [{ milk "m1" with CreatedAt := Time.zero }, memo "n1"]).record
      jan1.dayNo) ∧
    (∀ b ∈ (oneDay jan1 [{ milk "m1" with CreatedAt := Time.zero }, memo "n1"]).record
      jan1.dayNo, b.ID ≠ "") ∧
    ((oneDay jan1 [{ milk "m1" with CreatedAt := Time.zero }, memo "n1"]).Delete jan1 "n1").1
      = none ∧
    ((oneDay jan1 [{ milk "m1" with CreatedAt := Time.zero }, memo "n1"]).Delete jan1
      "n1").2.record jan1.dayNo ≠ [{ milk "m1" with CreatedAt := Time.zero }] ∧
    ((oneDay jan1 [{ milk "m1" with CreatedAt := Time.zero }, memo "n1"]).Delete jan1 "zz").1
      = none ∧
    ((oneDay jan1 [{ milk "m1" with CreatedAt := Time.zero }, memo "n1"]).Delete jan1
      "zz").2.record jan1.dayNo
      ≠ (oneDay jan1 [{ milk "m1" with CreatedAt := Time.zero }, memo "n1"]).record
        jan1.dayNo := by
  decide

/-! ## Lemmas on what the operations depend on -/

theorem refresh_store (a : App) : (a.Refresh).2.Store = a.Store := by
  unfold App.Refresh
  simp only []
  split <;> rfl

theorem thenRefresh_store (a : App) (r : Option Err × FSStore) :
    (thenRefresh a r).2.Store = r.2 := by
  unfold thenRefresh
  split
  · rfl
  · rw [refresh_store]

theorem thenReturn_store (a : App) (r : Option Err × FSStore) :
    (thenReturn a r).2.Store = r.2 := rfl

/-! ## Lemmas on the steps of `SaveDay` -/

theorem encodeLoop_fail (fault : Option SaveFault) (k : Nat) (d : Disk) (items : List Bullet)
    (t : List Bullet) (ts : List (List Bullet)) (ht : d.temps = t :: ts) :
    (encodeLoop fault k d items).2.store.files = d.store.files ∧
      (encodeLoop fault k d items).2.store.readErr = d.store.readErr ∧
      (encodeLoop fault k d items).2.store.writeErr = d.store.writeErr ∧
      (encodeLoop fault k d items).2.temps.tail = ts := by
  induction items generalizing k d t with
  | nil => simp [encodeLoop, ht]
  | cons it rest ih =>
    have hf := stamp_files d.store it
    unfold encodeLoop
    simp only []
    split
    · exact ⟨hf.1, hf.2.1, hf.2.2, by simp [ht]⟩
    · have h := ih (k + 1) (Disk.writeTemp { d with store := (stamp d.store it).2 }
        (stamp d.store it).1) (t ++ [(stamp d.store it).1]) (by simp [Disk.writeTemp, ht])
      simp only [Disk.writeTemp, ht] at h ⊢
      exact ⟨h.1.trans hf.1, h.2.1.trans hf.2.1, h.2.2.1.trans hf.2.2, h.2.2.2⟩

theorem encodeLoop_done (fault : Option SaveFault) (k : Nat) (d : Disk) (items : List Bullet)
    (t : List Bullet) (ts : List (List Bullet)) (ht : d.temps = t :: ts)
    (hf : ∀ j, k ≤ j → j < k + items.length → fault ≠ some (.encode j)) :
    encodeLoop fault k d items =
      (true, { store := (stampAll d.store items).2,
               temps := (t ++ (stampAll d.store items).1) :: ts }) := by
  induction items generalizing k d t with
  | nil =>
    cases d
    simp_all [encodeLoop, stampAll]
  | cons it rest ih =>
    have h0 := hf k (le_refl _) (by simp)
    unfold encodeLoop
    simp only [if_neg h0]
    rw [ih (k + 1) _ (t ++ [(stamp d.store it).1]) (by simp [Disk.writeTemp, ht])
      (fun j h1 h2 => hf j (by omega) (by simp; omega))]
    simp [Disk.writeTemp, ht, stampAll]

theorem encodeLoop_stops (fault : Option SaveFault) (k : Nat) (d : Disk) (items : List Bullet)
    (j : Nat) (h1 : k ≤ j) (h2 : j < k + items.length) (hf : fault = some (.encode j)) :
    (encodeLoop fault k d items).1 = false := by
  induction items generalizing k d with
  | nil => simp at h2; omega
  | cons it rest ih =>
    unfold encodeLoop
    simp only []
    by_cases hk : fault = some (.encode k)
    · simp [hk]
    · have hjk : j ≠ k := by
        intro h
        rw [h] at hf
        exact hk hf
      simp only [if_neg hk]
      exact ih (k + 1) _ (by omega) (by simp at h2; omega)

/-! ## Lemmas on the bytes of a day file -/

theorem readBytes_line (bad : Bool) (l left : List Nat) (hl : ∀ c ∈ l, c ≠ 10) :
    readBytes bad (l ++ 10 :: left) = (l ++ [10], left, .delim) := by
  induction l with
  | nil => simp [readBytes]
  | cons c rest ih =>
    have hc : c ≠ 10 := hl c (List.mem_cons_self _ _)
    simp [readBytes, hc, ih (fun x hx => hl x (List.mem_cons_of_mem _ hx))]

theorem readBytes_last (bad : Bool) (l : List Nat) (hl : ∀ c ∈ l, c ≠ 10) :
    readBytes bad l = (l, [], if bad then .fault else .eof) := by
  induction l with
  | nil => simp [readBytes]
  | cons c rest ih =>
    have hc : c ≠ 10 := hl c (List.mem_cons_self _ _)
    simp [readBytes, hc, ih (fun x hx => hl x (List.mem_cons_of_mem _ hx))]

theorem trim_line (l : List Nat) : bytesTrimRightNewline (l ++ [10]) = l := by
  simp [bytesTrimRightNewline]

theorem loadLoop_lines (Unmarshal : List Nat → Option Bullet) (day : Int)
    (lines : List (List Nat)) (last : List Nat)
    (hl : ∀ l ∈ lines, ∀ c ∈ l, c ≠ 10) (hlast : ∀ c ∈ last, c ≠ 10)
    (fuel : Nat) (out : List Bullet) (hfuel : (fileOfLines lines ++ last).length + 1 ≤ fuel) :
    loadLoop Unmarshal false day fuel (fileOfLines lines ++ last) out =
      (out ++ decodeLines Unmarshal lines ++
        (if last = [] then [] else (Unmarshal (bytesTrimRightNewline last)).toList), none) := by
  induction lines generalizing fuel out with
  | nil =>
    obtain ⟨n, rfl⟩ : ∃ n, fuel = n + 1 := ⟨fuel - 1, by omega⟩
    simp only [fileOfLines, List.flatMap_nil, List.nil_append, loadLoop,
      readBytes_last false last hlast, decodeLines, List.filterMap_nil, List.append_nil]
    by_cases h0 : last = []
    · simp [h0]
    · have hpos : last.length > 0 := List.length_pos.2 h0
      simp only [hpos, if_true, h0, if_false]
      cases Unmarshal (bytesTrimRightNewline last) <;> simp
  | cons l ls ih =>
    obtain ⟨n, rfl⟩ : ∃ n, fuel = n + 1 := ⟨fuel - 1, by omega⟩
    have hd : fileOfLines (l :: ls) ++ last = l ++ 10 :: (fileOfLines ls ++ last) := by
      simp [fileOfLines]
    have hlen : (fileOfLines ls ++ last).length + 1 ≤ n := by
      rw [hd] at hfuel
      simp at hfuel ⊢
      omega
    rw [hd]
    simp only [loadLoop, readBytes_line false l _ (hl l (List.mem_cons_self _ _)), trim_line]
    have hpos : (l ++ [10]).length > 0 := by simp
    simp only [hpos, if_true]
    have hne1 : ¬ (ReadEnd.delim = ReadEnd.eof) := by decide
    have hne2 : ¬ (ReadEnd.delim = ReadEnd.fault) := by decide
    simp only [hne1, hne2, if_false]
    rw [ih (fun x hx => hl x (List.mem_cons_of_mem _ hx)) n _ hlen]
    cases hU : Unmarshal l <;> simp [decodeLines, hU]

/-! ## Lemmas relating the visible-index and the day-index operations -/

theorem deleteIndex_store (L : Strings) (a : App) (j j1 : Nat) (D : Int) (it : Bullet)
    (items : List Bullet) (hv : (a.Visible L)[j]? = some ⟨Time.ofDay D, it⟩)
    (hl : a.Store.LoadDay (Time.ofDay D) = .ok items) (hit : items[j1]? = some it) :
    (a.DeleteIndex L j).2.Store = (a.DeleteDayIndex (Time.ofDay D) j1).2.Store := by
  simp only [App.DeleteIndex, App.DeleteDayIndex, dateOnly_ofDay, hl,
    if_neg (index_ok _ j _ hv), if_neg (index_ok _ j1 _ hit), Int.toNat_ofNat, hv, hit,
    thenRefresh_store, thenReturn_store]

theorem updateText_store (L : Strings) (a : App) (j j1 : Nat) (D : Int) (it : Bullet)
    (items : List Bullet) (text : String)
    (hv : (a.Visible L)[j]? = some ⟨Time.ofDay D, it⟩)
    (hl : a.Store.LoadDay (Time.ofDay D) = .ok items) (hit : items[j1]? = some it) :
    (a.UpdateText L j text).2.Store = (a.UpdateDayIndexText (Time.ofDay D) j1 text).2.Store := by
  simp only [App.UpdateText, App.UpdateDayIndexText, dateOnly_ofDay, hl,
    if_neg (index_ok _ j _ hv), if_neg (index_ok _ j1 _ hit), Int.toNat_ofNat, hv, hit,
    thenRefresh_store, thenReturn_store]

theorem completeIndex_store (L : Strings) (a : App) (j j1 : Nat) (D : Int) (it : Bullet)
    (items : List Bullet) (hv : (a.Visible L)[j]? = some ⟨Time.ofDay D, it⟩)
    (hl : a.Store.LoadDay (Time.ofDay D) = .ok items) (hit : items[j1]? = some it) :
    (a.CompleteIndex L j).2.Store = (a.CompleteDayIndex (Time.ofDay D) j1).2.Store := by
  simp only [App.CompleteIndex, App.CompleteDayIndex, dateOnly_ofDay, hl,
    if_neg (index_ok _ j _ hv), if_neg (index_ok _ j1 _ hit), Int.toNat_ofNat, hv, hit]
  repeat' split
  all_goals simp_all [thenRefresh_store, thenReturn_store]

theorem migrateIndex_store (L : Strings) (a : App) (j j1 : Nat) (D : Int) (it : Bullet)
    (items : List Bullet) (hv : (a.Visible L)[j]? = some ⟨Time.ofDay D, it⟩)
    (hl : a.Store.LoadDay (Time.ofDay D) = .ok items) (hit : items[j1]? = some it) :
    (a.MigrateIndex L j).2.Store = (a.MigrateDayIndex L (Time.ofDay D) j1).2.Store := by
  simp only [App.MigrateIndex, App.MigrateDayIndex, dateOnly_ofDay, ofDay_add, ofDay_addDays,
    hl, if_neg (index_ok _ j _ hv), if_neg (index_ok _ j1 _ hit), Int.toNat_ofNat, hv, hit]
  repeat' split
  all_goals simp_all [thenRefresh_store, thenReturn_store, refresh_store]

theorem scheduleIndex_store (L : Strings) (a : App) (j j1 : Nat) (D T : Int) (it : Bullet)
    (items : List Bullet) (hv : (a.Visible L)[j]? = some ⟨Time.ofDay D, it⟩)
    (hl : a.Store.LoadDay (Time.ofDay D) = .ok items) (hit : items[j1]? = some it) :
    (a.ScheduleIndex L j (Time.ofDay T)).2.Store
      = (a.ScheduleDayIndex L (Time.ofDay D) j1 (Time.ofDay T)).2.Store := by
  simp only [App.ScheduleIndex, App.ScheduleDayIndex, dateOnly_ofDay, hl,
    if_neg (index_ok _ j _ hv), if_neg (index_ok _ j1 _ hit), Int.toNat_ofNat, hv, hit]
  repeat' split
  all_goals simp_all [thenRefresh_store, thenReturn_store, refresh_store]

/-! ## Lemmas on a fresh cache -/

theorem collectDays_readErr (s : FSStore) (E : Int) (n : Nat) (S : Int) (entries : List Entry)
    (hn : (E - S + 1).toNat ≤ n)
    (hc : collectDays s (Time.ofDay E) n (Time.ofDay S) = .ok entries) :
    ∀ k, S ≤ k → k ≤ E → s.readErr k = false := by
  induction n generalizing S entries with
  | zero =>
    intro k h1 h2
    omega
  | succ n ih =>
    intro k h1 h2
    unfold collectDays at hc
    rw [ofDay_after] at hc
    have hlt : ¬ E < S := by omega
    simp only [hlt, decide_False, Bool.false_eq_true, if_false, loadDay_cases,
      dayNo_ofDay, ofDay_add] at hc
    split at hc
    · cases hc
    · next items hl =>
      split at hl
      · cases hl
      · next hr =>
        split at hc
        · cases hc
        · next rest hrest =>
          by_cases hk : k = S
          · rw [hk]
            simpa using hr
          · exact ih (S + 1) rest (by omega) hrest k (by omega) h2

theorem fresh_items (a : App) (h : a.Fresh) :
    a.Items = collectSpec a.Store a.dateRange.Start.dayNo a.dateRange.End.dayNo ∧
    ∀ k, a.dateRange.Start.dayNo ≤ k → k ≤ a.dateRange.End.dayNo →
      a.Store.readErr k = false := by
  have hm := (dateRange_midnight a).1
  obtain ⟨hok, hit⟩ := h
  cases he : collectDays a.Store (Time.ofDay a.dateRange.End.dayNo)
      (a.dateRange.End.dayNo - a.dateRange.Start.dayNo + 1).toNat
      (Time.ofDay a.dateRange.Start.dayNo) with
  | error e =>
    rw [refresh_error a _ _ e hm he] at hok
    cases hok
  | ok entries =>
    rw [refresh_ok a _ _ entries hm he] at hit
    have hs := collectDays_spec a.Store _ _ _ entries (le_refl _) he
    exact ⟨by rw [← hs]; exact hit.symm, collectDays_readErr a.Store _ _ _ entries (le_refl _) he⟩

theorem collectSpec_eq (s : FSStore) (S E : Int) :
    collectSpec s S E = (windowDays S (E - S + 1).toNat).flatMap (daySegment s) := rfl

theorem collectSpec_day (s : FSStore) (k : Int) : collectSpec s k k = daySegment s k := by
  have h : (k - k + 1).toNat = 1 := by omega
  simp [collectSpec_eq, h, windowDays]

theorem visible_unfiltered (L : Strings) (a : App) (h1 : a.TextFilter = "")
    (h2 : a.TypeFilter = []) (h3 : a.TagFilter = []) : a.Visible L = a.Items := by
  unfold App.Visible
  apply List.filter_eq_self.2
  intro e _
  simp [App.matchEntry, h1, h2, h3]

theorem fresh_day (a : App) (k : Int) (hP : a.Period = PeriodDay)
    (hD : a.CurrentDate = Time.ofDay k) (h : a.Fresh) :
    a.Items = daySegment a.Store k ∧ a.Store.LoadDay (Time.ofDay k) = .ok (a.Store.record k) := by
  have hr := dateRange_day a (by rw [hP]; decide) (by rw [hP]; decide)
  have hf := fresh_items a h
  rw [hr, hD] at hf
  simp only [dayNo_ofDay] at hf
  refine ⟨by rw [hf.1, collectSpec_day], ?_⟩
  rw [loadDay_cases, dayNo_ofDay, hf.2 k (le_refl _) (le_refl _)]
  simp

theorem daySegment_get (s : FSStore) (k : Int) (j : Nat) :
    (daySegment s k)[j]? = ((s.record k)[j]?).map fun it => ⟨Time.ofDay k, it⟩ := by
  simp [daySegment]

/-! ## Lemmas on the position of an entry in the cache -/

theorem thenRefresh_none (a : App) (r : Option Err × FSStore)
    (h : (thenRefresh a r).1 = none) :
    r.1 = none ∧ (App.Refresh { a with Store := r.2 }).1 = none ∧
      thenRefresh a r = App.Refresh { a with Store := r.2 } := by
  obtain ⟨e, s⟩ := r
  cases e with
  | some err => simp [thenRefresh] at h
  | none => exact ⟨rfl, by simpa [thenRefresh] using h, rfl⟩

/-- C21.  Let `SaveDay(date, items)` fail when it creates the temporary file, when it
encodes the item number `k` (with `k` below the number of items), when it flushes, or
when it closes.  Then it returns an error, every day file holds what it held, so that
`LoadDay` of any date, the saved one included, returns what it returned before, and
the temporary files in the directories are those that were there before the call: the
one created by the call has been removed. -/
theorem saveDay_atomic (d : Disk) (date : Time) (items : List Bullet) (f : SaveFault)
    (hf : f = .createTemp ∨ (∃ k, k < items.length ∧ f = .encode k) ∨ f = .flush ∨
      f = .close) :
    (d.SaveDay date items (some f)).1 ≠ none ∧
    (d.SaveDay date items (some f)).2.store.files = d.store.files ∧
    (∀ t, (d.SaveDay date items (some f)).2.store.LoadDay t = d.store.LoadDay t) ∧
    (d.SaveDay date items (some f)).2.temps = d.temps := by
  have hloop := encodeLoop_fail (some f) 0 d.createTemp items [] d.temps rfl
  have key : (d.SaveDay date items (some f)).1 ≠ none ∧
      (d.SaveDay date items (some f)).2.store.files = d.store.files ∧
      (d.SaveDay date items (some f)).2.store.readErr = d.store.readErr ∧
      (d.SaveDay date items (some f)).2.temps = d.temps := by
    unfold Disk.SaveDay
    rcases hf with h | ⟨k, hk, h⟩ | h | h
    · subst h
      simp
    · subst h
      have hstop := encodeLoop_stops (some (.encode k)) 0 d.createTemp items k (Nat.zero_le _)
        (by omega) rfl
      have h1 : ¬ (some (SaveFault.encode k) = some SaveFault.mkdir) := by simp
      have h2 : ¬ (some (SaveFault.encode k) = some SaveFault.createTemp) := by simp
      simp only [if_neg h1, if_neg h2]
      split
      · next d1 heq =>
        rw [heq] at hloop
        exact ⟨by simp, hloop.1, hloop.2.1, hloop.2.2.2⟩
      · next d1 heq =>
        rw [heq] at hstop
        cases hstop
    · subst h
      have h1 : ¬ (some SaveFault.flush = some SaveFault.mkdir) := by simp
      have h2 : ¬ (some SaveFault.flush = some SaveFault.createTemp) := by simp
      simp only [if_neg h1, if_neg h2]
      split
      · next d1 heq =>
        rw [heq] at hloop
        exact ⟨by simp, hloop.1, hloop.2.1, hloop.2.2.2⟩
      · next d1 heq =>
        rw [heq] at hloop
        simp only [if_true]
        exact ⟨by simp, hloop.1, hloop.2.1, hloop.2.2.2⟩
    · subst h
      have h1 : ¬ (some SaveFault.close = some SaveFault.mkdir) := by simp
      have h2 : ¬ (some SaveFault.close = some SaveFault.createTemp) := by simp
      have h3 : ¬ (some SaveFault.close = some SaveFault.flush) := by simp
      simp only [if_neg h1, if_neg h2, if_neg h3]
      split
      · next d1 heq =>
        rw [heq] at hloop
        exact ⟨by simp, hloop.1, hloop.2.1, hloop.2.2.2⟩
      · next d1 heq =>
        rw [heq] at hloop
        simp only [if_true]
        exact ⟨by simp, hloop.1, hloop.2.1, hloop.2.2.2⟩
  refine ⟨key.1, key.2.1, ?_, key.2.2.2⟩
  intro t
  simp only [loadDay_cases, FSStore.record, key.2.1, key.2.2.1]

/-- Witness for C21: 2024-01-01 holds the note "Call Ann"; saving two tasks fails while
the second is encoded.  The day still holds the note and no temporary file is left. -/
theorem saveDay_atomic_witness :
    ((Disk.mk (oneDay jan1 [memo "n1"]) []).SaveDay jan1 [bareMilk, milk "m2"]
      (some (.encode 1))).1 ≠ none ∧
    ((Disk.mk (oneDay jan1 [memo "n1"]) []).SaveDay jan1 [bareMilk, milk "m2"]
      (some (.encode 1))).2.store.record jan1.dayNo = [memo "n1"] ∧
    ((Disk.mk (oneDay jan1 [memo "n1"]) []).SaveDay jan1 [bareMilk, milk "m2"]
      (some (.encode 1))).2.temps = [] :=
  ⟨(saveDay_atomic (Disk.mk (oneDay jan1 [memo "n1"]) []) jan1 [bareMilk, milk "m2"]
      (.encode 1) (Or.inr (Or.inl ⟨1, by decide, rfl⟩))).1,
    by decide,
    (saveDay_atomic (Disk.mk (oneDay jan1 [memo "n1"]) []) jan1 [bareMilk, milk "m2"]
      (.encode 1) (Or.inr (Or.inl ⟨1, by decide, rfl⟩))).2.2.2⟩

/-! ## Malformed lines of a day file -/

/-- C22.  Let the day file consist of the lines `lines`, each followed by a newline,
and of a last piece `last` without newline, possibly empty; no read error occurs.
Then `LoadDay` returns no error and exactly the entries decoded from the lines that
`json.Unmarshal` accepts, in file order, followed by the entry decoded from `last`
(less one trailing carriage return) when `last` is not empty and is accepted.  A line
that is not accepted can be taken out of the file, or put in, without changing the
result; so can an empty line, which `json.Unmarshal` rejects. -/
theorem loadDay_skips_malformed (Unmarshal : List Nat → Option Bullet) (day : Int)
    (lines : List (List Nat)) (last : List Nat)
    (hl : ∀ l ∈ lines, ∀ c ∈ l, c ≠ 10) (hlast : ∀ c ∈ last, c ≠ 10) :
    loadDayFile Unmarshal day (.bytes (fileOfLines lines ++ last) false) =
      (decodeLines Unmarshal lines ++
        (if last = [] then [] else (Unmarshal (bytesTrimRightNewline last)).toList), none) ∧
    (∀ (before after : List (List Nat)) (bad : List Nat), lines = before ++ bad :: after →
      Unmarshal bad = none →
      loadDayFile Unmarshal day (.bytes (fileOfLines lines ++ last) false) =
        loadDayFile Unmarshal day (.bytes (fileOfLines (before ++ after) ++ last) false)) ∧
    (Unmarshal [] = none →
      decodeLines Unmarshal lines = decodeLines Unmarshal (lines.filter (· ≠ []))) := by
  have main : ∀ ls : List (List Nat), (∀ l ∈ ls, ∀ c ∈ l, c ≠ 10) →
      loadDayFile Unmarshal day (.bytes (fileOfLines ls ++ last) false) =
        (decodeLines Unmarshal ls ++
          (if last = [] then [] else (Unmarshal (bytesTrimRightNewline last)).toList),
          none) := by
    intro ls hls
    show loadLoop Unmarshal false day ((fileOfLines ls ++ last).length + 1)
      (fileOfLines ls ++ last) [] = _
    rw [loadLoop_lines Unmarshal day ls last hls hlast _ [] (le_refl _)]
    simp
  refine ⟨main lines hl, ?_, ?_⟩
  · intro before after bad hsplit hbad
    have hl2 : ∀ l ∈ before ++ after, ∀ c ∈ l, c ≠ 10 := by
      intro l hmem
      apply hl l
      rw [hsplit]
      rcases List.mem_append.1 hmem with h | h
      · exact List.mem_append_left _ h
      · exact List.mem_append_right _ (List.mem_cons_of_mem _ h)
    rw [main lines hl, main (before ++ after) hl2, hsplit]
    simp [decodeLines, List.filterMap_append, hbad]
  · intro hempty
    unfold decodeLines
    induction lines with
    | nil => rfl
    | cons l ls ih =>
      have ih1 := ih (fun x hx => hl x (List.mem_cons_of_mem _ hx))
      by_cases h0 : l = []
      · subst h0
        simp [List.filterMap_cons, hempty, ih1]
      · simp [List.filterMap_cons, h0, ih1]

/-- Witness for C22: of the five lines `milk`, `{broken`, the empty line, `memo` and
`null?`, the last one without newline, two decode; `LoadDay` returns these two in file
order and no error, as it does for the file without the malformed second line. -/
theorem loadDay_skips_malformed_witness :
    loadDayFile sampleUnmarshal 0
      (.bytes (fileOfLines [ascii "milk", ascii "\x7bbroken", [], ascii "memo"] ++ ascii "null?")
        false) = ([milk "m1", memo "n1"], none) ∧
    loadDayFile sampleUnmarshal 0
      (.bytes (fileOfLines [ascii "milk", ascii "\x7bbroken", [], ascii "memo"] ++ ascii "null?")
        false) =
      loadDayFile sampleUnmarshal 0
        (.bytes (fileOfLines ([ascii "milk"] ++ [[], ascii "memo"]) ++ ascii "null?") false) :=
  ⟨(loadDay_skips_malformed sampleUnmarshal 0 [ascii "milk", ascii "\x7bbroken", [], ascii "memo"]
      (ascii "null?") (by decide) (by decide)).1.trans (by decide),
    (loadDay_skips_malformed sampleUnmarshal 0 [ascii "milk", ascii "\x7bbroken", [], ascii "memo"]
      (ascii "null?") (by decide) (by decide)).2.1 [ascii "milk"] [[], ascii "memo"]
      (ascii "\x7bbroken") rfl (by decide)⟩

/-! ## What `Add` returns -/

/-- C23 does not hold of the code: the bullet returned by a successful `Add` has an
empty `ID`.  On an empty store anchored at 2024-01-01, `Add` of "Buy milk" succeeds and
2024-01-01 then holds one Task with that text and a generated id, while the returned
bullet has the text, the type Task and the id `""`. -/
theorem add_returns_empty_id :
    ((appOf emptyStore).Add "Buy milk").2.1 = none ∧
    (((appOf emptyStore).Add "Buy milk").2.2.Store.record jan1.dayNo).map
      (fun b => (b.ID, b.Typ, b.Text)) =
      [("1704070800000000001-0000000000000001", Task, "Buy milk")] ∧
    ((appOf emptyStore).Add "Buy milk").1.Text = "Buy milk" ∧
    ((appOf emptyStore).Add "Buy milk").1.Typ = Task ∧
    ((appOf emptyStore).Add "Buy milk").1.ID = "" := by
  decide

/-! ## The command line -/

/-- C25 does not hold of the code.  `add` with the text "Buy milk" and the malformed
date `2024-13-45` exits with status 0 and appends the task to the day of the clock,
2024-01-01.  `delete 0` with the malformed date `yesterday` exits with status 0 and
works on the zero date: the entry stored at index 0 of 0001-01-01 is deleted. -/
theorem cli_malformed_date_accepted :
    timeParse "2024-13-45" = none ∧
    (cliAdd asciiStrings emptyStore "2024-13-45" "task" "" "Buy milk").1 = 0 ∧
    ((cliAdd asciiStrings emptyStore "2024-13-45" "task" "" "Buy milk").2.record
      jan1.dayNo).map (·.Text) = ["Buy milk"] ∧
    timeParse "yesterday" = none ∧
    (cliDelete asciiStrings (oneDay Time.zero [milk "m1", memo "n1"]) ["0"] "yesterday").1
      = 0 ∧
    (cliDelete asciiStrings (oneDay Time.zero [milk "m1", memo "n1"]) ["0"]
      "yesterday").2.record Time.zero.dayNo = [memo "n1"] := by
  decide

/-- C30 does not hold of the code: on a string that does not begin with a decimal
integer, such as `abc` or the empty string, `parseIndex` returns 0, not -1.
`delete abc` for 2024-01-01 exits with status 0 and deletes the entry at index 0. -/
theorem parseIndex_failure_is_zero :
    sscanfInt "abc" = none ∧ parseIndex "abc" = 0 ∧
    sscanfInt "" = none ∧ parseIndex "" = 0 ∧
    parseIndex "1" = 1 ∧
    (cliDelete asciiStrings (oneDay jan1 [milk "m1", memo "n1"]) ["abc"] "2024-01-01").1
      = 0 ∧
    (cliDelete asciiStrings (oneDay jan1 [milk "m1", memo "n1"]) ["abc"]
      "2024-01-01").2.record jan1.dayNo = [memo "n1"] := by
  decide

/-! ## Day-index operations depend on the store alone -/

/-- C24.  Let two application states have the same store; they may differ in
`Period`, `CurrentDate`, `Items`, `TextFilter`, `TypeFilter` and `TagFilter`.  For
every date and index each of `DeleteDayIndex`, `UpdateDayIndexText`,
`CompleteDayIndex`, `MigrateDayIndex` and `ScheduleDayIndex` returns the same error and
leaves the same store in both, generated ids and timestamps included. -/
theorem dayIndex_store_only (L : Strings) (a b : App) (hs : a.Store = b.Store)
    (date : Time) (i : Int) :
    ((a.DeleteDayIndex date i).1 = (b.DeleteDayIndex date i).1 ∧
      (a.DeleteDayIndex date i).2.Store = (b.DeleteDayIndex date i).2.Store) ∧
    (∀ text, (a.UpdateDayIndexText date i text).1 = (b.UpdateDayIndexText date i text).1 ∧
      (a.UpdateDayIndexText date i text).2.Store = (b.UpdateDayIndexText date i text).2.Store) ∧
    ((a.CompleteDayIndex date i).1 = (b.CompleteDayIndex date i).1 ∧
      (a.CompleteDayIndex date i).2.Store = (b.CompleteDayIndex date i).2.Store) ∧
    ((a.MigrateDayIndex L date i).1 = (b.MigrateDayIndex L date i).1 ∧
      (a.MigrateDayIndex L date i).2.Store = (b.MigrateDayIndex L date i).2.Store) ∧
    (∀ target, (a.ScheduleDayIndex L date i target).1 = (b.ScheduleDayIndex L date i target).1 ∧
      (a.ScheduleDayIndex L date i target).2.Store
        = (b.ScheduleDayIndex L date i target).2.Store) := by
  refine ⟨?_, ?_, ?_, ?_, ?_⟩
  · simp only [App.DeleteDayIndex, hs]
    repeat' split
    all_goals simp_all [thenReturn]
  · intro text
    simp only [App.UpdateDayIndexText, hs]
    repeat' split
    all_goals simp_all [thenReturn]
  · simp only [App.CompleteDayIndex, hs]
    repeat' split
    all_goals simp_all [thenReturn]
  · simp only [App.MigrateDayIndex, hs]
    repeat' split
    all_goals simp_all [thenReturn]
  · intro target
    simp only [App.ScheduleDayIndex, hs]
    repeat' split
    all_goals simp_all [thenReturn]

/-- Witness for C24: deleting index 0 of 2024-01-01 from a day view of that day without
filters, and from a month view anchored in 2023 whose filters hide every task, leaves
the same store, in which the day is empty. -/
theorem dayIndex_store_only_witness :
    ((viewA (oneDay jan1 [milk "m1"])).DeleteDayIndex jan1 0).2.Store
      = ((viewB (oneDay jan1 [milk "m1"])).DeleteDayIndex jan1 0).2.Store ∧
    (viewB (oneDay jan1 [milk "m1"])).Visible asciiStrings = [] ∧
    ((viewB (oneDay jan1 [milk "m1"])).DeleteDayIndex jan1 0).2.Store.record jan1.dayNo = [] :=
  ⟨(dayIndex_store_only asciiStrings (viewA (oneDay jan1 [milk "m1"]))
      (viewB (oneDay jan1 [milk "m1"])) rfl jan1 0).1.2, by decide, by decide⟩

/-! ## Scheduled entries without a target -/

/-- C29.  For an index in range whose entry has type Scheduled and no `ScheduledFor`,
`ScheduleIndex` and `ScheduleDayIndex`, with any target date, return no error and
leave the whole application state, hence every day record, as it was.  For
`ScheduleIndex` the entry is the one at index `i` of `Visible()`, for
`ScheduleDayIndex` the one at index `i` of what `LoadDay` returns. -/
theorem schedule_without_target_noop (L : Strings) (a : App) (i : Nat) :
    (∀ (ent : Entry) (target : Time), (a.Visible L)[i]? = some ent →
      ent.Item.Typ = Scheduled → ent.Item.ScheduledFor = none →
      a.ScheduleIndex L i target = (none, a)) ∧
    (∀ (date target : Time) (items : List Bullet) (it : Bullet),
      a.Store.LoadDay (dateOnly date) = .ok items → items[i]? = some it →
      it.Typ = Scheduled → it.ScheduledFor = none →
      a.ScheduleDayIndex L date i target = (none, a)) := by
  constructor
  · intro ent target hi hk hs
    simp only [App.ScheduleIndex, if_neg (index_ok _ i ent hi), Int.toNat_ofNat, hi, hk,
      if_true, hs]
  · intro date target items it hl hi hk hs
    simp only [App.ScheduleDayIndex, hl, if_neg (index_ok _ i it hi), Int.toNat_ofNat, hi, hk,
      if_true, hs]

/-- Witness for C29: the task "Buy milk" is retyped to Scheduled by `ChangeTypeIndex`,
which leaves it without `ScheduledFor`; scheduling it by day index, then by visible
index, changes nothing. -/
theorem schedule_without_target_noop_witness :
    (cachedOne.ChangeTypeIndex asciiStrings 0 Scheduled).2.Store.record jan1.dayNo
      = [loneScheduled "m1"] ∧
    (cachedOne.ChangeTypeIndex asciiStrings 0 Scheduled).2.ScheduleDayIndex asciiStrings jan1
      (0 : Nat) jan2 = (none, (cachedOne.ChangeTypeIndex asciiStrings 0 Scheduled).2) ∧
    (cachedOne.ChangeTypeIndex asciiStrings 0 Scheduled).2.ScheduleIndex asciiStrings
      (0 : Nat) jan2 = (none, (cachedOne.ChangeTypeIndex asciiStrings 0 Scheduled).2) :=
  ⟨by decide,
    (schedule_without_target_noop asciiStrings
      (cachedOne.ChangeTypeIndex asciiStrings 0 Scheduled).2 0).2 jan1 jan2
      [loneScheduled "m1"] (loneScheduled "m1") rfl rfl rfl rfl,
    (schedule_without_target_noop asciiStrings
      (cachedOne.ChangeTypeIndex asciiStrings 0 Scheduled).2 0).1
      ⟨jan1, loneScheduled "m1"⟩ jan2 (by decide) rfl rfl⟩

/-! ## Migration and undo by visible index -/

/-- Agreement of the visible-index and the day-index operations in a zone without
offset change.
Let the application be in day view of the midnight `D`, with empty text, type
and tag filters and a cache that holds what `Refresh` would load.  For every index `i`
each of `DeleteIndex(i)`, `UpdateText(i, s)`, `CompleteIndex(i)`, `MigrateIndex(i)` and
`ScheduleIndex(i, T)`, with `T` a midnight, leaves the same store as
`DeleteDayIndex(D, i)`, `UpdateDayIndexText(D, i, s)`, `CompleteDayIndex(D, i)`,
`MigrateDayIndex(D, i)` and `ScheduleDayIndex(D, i, T)` respectively, started in the
same state: the day files, the generated clone id and the timestamps included. -/
theorem decoded_index_agrees (L : Strings) (a : App) (k : Int) (i : Int)
    (hP : a.Period = PeriodDay) (hD : a.CurrentDate = Time.ofDay k)
    (h1 : a.TextFilter = "") (h2 : a.TypeFilter = []) (h3 : a.TagFilter = [])
    (hf : a.Fresh) :
    (a.DeleteIndex L i).2.Store = (a.DeleteDayIndex (Time.ofDay k) i).2.Store ∧
    (∀ text, (a.UpdateText L i text).2.Store
      = (a.UpdateDayIndexText (Time.ofDay k) i text).2.Store) ∧
    (a.CompleteIndex L i).2.Store = (a.CompleteDayIndex (Time.ofDay k) i).2.Store ∧
    (a.MigrateIndex L i).2.Store = (a.MigrateDayIndex L (Time.ofDay k) i).2.Store ∧
    (∀ T : Int, (a.ScheduleIndex L i (Time.ofDay T)).2.Store
      = (a.ScheduleDayIndex L (Time.ofDay k) i (Time.ofDay T)).2.Store) := by
  obtain ⟨hitems, hl⟩ := fresh_day a k hP hD hf
  have hvis : a.Visible L = daySegment a.Store k := by
    rw [visible_unfiltered L a h1 h2 h3, hitems]
  have hlen : (a.Visible L).length = (a.Store.record k).length := by
    rw [hvis]
    simp [daySegment]
  by_cases hout : i < 0 ∨ i ≥ (a.Visible L).length
  · have hout2 : i < 0 ∨ i ≥ (a.Store.record k).length := by rw [← hlen]; exact hout
    refine ⟨?_, ?_, ?_, ?_, ?_⟩
    · simp only [App.DeleteIndex, App.DeleteDayIndex, dateOnly_ofDay, hl, if_pos hout,
        if_pos hout2]
    · intro text
      simp only [App.UpdateText, App.UpdateDayIndexText, dateOnly_ofDay, hl, if_pos hout,
        if_pos hout2]
    · simp only [App.CompleteIndex, App.CompleteDayIndex, dateOnly_ofDay, hl, if_pos hout,
        if_pos hout2]
    · simp only [App.MigrateIndex, App.MigrateDayIndex, dateOnly_ofDay, hl, if_pos hout,
        if_pos hout2]
    · intro T
      simp only [App.ScheduleIndex, App.ScheduleDayIndex, dateOnly_ofDay, hl, if_pos hout,
        if_pos hout2]
  · obtain ⟨j, rfl⟩ : ∃ j : Nat, i = (j : Int) := ⟨i.toNat, by omega⟩
    have hj : j < (a.Store.record k).length := by
      rw [← hlen]
      omega
    obtain ⟨it, hit⟩ : ∃ it, (a.Store.record k)[j]? = some it :=
      ⟨_, List.getElem?_eq_getElem hj⟩
    have hv : (a.Visible L)[j]? = some ⟨Time.ofDay k, it⟩ := by
      rw [hvis, daySegment_get, hit]
      rfl
    exact ⟨deleteIndex_store L a j j k it _ hv hl hit,
      fun text => updateText_store L a j j k it _ text hv hl hit,
      completeIndex_store L a j j k it _ hv hl hit,
      migrateIndex_store L a j j k it _ hv hl hit,
      fun T => scheduleIndex_store L a j j k T it _ hv hl hit⟩

/-! ## Lemmas on the store on disk -/

theorem stamp_encodable (s : FSStore) (b : Bullet) (hc : ∀ n, (s.clock n).encodable = true)
    (hb : b.encodable = true) : (stamp s b).1.encodable = true := by
  have hf := stamp_fields s b
  have hcr := stamp_createdAt s b
  unfold Bullet.encodable at *
  rw [hf.2.2.2.1, hf.2.2.2.2.1, hcr]
  simp only [Bool.and_eq_true] at hb ⊢
  refine ⟨⟨?_, hb.1.2⟩, hb.2⟩
  split
  · exact hc _
  · exact hb.1.1

theorem stampAll_clock (s : FSStore) (items : List Bullet) :
    (stampAll s items).2.clock = s.clock := by
  induction items generalizing s with
  | nil => rfl
  | cons x rest ih =>
    simp only [stampAll]
    rw [ih, (stamp_oracle s x).1]

theorem stampAll_encodable (s : FSStore) (items : List Bullet)
    (hc : ∀ n, (s.clock n).encodable = true) (h : ∀ b ∈ items, b.encodable = true) :
    ∀ b ∈ (stampAll s items).1, b.encodable = true := by
  induction items generalizing s with
  | nil => simp [stampAll]
  | cons x rest ih =>
    simp only [stampAll]
    intro b hb
    rcases List.mem_cons.1 hb with hb | hb
    · rw [hb]
      exact stamp_encodable s x hc (h x (List.mem_cons_self _ _))
    · refine ih (stamp s x).2 ?_ (fun y hy => h y (List.mem_cons_of_mem _ hy)) b hb
      rw [(stamp_oracle s x).1]
      exact hc

theorem saveLoop_stamped (s : FSStore) (items : List Bullet)
    (h : ∀ b ∈ (stampAll s items).1, b.encodable = true) :
    saveLoop s items = (some (stampAll s items).1, (stampAll s items).2) := by
  induction items generalizing s with
  | nil => rfl
  | cons x rest ih =>
    simp only [stampAll] at h
    have hx : (stamp s x).1.encodable = true := h _ (List.mem_cons_self _ _)
    have hr := ih (stamp s x).2 (fun b hb => h b (List.mem_cons_of_mem _ hb))
    simp only [saveLoop, stampAll, hx, if_true, hr]

theorem raw_saveDay (s : Raw.FSStore) (date : Time) (items : List Bullet)
    (h : ∀ b ∈ (stampAll s.decoded items).1, b.encodable = true) :
    s.SaveDay date items = Raw.lift s date.dayNo (s.decoded.SaveDay date items) := by
  unfold Raw.FSStore.SaveDay Raw.lift
  rw [saveDay_result, saveLoop_stamped _ _ h]
  by_cases hw : s.decoded.writeErr date.dayNo = true <;> simp [hw]

theorem raw_update (s : Raw.FSStore) (date : Time) (b : Bullet) (hr : s.decoded.InRange)
    (hb : b.encodable = true) :
    s.Update date b = Raw.lift s date.dayNo (s.decoded.Update date b) := by
  unfold Raw.FSStore.Update FSStore.Update Raw.FSStore.LoadDay
  cases hl : s.decoded.LoadDay date with
  | error e => simp [Raw.lift]
  | ok items =>
    simp only []
    apply raw_saveDay
    apply stampAll_encodable _ _ hr.1
    obtain ⟨-, rfl⟩ := loadDay_ok _ _ _ hl
    intro x hx
    rcases replaceFirst_mem b _ x hx with h | h
    · rw [h]; exact hb
    · exact hr.2 _ x h

theorem raw_delete (s : Raw.FSStore) (date : Time) (id : String) (hr : s.decoded.InRange) :
    s.Delete date id = Raw.lift s date.dayNo (s.decoded.Delete date id) := by
  unfold Raw.FSStore.Delete FSStore.Delete Raw.FSStore.LoadDay
  cases hl : s.decoded.LoadDay date with
  | error e => simp [Raw.lift]
  | ok items =>
    simp only []
    apply raw_saveDay
    apply stampAll_encodable _ _ hr.1
    obtain ⟨-, rfl⟩ := loadDay_ok _ _ _ hl
    intro x hx
    exact hr.2 _ x (List.mem_filter.1 hx).1

theorem raw_append (s : Raw.FSStore) (date : Time) (b : Bullet)
    (hc : ∀ n, (s.decoded.clock n).encodable = true)
    (hb : b.encodable = true) (ht : s.tail date.dayNo = .closed) :
    s.Append date b = Raw.lift s date.dayNo (s.decoded.Append date b) := by
  unfold Raw.FSStore.Append Raw.lift
  rw [append_result]
  by_cases hw : s.decoded.writeErr date.dayNo = true
  · simp [hw]
  · simp [hw, stamp_encodable _ _ hc hb, ht, record_stamp]

/-! ## Lemmas on times that can be encoded -/

theorem saveDay_clock (s : FSStore) (date : Time) (items : List Bullet) :
    (s.SaveDay date items).2.clock = s.clock := by
  rw [saveDay_result]
  split
  · rfl
  · exact stampAll_clock s items

theorem inRange_writeFile {s : FSStore} (h : s.InRange) (k : Int) (items : List Bullet)
    (hi : ∀ b ∈ items, b.encodable = true) : (s.writeFile k items).InRange := by
  refine ⟨h.1, ?_⟩
  intro j b hb
  rw [record_writeFile] at hb
  split at hb
  · exact hi b hb
  · exact h.2 j b hb

theorem inRange_of_files {s s1 : FSStore} (h : s.InRange) (hc : s1.clock = s.clock)
    (hf : s1.files = s.files) : s1.InRange := by
  refine ⟨by rw [hc]; exact h.1, ?_⟩
  intro k b hb
  apply h.2 k b
  unfold FSStore.record at *
  rw [← hf]
  exact hb

theorem inRange_saveDay {s : FSStore} (h : s.InRange) (date : Time) (items : List Bullet)
    (hi : ∀ b ∈ items, b.encodable = true) : (s.SaveDay date items).2.InRange := by
  rw [saveDay_result]
  split
  · exact h
  · exact inRange_writeFile (inRange_of_files h (stampAll_clock s items) (stampAll_spec s items).1)
      _ _ (stampAll_encodable s items h.1 hi)

theorem inRange_update {s : FSStore} (h : s.InRange) (date : Time) (b : Bullet)
    (hb : b.encodable = true) : (s.Update date b).2.InRange := by
  unfold FSStore.Update
  cases hl : s.LoadDay date with
  | error e => exact h
  | ok items =>
    simp only []
    apply inRange_saveDay h
    obtain ⟨-, rfl⟩ := loadDay_ok _ _ _ hl
    intro x hx
    rcases replaceFirst_mem b _ x hx with h1 | h1
    · rw [h1]; exact hb
    · exact h.2 _ x h1

theorem inRange_delete {s : FSStore} (h : s.InRange) (date : Time) (id : String) :
    (s.Delete date id).2.InRange := by
  unfold FSStore.Delete
  cases hl : s.LoadDay date with
  | error e => exact h
  | ok items =>
    simp only []
    apply inRange_saveDay h
    obtain ⟨-, rfl⟩ := loadDay_ok _ _ _ hl
    intro x hx
    exact h.2 _ x (List.mem_filter.1 hx).1

theorem inRange_append {s : FSStore} (h : s.InRange) (date : Time) (b : Bullet)
    (hb : b.encodable = true) : (s.Append date b).2.InRange := by
  rw [append_result]
  split
  · exact h
  · apply inRange_writeFile (inRange_of_files h (stamp_oracle s b).1 (stamp_files s b).1)
    intro x hx
    rcases List.mem_append.1 hx with hx | hx
    · exact h.2 _ x hx
    · rw [List.mem_singleton.1 hx]
      exact stamp_encodable s b h.1 hb

theorem encodable_restored (b : Bullet) (t : BulletType) (h : b.encodable = true) :
    Bullet.encodable { b with Typ := t, CompletedAt := none, ScheduledFor := none } = true := by
  unfold Bullet.encodable at *
  simp only [Bool.and_eq_true] at h ⊢
  exact ⟨⟨h.1.1, rfl⟩, rfl⟩

theorem encodable_marked (b : Bullet) (t : BulletType) (sf : Time) (h : b.encodable = true)
    (hsf : sf.encodable = true) :
    Bullet.encodable { b with Typ := t, CompletedAt := none, ScheduledFor := some sf } = true := by
  unfold Bullet.encodable at *
  simp only [Bool.and_eq_true] at h ⊢
  exact ⟨⟨h.1.1, hsf⟩, rfl⟩

theorem encodable_clone (b : Bullet) :
    Bullet.encodable { b with ID := "", CompletedAt := none, ScheduledFor := none,
                              CreatedAt := Time.zero } = true := by
  unfold Bullet.encodable
  simp only [Bool.and_eq_true]
  exact ⟨⟨by decide, rfl⟩, rfl⟩

theorem encodable_dateOnly (t : Time) (h : t.encodable = true) :
    (dateOnly t).encodable = true := by
  unfold Time.encodable at *
  rw [dayNo_dateOnly]
  exact h

/-! ## The day-index operations on disk and on the decoded store -/

theorem agrees_refl (a : Raw.App) (e : Option Err) :
    Raw.Agrees a.Store.tail (e, a) (e, a.decoded) :=
  ⟨rfl, rfl, fun _ h => h⟩

theorem agrees_lift (a : Raw.App) (t0 : Int → Tail) (s : Raw.FSStore) (k : Int)
    (r : Option Err × FSStore) (hs : ∀ j, t0 j = .closed → s.tail j = .closed) :
    Raw.Agrees t0 (Raw.thenReturn a (Raw.lift s k r)) (thenReturn a.decoded r) := by
  refine ⟨rfl, rfl, ?_⟩
  intro j hj
  simp only [Raw.thenReturn, Raw.lift]
  split
  · unfold closeTail
    split
    · rfl
    · exact hs j hj
  · exact hs j hj

theorem lift_tail (s : Raw.FSStore) (k : Int) (r : Option Err × FSStore) (j : Int)
    (h : s.tail j = .closed) : (Raw.lift s k r).2.tail j = .closed := by
  simp only [Raw.lift]
  split
  · unfold closeTail
    split
    · rfl
    · exact h
  · exact h

theorem closeTail_mono (t : Int → Tail) (k j : Int) (h : t j = .closed) :
    closeTail t k j = .closed := by
  unfold closeTail
  split
  · rfl
  · exact h

@[simp] theorem decoded_store (a : Raw.App) : a.decoded.Store = a.Store.decoded := rfl

theorem inRange_undo_tail (a : App) (d target : Time) (orig1 : Bullet) (cloneID : String)
    (hr : a.Store.InRange) (h1 : orig1.encodable = true) :
    (match a.Store.Update d orig1 with
        | (some err, s) => ((some err, { a with Store := s }) : Option Err × App)
        | (none, s) =>
          if cloneID ≠ "" then thenReturn a (s.Delete target cloneID)
          else (none, { a with Store := s })).2.Store.InRange := by
  have hr1 := inRange_update hr d orig1 h1
  rcases hu : a.Store.Update d orig1 with ⟨_ | err, s0⟩
  · rw [hu] at hr1
    simp only []
    split
    · exact inRange_delete hr1 _ _
    · exact hr1
  · rw [hu] at hr1
    exact hr1

theorem inRange_forward_tail (a : App) (d next : Time) (marked clone : Bullet)
    (hr : a.Store.InRange) (h1 : marked.encodable = true) (h2 : clone.encodable = true) :
    (match a.Store.Update d marked with
        | (some err, s) => ((some err, { a with Store := s }) : Option Err × App)
        | (none, s) => thenReturn a (s.Append next clone)).2.Store.InRange := by
  have hr1 := inRange_update hr d marked h1
  rcases hu : a.Store.Update d marked with ⟨_ | err, s0⟩
  · rw [hu] at hr1
    exact inRange_append hr1 _ _ h2
  · rw [hu] at hr1
    exact hr1

theorem inRange_migrateDayIndex (L : Strings) (a : App) (date : Time) (index : Int)
    (hr : a.Store.InRange) (hnext : (Time.ofDay (date.dayNo + 1)).encodable = true) :
    (a.MigrateDayIndex L date index).2.Store.InRange := by
  simp only [App.MigrateDayIndex]
  cases hl : a.Store.LoadDay (dateOnly date) with
  | error e => exact hr
  | ok items =>
    simp only []
    split
    · exact hr
    · cases hi : items[index.toNat]? with
      | none => exact hr
      | some orig =>
        simp only []
        have horig : orig.encodable = true := by
          obtain ⟨-, rfl⟩ := loadDay_ok _ _ _ hl
          exact hr.2 _ orig (List.getElem?_mem hi)
        split
        · rcases hsf : orig.ScheduledFor with _ | sf
          all_goals simp only []
          all_goals
            split
            · exact hr
            · exact inRange_undo_tail a _ _ _ _ hr (encodable_restored orig _ horig)
        · split
          · exact hr
          · have hday : (dateOnly date).AddDays 1 = Time.ofDay (date.dayNo + 1) := by
              unfold dateOnly
              rw [ofDay_addDays]
            exact inRange_forward_tail a _ _ _ _ hr
              (encodable_marked orig _ _ horig (by rw [hday]; exact hnext))
              (encodable_clone orig)

theorem raw_undo_tail (a : Raw.App) (d target : Time) (orig1 : Bullet) (cloneID : String)
    (hr : a.Store.decoded.InRange) (h1 : orig1.encodable = true) :
    Raw.Agrees a.Store.tail
      (match a.Store.Update d orig1 with
        | (some err, s) => (some err, { a with Store := s })
        | (none, s) =>
          if cloneID ≠ "" then Raw.thenReturn a (s.Delete target cloneID)
          else (none, { a with Store := s }))
      (match a.Store.decoded.Update d orig1 with
        | (some err, s) => (some err, { a.decoded with Store := s })
        | (none, s) =>
          if cloneID ≠ "" then thenReturn a.decoded (s.Delete target cloneID)
          else (none, { a.decoded with Store := s })) := by
  rw [raw_update a.Store _ _ hr h1]
  have hr1 := inRange_update hr d orig1 h1
  rcases hu : a.Store.decoded.Update d orig1 with ⟨_ | err, s0⟩
  · rw [hu] at hr1
    simp only [Raw.lift, if_true]
    split
    · rw [raw_delete ⟨s0, closeTail a.Store.tail d.dayNo⟩ _ _ hr1]
      exact agrees_lift a _ _ _ _ (fun j hj => closeTail_mono _ _ _ hj)
    · exact ⟨rfl, rfl, fun j hj => closeTail_mono _ _ _ hj⟩
  · simp only [Raw.lift]
    exact ⟨rfl, rfl, fun j hj => by simpa using hj⟩

theorem raw_forward_tail (a : Raw.App) (d next : Time) (marked clone : Bullet)
    (hr : a.Store.decoded.InRange) (h1 : marked.encodable = true)
    (h2 : clone.encodable = true)
    (ht : closeTail a.Store.tail d.dayNo next.dayNo = .closed) :
    Raw.Agrees a.Store.tail
      (match a.Store.Update d marked with
        | (some err, s) => (some err, { a with Store := s })
        | (none, s) => Raw.thenReturn a (s.Append next clone))
      (match a.Store.decoded.Update d marked with
        | (some err, s) => (some err, { a.decoded with Store := s })
        | (none, s) => thenReturn a.decoded (s.Append next clone)) := by
  rw [raw_update a.Store _ _ hr h1]
  have hr1 := inRange_update hr d marked h1
  rcases hu : a.Store.decoded.Update d marked with ⟨_ | err, s0⟩
  · rw [hu] at hr1
    simp only [Raw.lift, if_true]
    rw [raw_append ⟨s0, closeTail a.Store.tail d.dayNo⟩ _ _ hr1.1 h2 ht]
    exact agrees_lift a _ _ _ _ (fun j hj => closeTail_mono _ _ _ hj)
  · simp only [Raw.lift]
    exact ⟨rfl, rfl, fun j hj => by simpa using hj⟩

theorem raw_migrateDayIndex (L : Strings) (a : Raw.App) (date : Time) (index : Int)
    (hr : a.Store.decoded.InRange)
    (hnext : (Time.ofDay (date.dayNo + 1)).encodable = true)
    (ht : a.Store.tail (date.dayNo + 1) = .closed) :
    Raw.Agrees a.Store.tail (a.MigrateDayIndex L date index)
      (a.decoded.MigrateDayIndex L date index) := by
  simp only [Raw.App.MigrateDayIndex, App.MigrateDayIndex, Raw.FSStore.LoadDay, decoded_store]
  cases hl : a.Store.decoded.LoadDay (dateOnly date) with
  | error e => exact agrees_refl a _
  | ok items =>
    simp only []
    split
    · exact agrees_refl a _
    · cases hi : items[index.toNat]? with
      | none => exact agrees_refl a _
      | some orig =>
        simp only []
        have horig : orig.encodable = true := by
          obtain ⟨-, rfl⟩ := loadDay_ok _ _ _ hl
          exact hr.2 _ orig (List.getElem?_mem hi)
        split
        · rcases hsf : orig.ScheduledFor with _ | sf
          all_goals simp only []
          all_goals
            split
            · exact agrees_refl a _
            · exact raw_undo_tail a _ _ _ _ hr (encodable_restored orig _ horig)
        · split
          · exact agrees_refl a _
          · have hday : (dateOnly date).AddDays 1 = Time.ofDay (date.dayNo + 1) := by
              unfold dateOnly
              rw [ofDay_addDays]
            refine raw_forward_tail a _ _ _ _ hr
              (encodable_marked orig _ _ horig (by rw [hday]; exact hnext))
              (encodable_clone orig) ?_
            rw [hday, dayNo_ofDay]
            exact closeTail_mono _ _ _ ht

theorem inRange_scheduleDayIndex (L : Strings) (a : App) (date target : Time) (index : Int)
    (hr : a.Store.InRange)
    (hfw : ∀ (items : List Bullet) (orig : Bullet),
      a.Store.LoadDay (dateOnly date) = .ok items → items[index.toNat]? = some orig →
      orig.Typ ≠ Scheduled → (Time.ofDay target.dayNo).encodable = true) :
    (a.ScheduleDayIndex L date index target).2.Store.InRange := by
  simp only [App.ScheduleDayIndex]
  cases hl : a.Store.LoadDay (dateOnly date) with
  | error e => exact hr
  | ok items =>
    simp only []
    split
    · exact hr
    · cases hi : items[index.toNat]? with
      | none => exact hr
      | some orig =>
        simp only []
        have horig : orig.encodable = true := by
          obtain ⟨-, rfl⟩ := loadDay_ok _ _ _ hl
          exact hr.2 _ orig (List.getElem?_mem hi)
        split
        · rcases hsf : orig.ScheduledFor with _ | sf
          · exact hr
          · simp only []
            split
            · exact hr
            · exact inRange_undo_tail a _ _ _ _ hr (encodable_restored orig _ horig)
        · next hns =>
          split
          · exact hr
          · exact inRange_forward_tail a _ _ _ _ hr
              (encodable_marked orig _ _ horig (hfw items orig hl hi hns))
              (encodable_clone orig)

theorem raw_scheduleDayIndex (L : Strings) (a : Raw.App) (date target : Time) (index : Int)
    (hr : a.Store.decoded.InRange)
    (hfw : ∀ (items : List Bullet) (orig : Bullet),
      a.Store.decoded.LoadDay (dateOnly date) = .ok items → items[index.toNat]? = some orig →
      orig.Typ ≠ Scheduled →
      (Time.ofDay target.dayNo).encodable = true ∧
      (target.dayNo = date.dayNo ∨ a.Store.tail target.dayNo = .closed)) :
    Raw.Agrees a.Store.tail (a.ScheduleDayIndex L date index target)
      (a.decoded.ScheduleDayIndex L date index target) := by
  simp only [Raw.App.ScheduleDayIndex, App.ScheduleDayIndex, Raw.FSStore.LoadDay, decoded_store]
  cases hl : a.Store.decoded.LoadDay (dateOnly date) with
  | error e => exact agrees_refl a _
  | ok items =>
    simp only []
    split
    · exact agrees_refl a _
    · cases hi : items[index.toNat]? with
      | none => exact agrees_refl a _
      | some orig =>
        simp only []
        have horig : orig.encodable = true := by
          obtain ⟨-, rfl⟩ := loadDay_ok _ _ _ hl
          exact hr.2 _ orig (List.getElem?_mem hi)
        split
        · rcases hsf : orig.ScheduledFor with _ | sf
          · exact agrees_refl a _
          · simp only []
            split
            · exact agrees_refl a _
            · exact raw_undo_tail a _ _ _ _ hr (encodable_restored orig _ horig)
        · next hns =>
          split
          · exact agrees_refl a _
          · have h := hfw items orig hl hi hns
            refine raw_forward_tail a _ _ _ _ hr
              (encodable_marked orig _ _ horig h.1) (encodable_clone orig) ?_
            unfold closeTail
            rw [dayNo_dateOnly, dayNo_dateOnly]
            split
            · rfl
            · next hne =>
              rcases h.2 with h2 | h2
              · exact absurd h2 hne
              · exact h2

theorem agrees_record {t0 : Int → Tail} {r : Option Err × Raw.App} {r0 : Option Err × App}
    (h : Raw.Agrees t0 r r0) (k : Int) : r.2.Store.record k = r0.2.Store.record k := by
  unfold Raw.FSStore.record
  rw [← h.2.1]
  rfl

/-! ## The example stores on disk -/

theorem healthy_diskOf (files : Int → Option (List Bullet))
    (h : ∀ k, ∀ b ∈ (files k).getD [], b.encodable = true) : (diskOf files).Healthy := by
  refine ⟨fun _ => ⟨rfl, rfl⟩, ?_, h⟩
  intro n
  show Time.encodable ⟨jan1.ns + 3600000000000 + ((n % 1000000000 : Nat) : Int)⟩ = true
  have hj : jan1.ns = 63839664000000000000 := by decide
  have hd : (⟨jan1.ns + 3600000000000 + ((n % 1000000000 : Nat) : Int)⟩ : Time).dayNo
      = 738885 := by
    unfold Time.dayNo nanosPerDay
    simp only [hj]
    omega
  unfold Time.encodable
  rw [hd]
  decide

theorem healthy_diskOne (t : Time) (items : List Bullet)
    (h : ∀ b ∈ items, b.encodable = true) : (diskOne t items).Healthy := by
  apply healthy_diskOf
  intro k b hb
  by_cases hk : k = t.dayNo
  · simp only [hk, if_true, Option.getD_some] at hb
    exact h b hb
  · simp [hk] at hb

theorem healthy_diskTwo (t1 : Time) (items1 : List Bullet) (t2 : Time) (items2 : List Bullet)
    (h1 : ∀ b ∈ items1, b.encodable = true) (h2 : ∀ b ∈ items2, b.encodable = true) :
    (diskTwo t1 items1 t2 items2).Healthy := by
  apply healthy_diskOf
  intro k b hb
  by_cases hk : k = t1.dayNo
  · simp only [hk, if_true, Option.getD_some] at hb
    exact h1 b hb
  · by_cases hk2 : k = t2.dayNo
    · rw [if_neg hk, if_pos hk2] at hb
      exact h2 b hb
    · simp [hk, hk2] at hb

theorem raw_append_ok (s : Raw.FSStore) (date : Time) (b : Bullet)
    (ht : s.tail date.dayNo = .closed) (h : (s.Append date b).1 = none) :
    s.Append date b = Raw.lift s date.dayNo (s.decoded.Append date b) ∧
      (stamp s.decoded b).1.encodable = true := by
  unfold Raw.FSStore.Append at h ⊢
  unfold Raw.lift
  rw [append_result]
  by_cases hw : s.decoded.writeErr date.dayNo = true
  · simp [hw] at h
  · by_cases he : (stamp s.decoded b).1.encodable = true
    · simp [hw, he, ht, record_stamp]
    · simp [hw, he] at h

/-! ## An entry the encoder rejects -/

theorem saveLoop_reject (s : FSStore) (items : List Bullet) (hst : Stamped items)
    (h : ∃ b ∈ items, b.encodable = false) : saveLoop s items = (none, s) := by
  induction items with
  | nil =>
    obtain ⟨b, hb, -⟩ := h
    simp at hb
  | cons x rest ih =>
    have hx := hst x (List.mem_cons_self _ _)
    have hr : Stamped rest := fun y hy => hst y (List.mem_cons_of_mem _ hy)
    simp only [saveLoop, stamp_eq_self s x hx.1 hx.2]
    by_cases he : x.encodable = true
    · obtain ⟨b, hb, hbe⟩ := h
      rcases List.mem_cons.1 hb with hb | hb
      · rw [hb, he] at hbe
        cases hbe
      · simp only [he, if_true, ih hr ⟨b, hb, hbe⟩]
    · simp only [he]
      rfl

theorem raw_update_reject (s : Raw.FSStore) (hio : s.decoded.Healthy) (date : Time)
    (b e : Bullet) (i : Nat)
    (hi : (s.record date.dayNo)[i]? = some e) (hid : e.ID = b.ID)
    (hst : Stamped (s.record date.dayNo)) (hd : DistinctIDs (s.record date.dayNo))
    (hb : b.CreatedAt.IsZero = false) (hnb : b.encodable = false) :
    s.Update date b = (some (.encode date.dayNo), s) := by
  unfold Raw.FSStore.record at hi hst hd
  have he : e ∈ s.decoded.record date.dayNo := List.getElem?_mem hi
  have hb1 : b.ID ≠ "" := hid ▸ (hst e he).1
  have hlt : i < (s.decoded.record date.dayNo).length := by
    by_contra hc
    have : (s.decoded.record date.dayNo)[i]? = none := List.getElem?_eq_none (by omega)
    rw [this] at hi
    cases hi
  simp only [Raw.FSStore.Update, Raw.FSStore.LoadDay, loadDay_eq hio, Raw.FSStore.SaveDay,
    (hio date.dayNo).2]
  rw [replaceFirst_eq_set b e _ i hi hid hd,
    saveLoop_reject _ _ (stamped_set hst i b hb1 hb) ⟨b, List.mem_set _ _ hlt b, hnb⟩]
  simp

theorem marked_rejected (b : Bullet) (t : BulletType) (sf : Time)
    (hsf : sf.encodable = false) :
    Bullet.encodable { b with Typ := t, CompletedAt := none, ScheduledFor := some sf }
      = false := by
  unfold Bullet.encodable
  simp [hsf]

theorem raw_migrate_reject (L : Strings) (a : Raw.App) (date : Time) (i : Nat) (e : Bullet)
    (hio : a.Store.decoded.Healthy)
    (hi : (a.Store.record date.dayNo)[i]? = some e)
    (hk : e.Typ = Task ∨ e.Typ = Event)
    (hd : DistinctIDs (a.Store.record date.dayNo))
    (hst : Stamped (a.Store.record date.dayNo))
    (hyear : (Time.ofDay (date.dayNo + 1)).encodable = false) :
    a.MigrateDayIndex L date i = (some (.encode date.dayNo), a) := by
  have he : e ∈ a.Store.decoded.record date.dayNo := List.getElem?_mem hi
  have hnm : e.Typ ≠ Migrated := by
    rcases hk with h | h <;> rw [h] <;> decide
  have hnn : ¬ (e.Typ ≠ Task ∧ e.Typ ≠ Event) := by tauto
  have hi0 : (a.Store.decoded.record date.dayNo)[i]? = some e := hi
  have hu := raw_update_reject a.Store hio (dateOnly date)
    { e with Typ := Migrated, CompletedAt := none,
             ScheduledFor := some (Time.ofDay (date.dayNo + 1)) }
    e i (by simpa [dayNo_dateOnly] using hi) rfl (by simpa [dayNo_dateOnly] using hst)
    (by simpa [dayNo_dateOnly] using hd) (hst e he).2 (marked_rejected e _ _ hyear)
  simp only [dayNo_dateOnly] at hu
  simp only [Raw.App.MigrateDayIndex, Raw.FSStore.LoadDay, loadDay_eq hio, dayNo_dateOnly,
    if_neg (index_ok _ i e hi0), Int.toNat_ofNat, hi0, if_neg hnm, if_neg hnn,
    dateOnly_addDays, hu]

theorem raw_schedule_reject (L : Strings) (a : Raw.App) (date target : Time) (i : Nat)
    (e : Bullet)
    (hio : a.Store.decoded.Healthy)
    (hi : (a.Store.record date.dayNo)[i]? = some e)
    (hk : e.Typ = Task ∨ e.Typ = Event)
    (hd : DistinctIDs (a.Store.record date.dayNo))
    (hst : Stamped (a.Store.record date.dayNo))
    (hyear : (Time.ofDay target.dayNo).encodable = false) :
    a.ScheduleDayIndex L date i target = (some (.encode date.dayNo), a) := by
  have he : e ∈ a.Store.decoded.record date.dayNo := List.getElem?_mem hi
  have hnm : e.Typ ≠ Scheduled := by
    rcases hk with h | h <;> rw [h] <;> decide
  have hnn : ¬ (e.Typ ≠ Task ∧ e.Typ ≠ Event) := by tauto
  have hi0 : (a.Store.decoded.record date.dayNo)[i]? = some e := hi
  have hu := raw_update_reject a.Store hio (dateOnly date)
    { e with Typ := Scheduled, CompletedAt := none,
             ScheduledFor := some (Time.ofDay target.dayNo) }
    e i (by simpa [dayNo_dateOnly] using hi) rfl (by simpa [dayNo_dateOnly] using hst)
    (by simpa [dayNo_dateOnly] using hd) (hst e he).2 (marked_rejected e _ _ hyear)
  have ht : dateOnly target = Time.ofDay target.dayNo := rfl
  simp only [dayNo_dateOnly] at hu
  simp only [Raw.App.ScheduleDayIndex, Raw.FSStore.LoadDay, loadDay_eq hio, dayNo_dateOnly,
    if_neg (index_ok _ i e hi0), Int.toNat_ofNat, hi0, if_neg hnm, if_neg hnn, ht, hu]

/-! ## A zone without offset change -/

theorem plain_toWall (Z : Zone) (o : Int) (hZ : ∀ x, (Z.lookup x).1 = o) (x : Int) :
    Z.toWall x = x + o := by
  unfold Zone.toWall
  rw [hZ]

theorem plain_toInst (Z : Zone) (o : Int) (hZ : ∀ x, (Z.lookup x).1 = o) (w : Int) :
    Z.toInst w = w - o := by
  unfold Zone.toInst
  have h1 := hZ w
  rcases hl : Z.lookup w with ⟨off, st, en⟩
  rw [hl] at h1
  simp only at h1
  subst h1
  simp only []
  by_cases h0 : off = 0
  · simp [h0]
  · simp only [ne_eq, h0, not_false_eq_true, if_true]
    split
    · rw [hZ]
    · rfl

theorem raw_collectDays_plain (Z : Zone) (o : Int) (hZ : ∀ x, (Z.lookup x).1 = o)
    (s : Raw.FSStore) (last : Time) (fuel : Nat) (d : Time) :
    Raw.collectDays Z s (last.ns - o) fuel (d.ns - o) = collectDays s.decoded last fuel d := by
  induction fuel generalizing d with
  | zero => rfl
  | succ n ih =>
    have hw : (⟨Z.toWall (d.ns - o)⟩ : Time) = d := by
      rw [plain_toWall Z o hZ]
      cases d
      simp
    have hn : d.ns - o + nanosPerDay = (d.Add nanosPerDay).ns - o := by
      unfold Time.Add
      simp only []
      omega
    simp only [Raw.collectDays, collectDays, hw, hn, ih, Raw.FSStore.LoadDay, Time.After]
    by_cases h : last.ns < d.ns
    · have h' : last.ns - o < d.ns - o := by omega
      simp [h, h']
    · have h' : ¬ last.ns - o < d.ns - o := by omega
      simp [h, h']

theorem raw_refresh_plain (Z : Zone) (hZ : Z.Plain) (a : Raw.App) :
    Raw.Agrees a.Store.tail (a.Refresh Z) (a.decoded.Refresh) := by
  obtain ⟨o, ho⟩ := hZ
  unfold Raw.App.Refresh App.Refresh Raw.App.dateRange
  simp only [plain_toInst Z o ho, raw_collectDays_plain Z o ho, decoded_store]
  have hf : (a.decoded.dateRange.End.ns - o - (a.decoded.dateRange.Start.ns - o)) / nanosPerDay
      = (a.decoded.dateRange.End.ns - a.decoded.dateRange.Start.ns) / nanosPerDay := by
    congr 1
    omega
  rw [hf]
  rcases hc : collectDays a.Store.decoded a.decoded.dateRange.End
      ((a.decoded.dateRange.End.ns - a.decoded.dateRange.Start.ns) / nanosPerDay + 1).toNat
      a.decoded.dateRange.Start with e | entries
  · exact ⟨rfl, rfl, fun _ h => h⟩
  · exact ⟨rfl, rfl, fun _ h => h⟩

theorem raw_collectDays_fuel (Z : Zone) (s : Raw.FSStore) (last : Int) (n m : Nat) (x : Int)
    (hn : ((last - x) / nanosPerDay + 1).toNat ≤ n) (hm : n ≤ m) :
    Raw.collectDays Z s last m x = Raw.collectDays Z s last n x := by
  induction n generalizing m x with
  | zero =>
    have hx : last < x := by
      unfold nanosPerDay at hn
      omega
    cases m with
    | zero => rfl
    | succ m => simp [Raw.collectDays, hx]
  | succ n ih =>
    cases m with
    | zero => omega
    | succ m =>
      simp only [Raw.collectDays]
      split
      · rfl
      · next hx =>
        rw [ih m (x + nanosPerDay) (by unfold nanosPerDay at hn ⊢; omega) (by omega)]

theorem raw_refresh_collects (Z : Zone) (hZ : Z.Plain) (a : Raw.App)
    (h : (a.Refresh Z).1 = none) :
    (a.Refresh Z).2.Items =
      collectSpec a.Store.decoded a.dateRange.Start.dayNo a.dateRange.End.dayNo := by
  have hag := raw_refresh_plain Z hZ a
  have h0 := ((decoded_refresh_collects a.decoded).2 (hag.1.symm.trans h)).1
  have hi : (a.Refresh Z).2.Items = (a.Refresh Z).2.decoded.Items := rfl
  rw [hi, hag.2.1, h0]
  rfl

/-! ## Migration by day index on disk, forward direction -/

/-- C1, as amended.  Let `e` be the entry at index `i` of the record of day `D` (the
day of `date`), of type Task or Event, where the ids of `D` are pairwise distinct
and, in addition to what the claim asks, every entry of `D` has a non-empty id and a
non-zero `CreatedAt`, the day file of `D+1` is missing, empty or ends in a newline,
and `D+1` is not after 9999-12-31.  When no file operation fails and the times of the
clock and of the day files lie in the years 0 to 9999, `MigrateDayIndex` returns no
error; the record of `D` is the old one with entry `i` replaced by `e` with type
Migrated, `ScheduledFor` midnight of `D+1` and no `CompletedAt`; the record of `D+1`
is the old one followed by one entry with the type, text and tags of `e`, a non-empty
id and neither `ScheduledFor` nor `CompletedAt`. -/
theorem migrateDayIndex_forward (L : Strings) (a : Raw.App) (date : Time) (i : Nat)
    (e : Bullet)
    (hio : a.Store.Healthy)
    (hi : (a.Store.record date.dayNo)[i]? = some e)
    (hk : e.Typ = Task ∨ e.Typ = Event)
    (hd : DistinctIDs (a.Store.record date.dayNo))
    (hst : Stamped (a.Store.record date.dayNo))
    (hend : a.Store.tail (date.dayNo + 1) = .closed)
    (hyear : (Time.ofDay (date.dayNo + 1)).encodable = true) :
    (a.MigrateDayIndex L date i).1 = none ∧
    (a.MigrateDayIndex L date i).2.Store.record date.dayNo =
      (a.Store.record date.dayNo).set i
        { e with Typ := Migrated, ScheduledFor := some (Time.ofDay (date.dayNo + 1)),
                 CompletedAt := none } ∧
    ∃ c, (a.MigrateDayIndex L date i).2.Store.record (date.dayNo + 1) =
          a.Store.record (date.dayNo + 1) ++ [c] ∧
      c.Typ = e.Typ ∧ c.Text = e.Text ∧ c.Tags = e.Tags ∧ c.ID ≠ "" ∧
      c.ScheduledFor = none ∧ c.CompletedAt = none := by
  have hag := raw_migrateDayIndex L a date i hio.2 hyear hend
  have h0 := decoded_migrate_forward L a.decoded date i e hio.1 hi hk hd hst
  rw [agrees_record hag, agrees_record hag, hag.1]
  exact h0

/-- Witness for C1, the end-to-end scenario of the specification: the task "Buy milk"
at index 0 of 2024-01-01 is migrated; 2024-01-02 has no file yet. -/
theorem migrateDayIndex_forward_witness :
    ((Raw.appOf (diskOne jan1 [milk "m1"])).MigrateDayIndex asciiStrings jan1 (0 : Nat)).1
      = none ∧
    ((Raw.appOf (diskOne jan1 [milk "m1"])).MigrateDayIndex asciiStrings jan1
        (0 : Nat)).2.Store.record jan1.dayNo =
      [{ milk "m1" with Typ := Migrated, ScheduledFor := some jan2 }] ∧
    (((Raw.appOf (diskOne jan1 [milk "m1"])).MigrateDayIndex asciiStrings jan1
        (0 : Nat)).2.Store.record jan2.dayNo).map (fun c => (c.Typ, c.Text)) =
      [(Task, "Buy milk")] :=
  ⟨(migrateDayIndex_forward asciiStrings (Raw.appOf (diskOne jan1 [milk "m1"])) jan1 0
      (milk "m1") (healthy_diskOne _ _ (by decide)) (by decide) (Or.inl rfl) (by decide)
      (by decide) rfl (by decide)).1, by decide, by decide⟩

/-- C1 fails as stated, in four ways.  (1) The record of 2024-01-01 holds the single
task "Buy milk" whose id is empty (its ids are pairwise distinct): after
`MigrateDayIndex` the entry at index 0 carries a generated id, so it is not `e` with
only type, `ScheduledFor` and `CompletedAt` changed.  (2) The same happens to a zero
`CreatedAt`.  (3) The file of 2024-01-02 holds the note "Call Ann" in a last line
without newline: `MigrateDayIndex` returns no error, but the clone is written onto
that line, and 2024-01-02 then decodes to nothing.  (4) The task is on 9999-12-31:
the anchor would get the year 10000 as its `ScheduledFor`, the encoder rejects it,
`MigrateDayIndex` returns an error and the day is as it was. -/
theorem migrateDayIndex_forward_fails :
    (DistinctIDs ((Raw.appOf (diskOne jan1 [milk ""])).Store.record jan1.dayNo) ∧
      ((Raw.appOf (diskOne jan1 [milk ""])).Store.record jan1.dayNo)[0]? = some (milk "") ∧
      (milk "").Typ = Task ∧
      ((Raw.appOf (diskOne jan1 [milk ""])).MigrateDayIndex asciiStrings jan1
          0).2.Store.record jan1.dayNo =
        [{ milk "1704070800000000000-0000000000000001" with
            Typ := Migrated, ScheduledFor := some (Time.ofDay (jan1.dayNo + 1)) }]) ∧
    (DistinctIDs [{ milk "m1" with CreatedAt := Time.zero }] ∧
      ((Raw.appOf (diskOne jan1 [{ milk "m1" with CreatedAt := Time.zero }])).MigrateDayIndex
          asciiStrings jan1 0).2.Store.record jan1.dayNo ≠
        [{ milk "m1" with CreatedAt := Time.zero, Typ := Migrated,
                          ScheduledFor := some (Time.ofDay (jan1.dayNo + 1)),
                          CompletedAt := none }]) ∧
    (((Raw.appOf ((diskTwo jan1 [milk "m1"] jan2 [memo "n1"]).endingIn jan2
          .entry)).MigrateDayIndex asciiStrings jan1 0).1 = none ∧
      (Raw.appOf ((diskTwo jan1 [milk "m1"] jan2 [memo "n1"]).endingIn jan2
          .entry)).Store.record jan2.dayNo = [memo "n1"] ∧
      ((Raw.appOf ((diskTwo jan1 [milk "m1"] jan2 [memo "n1"]).endingIn jan2
          .entry)).MigrateDayIndex asciiStrings jan1 0).2.Store.record jan2.dayNo = []) ∧
    ((lastDay.dayNo, civilFromDays (lastDay.dayNo + 1)) = (3652058, (10000, 1, 1)) ∧
      ((Raw.appOf (diskOne lastDay [milk "m1"])).MigrateDayIndex asciiStrings lastDay 0).1 =
        some (.encode lastDay.dayNo) ∧
      ((Raw.appOf (diskOne lastDay [milk "m1"])).MigrateDayIndex asciiStrings lastDay
        0).2.Store.record lastDay.dayNo = [milk "m1"]) := by
  decide

/-! ## Migration by day index on disk, undo -/

/-- C2, as amended.  Let `e` be a Task without `ScheduledFor` and `CompletedAt` at
index `i` of the record of day `D`, and let day `D+1` hold no Task or Event whose text
equals that of `e` under `EqualFold`.  Assume in addition that the entries of `D` have
non-empty, pairwise distinct ids and a non-zero `CreatedAt`, that the entries of `D+1`
have a non-empty id and a non-zero `CreatedAt`, that the id generated for the clone
does not occur on `D+1`, that the day file of `D+1` is missing, empty or ends in a
newline, that `EqualFold` is reflexive, that no file operation fails and that the
times of the clock and of the day files lie in the years 0 to 9999.  Then
`MigrateDayIndex` called twice leaves the record of every day, `D` and `D+1` included,
equal to what it was.  Both calls return no error when `D+1` is not after 9999-12-31;
otherwise the first call is rejected by the encoder and changes nothing. -/
theorem migrateDayIndex_inverse (L : Strings) (hL : ∀ s, L.EqualFold s s = true)
    (a : Raw.App) (date : Time) (i : Nat) (e : Bullet)
    (hio : a.Store.Healthy)
    (hi : (a.Store.record date.dayNo)[i]? = some e)
    (hk : e.Typ = Task) (hs : e.ScheduledFor = none) (hc : e.CompletedAt = none)
    (hno : ∀ b ∈ a.Store.record (date.dayNo + 1),
      (b.Typ = Task ∨ b.Typ = Event) → L.EqualFold b.Text e.Text = false)
    (hst : Stamped (a.Store.record date.dayNo))
    (hd : DistinctIDs (a.Store.record date.dayNo))
    (hstT : Stamped (a.Store.record (date.dayNo + 1)))
    (hfresh : (generateID a.Store.decoded).1 ∉ (a.Store.record (date.dayNo + 1)).map (·.ID))
    (hend : a.Store.tail (date.dayNo + 1) = .closed) :
    ((Time.ofDay (date.dayNo + 1)).encodable = true →
      (a.MigrateDayIndex L date i).1 = none ∧
      ((a.MigrateDayIndex L date i).2.MigrateDayIndex L date i).1 = none) ∧
    ((Time.ofDay (date.dayNo + 1)).encodable = false →
      a.MigrateDayIndex L date i = (some (.encode date.dayNo), a)) ∧
    ∀ k, ((a.MigrateDayIndex L date i).2.MigrateDayIndex L date i).2.Store.record k =
      a.Store.record k := by
  cases hyear : (Time.ofDay (date.dayNo + 1)).encodable
  · have hrej := raw_migrate_reject L a date i e hio.1 hi (Or.inl hk) hd hst hyear
    refine ⟨(fun h => Bool.noConfusion h), fun _ => hrej, fun k => ?_⟩
    rw [hrej]
    simp only []
    rw [hrej]
  · have hag := raw_migrateDayIndex L a date i hio.2 hyear hend
    have hr1 := inRange_migrateDayIndex L a.decoded date i hio.2 hyear
    rw [← hag.2.1] at hr1
    have hag2 := raw_migrateDayIndex L (a.MigrateDayIndex L date i).2 date i hr1 hyear
      (hag.2.2 _ hend)
    rw [hag.2.1] at hag2
    have h0 := decoded_migrate_inverse L hL a.decoded date i e hio.1 hi hk hs hc hno hst hd
      hstT hfresh
    refine ⟨fun _ => ⟨hag.1.trans h0.1, hag2.1.trans h0.2.1⟩, (fun h => Bool.noConfusion h), ?_⟩
    intro k
    rw [agrees_record hag2]
    exact h0.2.2 k

/-- Witness for C2: the task "Buy milk" at index 0 of 2024-01-01 is migrated and the
migration is undone; 2024-01-02 holds a note.  Both days are as they were. -/
theorem migrateDayIndex_inverse_witness :
    (((Raw.appOf (diskTwo jan1 [milk "m1"] jan2 [memo "n1"])).MigrateDayIndex asciiStrings jan1
        (0 : Nat)).2.MigrateDayIndex asciiStrings jan1 (0 : Nat)).1 = none ∧
    (((Raw.appOf (diskTwo jan1 [milk "m1"] jan2 [memo "n1"])).MigrateDayIndex asciiStrings jan1
        (0 : Nat)).2.MigrateDayIndex asciiStrings jan1 (0 : Nat)).2.Store.record jan1.dayNo
      = [milk "m1"] ∧
    (((Raw.appOf (diskTwo jan1 [milk "m1"] jan2 [memo "n1"])).MigrateDayIndex asciiStrings jan1
        (0 : Nat)).2.MigrateDayIndex asciiStrings jan1 (0 : Nat)).2.Store.record jan2.dayNo
      = [memo "n1"] :=
  have h := migrateDayIndex_inverse asciiStrings (fun s => by simp [asciiStrings])
    (Raw.appOf (diskTwo jan1 [milk "m1"] jan2 [memo "n1"])) jan1 0 (milk "m1")
    (healthy_diskTwo _ _ _ _ (by decide) (by decide)) (by decide) rfl rfl rfl (by decide)
    (by decide) (by decide) (by decide) (by decide) rfl
  ⟨(h.1 (by decide)).2, (h.2.2 jan1.dayNo).trans (by decide),
    (h.2.2 jan2.dayNo).trans (by decide)⟩

/-- C2 fails as stated, which asks nothing of the ids nor of the file of `D+1`.  In
each input the task "Buy milk" is on 2024-01-01 and 2024-01-02 holds no Task or Event.
(1) The task has an empty id: after the two calls it carries a generated id.  (2) The
task at index 1 shares the id `a` with the note at index 0: both calls take the
forward branch, the note is overwritten by the anchor and 2024-01-02 ends with two
clones.  (3) A note with an empty id is stored on 2024-01-02: the undo rewrites that
day and the note receives an id.  (4) A note on 2024-01-02 already carries the id that
is generated for the clone: the undo deletes it together with the clone.  (5) The file
of 2024-01-02 holds a note in a last line without newline: the clone is written onto
that line, the undo finds no clone, and 2024-01-02 has lost its note. -/
theorem migrateDayIndex_inverse_fails :
    ((((Raw.appOf (diskOne jan1 [milk ""])).MigrateDayIndex asciiStrings jan1
        0).2.MigrateDayIndex asciiStrings jan1 0).2.Store.record jan1.dayNo =
        [milk "1704070800000000000-0000000000000001"] ∧
      (((Raw.appOf (diskOne jan1 [milk ""])).MigrateDayIndex asciiStrings jan1
        0).2.MigrateDayIndex asciiStrings jan1 0).2.Store.record jan1.dayNo ≠
        (Raw.appOf (diskOne jan1 [milk ""])).Store.record jan1.dayNo) ∧
    ((((Raw.appOf (diskOne jan1 [memo "a", milk "a"])).MigrateDayIndex asciiStrings jan1
        1).2.MigrateDayIndex asciiStrings jan1 1).2.Store.record jan1.dayNo =
        [forwarded (milk "a") Migrated jan2, milk "a"] ∧
      ((((Raw.appOf (diskOne jan1 [memo "a", milk "a"])).MigrateDayIndex asciiStrings jan1
        1).2.MigrateDayIndex asciiStrings jan1 1).2.Store.record jan2.dayNo).map (·.Text) =
        ["Buy milk", "Buy milk"]) ∧
    ((((Raw.appOf (diskTwo jan1 [milk "m1"] jan2 [memo ""])).MigrateDayIndex asciiStrings jan1
        0).2.MigrateDayIndex asciiStrings jan1 0).2.Store.record jan2.dayNo =
        [memo "1704070800000000002-0000000000000002"] ∧
      (((Raw.appOf (diskTwo jan1 [milk "m1"] jan2 [memo ""])).MigrateDayIndex asciiStrings jan1
        0).2.MigrateDayIndex asciiStrings jan1 0).2.Store.record jan2.dayNo ≠
        (Raw.appOf (diskTwo jan1 [milk "m1"] jan2 [memo ""])).Store.record jan2.dayNo) ∧
    ((((Raw.appOf (diskTwo jan1 [milk "m1"] jan2
        [memo "1704070800000000000-0000000000000001"])).MigrateDayIndex asciiStrings jan1
        0).2.MigrateDayIndex asciiStrings jan1 0).2.Store.record jan2.dayNo = []) ∧
    ((Raw.appOf ((diskTwo jan1 [milk "m1"] jan2 [memo "n1"]).endingIn jan2
        .entry)).Store.record jan2.dayNo = [memo "n1"] ∧
      (((Raw.appOf ((diskTwo jan1 [milk "m1"] jan2 [memo "n1"]).endingIn jan2
        .entry)).MigrateDayIndex asciiStrings jan1 0).2.MigrateDayIndex asciiStrings jan1
        0).1 = none ∧
      (((Raw.appOf ((diskTwo jan1 [milk "m1"] jan2 [memo "n1"]).endingIn jan2
        .entry)).MigrateDayIndex asciiStrings jan1 0).2.MigrateDayIndex asciiStrings jan1
        0).2.Store.record jan2.dayNo = []) := by
  decide

/-! ## Scheduling by day index on disk -/

/-- C4, as amended.  Let `e` be the entry at index `i` of the record of day `D`, of
type Task or Event, and let `target` be any date (the day `T` of `target` may be `D`
or earlier).  Assume in addition that the entries of `D` have non-empty, pairwise
distinct ids and a non-zero `CreatedAt`, that the day file of `T`, unless `T = D`, is
missing, empty or ends in a newline, that `T` is not after 9999-12-31 nor before the
year 0, that no file operation fails and that the times of the clock and of the day
files lie in the years 0 to 9999.  Then `ScheduleDayIndex` returns no error; entry `i`
of `D` becomes `e` with type Scheduled, `ScheduledFor` midnight of `T` and no
`CompletedAt`; the record of `T` is its previous content (after that rewrite when
`T = D`) followed by one new entry with the type, text and tags of `e`, a non-empty
id and neither `ScheduledFor` nor `CompletedAt`; all other records are unchanged. -/
theorem scheduleDayIndex_forward (L : Strings) (a : Raw.App) (date target : Time) (i : Nat)
    (e : Bullet)
    (hio : a.Store.Healthy)
    (hi : (a.Store.record date.dayNo)[i]? = some e)
    (hk : e.Typ = Task ∨ e.Typ = Event)
    (hd : DistinctIDs (a.Store.record date.dayNo))
    (hst : Stamped (a.Store.record date.dayNo))
    (hend : target.dayNo = date.dayNo ∨ a.Store.tail target.dayNo = .closed)
    (hyear : (Time.ofDay target.dayNo).encodable = true) :
    (a.ScheduleDayIndex L date i target).1 = none ∧
    ∃ c, c.Typ = e.Typ ∧ c.Text = e.Text ∧ c.Tags = e.Tags ∧ c.ID ≠ "" ∧
      c.ScheduledFor = none ∧ c.CompletedAt = none ∧
      ∀ k, (a.ScheduleDayIndex L date i target).2.Store.record k =
        (if k = date.dayNo then
            (a.Store.record date.dayNo).set i
              { e with Typ := Scheduled, ScheduledFor := some (Time.ofDay target.dayNo),
                       CompletedAt := none }
          else a.Store.record k) ++ (if k = target.dayNo then [c] else []) := by
  have hag := raw_scheduleDayIndex L a date target i hio.2 (fun _ _ _ _ _ => ⟨hyear, hend⟩)
  obtain ⟨h1, c, c1, c2, c3, c4, c5, c6, hc⟩ :=
    decoded_schedule_forward L a.decoded date target i e hio.1 hi hk hd hst
  exact ⟨hag.1.trans h1, c, c1, c2, c3, c4, c5, c6,
    fun k => (agrees_record hag k).trans (hc k)⟩

/-- Witness for C4: the task "Buy milk" at index 0 of 2024-01-01 is scheduled for the
same day. -/
theorem scheduleDayIndex_forward_witness :
    ((Raw.appOf (diskOne jan1 [milk "m1"])).ScheduleDayIndex asciiStrings jan1 (0 : Nat)
      jan1).1 = none ∧
    (((Raw.appOf (diskOne jan1 [milk "m1"])).ScheduleDayIndex asciiStrings jan1 (0 : Nat)
      jan1).2.Store.record jan1.dayNo).map (fun c => (c.Typ, c.Text, c.ScheduledFor)) =
      [(Scheduled, "Buy milk", some jan1), (Task, "Buy milk", none)] :=
  ⟨(scheduleDayIndex_forward asciiStrings (Raw.appOf (diskOne jan1 [milk "m1"])) jan1 jan1 0
      (milk "m1") (healthy_diskOne _ _ (by decide)) (by decide) (Or.inl rfl) (by decide)
      (by decide) (Or.inl rfl) (by decide)).1, by decide⟩

/-- C4 fails as stated, which asks nothing of the ids, of the file of `T` nor of the
year of `T`.  (1) The task "Buy milk" at index 0 of 2024-01-01 has an empty id:
scheduled for 2024-01-02, the anchor carries a generated id.  (2) The task at index 1
shares the id `a` with the note at index 0: the note is overwritten by the anchor and
the entry at index 1 is still the task.  (3) The file of 2024-01-02 holds a note in a
last line without newline: `ScheduleDayIndex` returns no error, the clone is written
onto that line and 2024-01-02 then decodes to nothing.  (4) The target is 10000-01-01:
the encoder rejects the anchor, `ScheduleDayIndex` returns an error and 2024-01-01 is
as it was. -/
theorem scheduleDayIndex_forward_fails :
    (((Raw.appOf (diskOne jan1 [milk ""])).ScheduleDayIndex asciiStrings jan1 0
        jan2).2.Store.record jan1.dayNo =
        [forwarded (milk "1704070800000000000-0000000000000001") Scheduled jan2] ∧
      ((Raw.appOf (diskOne jan1 [milk ""])).ScheduleDayIndex asciiStrings jan1 0
        jan2).2.Store.record jan1.dayNo ≠ [forwarded (milk "") Scheduled jan2]) ∧
    (((Raw.appOf (diskOne jan1 [memo "a", milk "a"])).ScheduleDayIndex asciiStrings jan1 1
        jan2).2.Store.record jan1.dayNo =
        [forwarded (milk "a") Scheduled jan2, milk "a"] ∧
      ((Raw.appOf (diskOne jan1 [memo "a", milk "a"])).ScheduleDayIndex asciiStrings jan1 1
        jan2).2.Store.record jan1.dayNo ≠ [memo "a", forwarded (milk "a") Scheduled jan2]) ∧
    (((Raw.appOf ((diskTwo jan1 [milk "m1"] jan2 [memo "n1"]).endingIn jan2
        .entry)).ScheduleDayIndex asciiStrings jan1 0 jan2).1 = none ∧
      ((Raw.appOf ((diskTwo jan1 [milk "m1"] jan2 [memo "n1"]).endingIn jan2
        .entry)).ScheduleDayIndex asciiStrings jan1 0 jan2).2.Store.record jan2.dayNo = []) ∧
    (civilFromDays (Time.Date 10000 1 1).dayNo = (10000, 1, 1) ∧
      ((Raw.appOf (diskOne jan1 [milk "m1"])).ScheduleDayIndex asciiStrings jan1 0
        (Time.Date 10000 1 1)).1 = some (.encode jan1.dayNo) ∧
      ((Raw.appOf (diskOne jan1 [milk "m1"])).ScheduleDayIndex asciiStrings jan1 0
        (Time.Date 10000 1 1)).2.Store.record jan1.dayNo = [milk "m1"]) := by
  decide

/-- C5, as amended.  Let `e` be a Task or Event without `ScheduledFor` and
`CompletedAt` at index `i` of the record of day `D`, let `T` be the day of `target`,
and let `T` hold no Task or Event, other than `e` itself, whose text equals that of `e`
under `EqualFold`.  Assume in addition that the entries of `D` have non-empty, pairwise
distinct ids and a non-zero `CreatedAt`, that the entries of `T` have a non-empty id
and a non-zero `CreatedAt`, that the id generated for the clone does not occur on `T`,
that the day file of `T`, unless `T = D`, is missing, empty or ends in a newline, that
`T` lies in the years 0 to 9999, that `EqualFold` is reflexive, that no file operation
fails and that the times of the clock and of the day files lie in the years 0 to 9999.
Then `ScheduleDayIndex` with `target` followed by `ScheduleDayIndex` with any `target'`
returns no error either time and leaves the record of every day equal to what it
was; the second call does not use `target'`. -/
theorem scheduleDayIndex_inverse (L : Strings) (hL : ∀ s, L.EqualFold s s = true)
    (a : Raw.App) (date target target' : Time) (i : Nat) (e : Bullet)
    (hio : a.Store.Healthy)
    (hi : (a.Store.record date.dayNo)[i]? = some e)
    (hk : e.Typ = Task ∨ e.Typ = Event) (hs : e.ScheduledFor = none) (hc : e.CompletedAt = none)
    (hother : ∀ b ∈ (if target.dayNo = date.dayNo then (a.Store.record target.dayNo).eraseIdx i
        else a.Store.record target.dayNo),
      (b.Typ = Task ∨ b.Typ = Event) → L.EqualFold b.Text e.Text = false)
    (hst : Stamped (a.Store.record date.dayNo))
    (hd : DistinctIDs (a.Store.record date.dayNo))
    (hstT : Stamped (a.Store.record target.dayNo))
    (hfresh : (generateID a.Store.decoded).1 ∉ (a.Store.record target.dayNo).map (·.ID))
    (hend : target.dayNo = date.dayNo ∨ a.Store.tail target.dayNo = .closed)
    (hyear : (Time.ofDay target.dayNo).encodable = true) :
    (a.ScheduleDayIndex L date i target).1 = none ∧
    ((a.ScheduleDayIndex L date i target).2.ScheduleDayIndex L date i target').1 = none ∧
    ∀ k, ((a.ScheduleDayIndex L date i target).2.ScheduleDayIndex L date i
      target').2.Store.record k = a.Store.record k := by
  have hag := raw_scheduleDayIndex L a date target i hio.2
    (fun _ _ _ _ _ => ⟨hyear, hend⟩)
  have hr1 := inRange_scheduleDayIndex L a.decoded date target i hio.2
    (fun _ _ _ _ _ => hyear)
  rw [← hag.2.1] at hr1
  have hfe := forward_schedule_eq L a.decoded date target i e hio.1 hi hk hd hst
  have hst1 : (a.ScheduleDayIndex L date i target).2.Store.decoded =
      afterForward a.Store.decoded date.dayNo i e
        (forwarded e Scheduled (Time.ofDay target.dayNo)) target.dayNo := by
    rw [← decoded_store, hag.2.1, hfe]
    rfl
  have hag2 := raw_scheduleDayIndex L (a.ScheduleDayIndex L date i target).2 date target' i
    hr1 (by
      intro items orig hl hi' hns
      exfalso
      apply hns
      obtain ⟨-, rfl⟩ := loadDay_ok _ _ _ hl
      have hi0 : (a.Store.decoded.record date.dayNo)[i]? = some e := hi
      rw [hst1, record_afterForward, dayNo_dateOnly, if_pos rfl, Int.toNat_ofNat,
        List.getElem?_append_left (by
          rw [List.length_set]
          by_contra hcon
          have : (a.Store.decoded.record date.dayNo)[i]? = none :=
            List.getElem?_eq_none (by omega)
          rw [this] at hi0
          cases hi0),
        getElem?_set_at _ i e _ hi0] at hi'
      cases hi'
      rfl)
  rw [hag.2.1] at hag2
  have h0 := decoded_schedule_inverse L hL a.decoded date target target' i e hio.1 hi hk hs
    hc hother hst hd hstT hfresh
  refine ⟨hag.1.trans h0.1, hag2.1.trans h0.2.1, ?_⟩
  intro k
  rw [agrees_record hag2]
  exact h0.2.2 k

/-- Witness for C5: the task "Buy milk" at index 1 of 2024-01-01, stored after the note
"Call Ann", is scheduled for the same day and unscheduled. -/
theorem scheduleDayIndex_inverse_witness :
    (((Raw.appOf (diskOne jan1 [memo "n1", milk "m1"])).ScheduleDayIndex asciiStrings jan1
      (1 : Nat) jan1).2.ScheduleDayIndex asciiStrings jan1 (1 : Nat) jan2).1 = none ∧
    (((Raw.appOf (diskOne jan1 [memo "n1", milk "m1"])).ScheduleDayIndex asciiStrings jan1
      (1 : Nat) jan1).2.ScheduleDayIndex asciiStrings jan1 (1 : Nat) jan2).2.Store.record
        jan1.dayNo = [memo "n1", milk "m1"] :=
  have h := scheduleDayIndex_inverse asciiStrings (fun s => by simp [asciiStrings])
    (Raw.appOf (diskOne jan1 [memo "n1", milk "m1"])) jan1 jan1 jan2 1 (milk "m1")
    (healthy_diskOne _ _ (by decide)) (by decide) (Or.inl rfl) rfl rfl (by decide) (by decide)
    (by decide) (by decide) (by decide) (Or.inl rfl) (by decide)
  ⟨h.2.1, (h.2.2 jan1.dayNo).trans (by decide)⟩

/-- C5 fails as stated, which asks nothing of the ids, of the `ScheduledFor` and
`CompletedAt` of `e` nor of the file of `T`.  In each input the task "Buy milk" is on
2024-01-01, it is scheduled for 2024-01-02, which holds no Task or Event, and
unscheduled.  (1) The task has an empty id: afterwards it carries a generated id.
(2) The task at index 1 shares the id `a` with the note at index 0: both calls take the
forward branch, the note is overwritten and 2024-01-02 ends with two clones.  (3) The
task has a `CompletedAt`: afterwards it has none.  (4) A note with an empty id is
stored on 2024-01-02: it receives an id.  (5) A note on 2024-01-02 already carries the
id that is generated for the clone: it is deleted together with the clone.  (6) The
file of 2024-01-02 holds a note in a last line without newline: the clone is written
onto that line, the undo finds no clone, and 2024-01-02 has lost its note.  (7) The
first target is 10000-01-01: the encoder rejects the anchor and the first call changes
nothing, so the second call, with the target 2024-01-02, schedules the task. -/
theorem scheduleDayIndex_inverse_fails :
    ((((Raw.appOf (diskOne jan1 [milk ""])).ScheduleDayIndex asciiStrings jan1 0
        jan2).2.ScheduleDayIndex asciiStrings jan1 0 jan2).2.Store.record jan1.dayNo =
        [milk "1704070800000000000-0000000000000001"] ∧
      (((Raw.appOf (diskOne jan1 [milk ""])).ScheduleDayIndex asciiStrings jan1 0
        jan2).2.ScheduleDayIndex asciiStrings jan1 0 jan2).2.Store.record jan1.dayNo ≠
        (Raw.appOf (diskOne jan1 [milk ""])).Store.record jan1.dayNo) ∧
    ((((Raw.appOf (diskOne jan1 [memo "a", milk "a"])).ScheduleDayIndex asciiStrings jan1 1
        jan2).2.ScheduleDayIndex asciiStrings jan1 1 jan2).2.Store.record jan1.dayNo =
        [forwarded (milk "a") Scheduled jan2, milk "a"] ∧
      ((((Raw.appOf (diskOne jan1 [memo "a", milk "a"])).ScheduleDayIndex asciiStrings jan1 1
        jan2).2.ScheduleDayIndex asciiStrings jan1 1 jan2).2.Store.record jan2.dayNo).map
        (·.Text) = ["Buy milk", "Buy milk"]) ∧
    ((((Raw.appOf (diskOne jan1 [{ milk "m1" with CompletedAt := some jan1 }])).ScheduleDayIndex
        asciiStrings jan1 0 jan2).2.ScheduleDayIndex asciiStrings jan1 0 jan2).2.Store.record
        jan1.dayNo = [milk "m1"]) ∧
    ((((Raw.appOf (diskTwo jan1 [milk "m1"] jan2 [memo ""])).ScheduleDayIndex asciiStrings jan1
        0 jan2).2.ScheduleDayIndex asciiStrings jan1 0 jan2).2.Store.record jan2.dayNo =
        [memo "1704070800000000002-0000000000000002"]) ∧
    ((((Raw.appOf (diskTwo jan1 [milk "m1"] jan2
        [memo "1704070800000000000-0000000000000001"])).ScheduleDayIndex asciiStrings jan1 0
        jan2).2.ScheduleDayIndex asciiStrings jan1 0 jan2).2.Store.record jan2.dayNo = []) ∧
    ((Raw.appOf ((diskTwo jan1 [milk "m1"] jan2 [memo "n1"]).endingIn jan2
        .entry)).Store.record jan2.dayNo = [memo "n1"] ∧
      (((Raw.appOf ((diskTwo jan1 [milk "m1"] jan2 [memo "n1"]).endingIn jan2
        .entry)).ScheduleDayIndex asciiStrings jan1 0 jan2).2.ScheduleDayIndex asciiStrings
        jan1 0 jan2).2.Store.record jan2.dayNo = []) ∧
    (((Raw.appOf (diskOne jan1 [milk "m1"])).ScheduleDayIndex asciiStrings jan1 0
        (Time.Date 10000 1 1)).1 = some (.encode jan1.dayNo) ∧
      ((((Raw.appOf (diskOne jan1 [milk "m1"])).ScheduleDayIndex asciiStrings jan1 0
        (Time.Date 10000 1 1)).2.ScheduleDayIndex asciiStrings jan1 0 jan2).2.Store.record
        jan1.dayNo).map (·.Typ) = [Scheduled]) := by
  decide

/-! ## `Append` and `LoadDay` on disk -/

/-- C17, as amended.  Let the day file be missing or empty, or end in a newline.  After
a successful `Append(date, e)` the record of the day is the previous record followed
by exactly one entry `e1`, and `LoadDay(date)`, when it succeeded before, returns its
previous result followed by `e1`.  The entry `e1` equals `e` field for field, except
that its id is a generated non-empty id when that of `e` was empty and its `CreatedAt`
is the reading of the clock taken right then when that of `e` was zero; its times lie
in the years 0 to 9999, since the encoder accepted them.  The files of all other days
are unchanged, and the day file ends in a newline again. -/
theorem append_roundTrip (s : Raw.FSStore) (date : Time) (e : Bullet)
    (hend : s.tail date.dayNo = .closed)
    (h : (s.Append date e).1 = none) :
    ∃ e1, Normalizes s.decoded e e1 ∧
      (e.CreatedAt.IsZero = true →
        e1.CreatedAt = s.decoded.clock (s.decoded.clockUsed + if e.ID = "" then 1 else 0)) ∧
      (s.Append date e).2.record date.dayNo = s.record date.dayNo ++ [e1] ∧
      (∀ items, s.LoadDay date = .ok items →
        (s.Append date e).2.LoadDay date = .ok (items ++ [e1])) ∧
      (∀ k, k ≠ date.dayNo → (s.Append date e).2.decoded.files k = s.decoded.files k) ∧
      e1.encodable = true ∧ (s.Append date e).2.tail date.dayNo = .closed := by
  obtain ⟨hl, henc⟩ := raw_append_ok s date e hend h
  have h1 : (s.decoded.Append date e).1 = none := by
    rw [hl] at h
    exact h
  have h0 := decoded_append_roundTrip s.decoded date e h1
  have he1 : ∀ e1, (s.decoded.Append date e).2.record date.dayNo
      = s.decoded.record date.dayNo ++ [e1] → e1 = (stamp s.decoded e).1 := by
    intro e1 hrec
    rw [append_result] at hrec h1
    by_cases hw : s.decoded.writeErr date.dayNo = true
    · rw [if_pos hw] at h1
      cases h1
    · rw [if_neg hw, record_writeFile, if_pos rfl] at hrec
      simpa using hrec.symm
  obtain ⟨e1, n1, n2, n3, n4, n5⟩ := h0
  refine ⟨e1, n1, n2, ?_, ?_, ?_, ?_, ?_⟩
  · rw [hl]
    exact n3
  · intro items hi
    rw [hl]
    exact n4 items hi
  · intro k hk
    rw [hl]
    exact n5 k hk
  · rw [he1 e1 n3]
    exact henc
  · rw [hl]
    simp [Raw.lift, h1, closeTail]

/-- Witness for C17: appending the task "Buy milk", without id and creation time, to
the empty 2024-01-01 puts it at index 0 of the day, with a generated id and the time
of the clock. -/
theorem append_roundTrip_witness :
    ((diskOf fun _ => none).Append jan1 bareMilk).1 = none ∧
    (((diskOf fun _ => none).Append jan1 bareMilk).2.record jan1.dayNo)[0]? =
      some { ID := "1704070800000000000-0000000000000001", Typ := Task, Text := "Buy milk",
             Tags := [], CreatedAt := ⟨jan1.ns + 3600000000001⟩, ScheduledFor := none,
             CompletedAt := none, Highlight := "" } ∧
    ∃ e1, ((diskOf fun _ => none).Append jan1 bareMilk).2.record jan1.dayNo =
      (diskOf fun _ => none).record jan1.dayNo ++ [e1] :=
  ⟨by decide, by decide,
    (append_roundTrip (diskOf fun _ => none) jan1 bareMilk rfl (by decide)).imp
      fun _ h => h.2.2.1⟩

/-- C17 fails as stated: the file of 2024-01-01 holds the note "Call Ann" in a last
line without newline.  `Append` of the task "Buy milk" succeeds; the new line is
written after the last byte, so it continues the line of the note, and the line so
formed is not valid JSON: `LoadDay` then returns nothing, neither the note nor the
task.  When the last line is not blank and does not decode, the day keeps its entries
and the task is lost all the same. -/
theorem append_roundTrip_fails :
    (((diskOne jan1 [memo "n1"]).endingIn jan1 .entry).record jan1.dayNo = [memo "n1"] ∧
      (((diskOne jan1 [memo "n1"]).endingIn jan1 .entry).Append jan1 bareMilk).1 = none ∧
      (((diskOne jan1 [memo "n1"]).endingIn jan1 .entry).Append jan1 bareMilk).2.record
        jan1.dayNo = []) ∧
    ((((diskOne jan1 [memo "n1"]).endingIn jan1 .junk).Append jan1 bareMilk).1 = none ∧
      (((diskOne jan1 [memo "n1"]).endingIn jan1 .junk).Append jan1 bareMilk).2.record
        jan1.dayNo = [memo "n1"]) := by
  decide

/-! ## `Refresh` across a change of offset -/

/-- C16 does not hold of the code in a zone whose offset changes inside the window.
The anchor is 2024-10-15 in Europe/Berlin, in month view: the window runs from
2024-10-01 to 2024-10-31, the store holds a task on 2024-10-27, the day summer time
ends, and a note on 2024-10-31.  `Refresh` returns no error and leaves the store as it
is, but it steps by 24 hours: it loads 2024-10-27, which lasts 25 hours, twice, and its
last step, 23:00 on 2024-10-30, is followed by 23:00 on 2024-10-31, which is after the
end of the window, so that 2024-10-31 is never loaded.  In UTC the same call collects
the task once and the note. -/
theorem refresh_skips_last_day :
    octoberApp.dateRange = ⟨oct 1, oct 31⟩ ∧
    (octoberApp.Refresh berlin2024).1 = none ∧
    (octoberApp.Refresh berlin2024).2.Items = [⟨oct 27, milk "m1"⟩, ⟨oct 27, milk "m1"⟩] ∧
    octoberApp.Store.record (oct 31).dayNo = [memo "n1"] ∧
    (octoberApp.Refresh utcZone).2.Items = [⟨oct 27, milk "m1"⟩, ⟨oct 31, memo "n1"⟩] := by
  decide

/-! ## Migration by visible index on a day of 25 hours -/

/-- C28 does not hold of the code on a day on which the offset changes.  The
application is in day view of 2024-10-27 in Europe/Berlin, without filters, and its
cache holds what `Refresh` loads, the task "Buy milk".  `MigrateIndex(0)` computes the
next day as the date plus 24 hours, which is 23:00 on the same day: the clone is
appended to 2024-10-27 itself and the anchor is scheduled for 23:00 on that day.
`MigrateDayIndex(2024-10-27, 0)` computes the next day with `AddDate(0, 0, 1)`: the
clone is appended to 2024-10-28.  The two stores differ. -/
theorem migrateIndex_same_day :
    changeDayApp.Fresh berlin2024 ∧
    (changeDayApp.MigrateIndex berlin2024 asciiStrings 0).1 = none ∧
    ((changeDayApp.MigrateIndex berlin2024 asciiStrings 0).2.Store.record (oct 27).dayNo).map
      (fun b => (b.Typ, b.ScheduledFor)) =
      [(Migrated, some ⟨(oct 27).ns + 82800000000000⟩), (Task, none)] ∧
    (changeDayApp.MigrateIndex berlin2024 asciiStrings 0).2.Store.record (oct 28).dayNo = [] ∧
    (changeDayApp.MigrateDayIndex asciiStrings (oct 27) 0).1 = none ∧
    ((changeDayApp.MigrateDayIndex asciiStrings (oct 27) 0).2.Store.record (oct 27).dayNo).map
      (fun b => (b.Typ, b.ScheduledFor)) = [(Migrated, some (oct 28))] ∧
    ((changeDayApp.MigrateDayIndex asciiStrings (oct 27) 0).2.Store.record (oct 28).dayNo).map
      (fun b => (b.Typ, b.Text)) = [(Task, "Buy milk")] := by
  decide

/-! ## Deleting by visible index -/

end Blt
